import Mathlib

/-!
Verification of the ArbitraryPrecision integer library (ArbitraryInteger.hpp).

The library implements unsigned multi-precision integers stored as ordered
sequences of 64-bit segments, least-significant first, in two modes:

* FixedInteger (template parameter Bits, segment count = Bits / 64): the
  segment count is constant and all arithmetic wraps modulo 2 ^ Bits;
* DynamicInteger: the segment vector grows and shrinks at runtime, and is
  trimmed after mutating operations so that the most-significant segment is
  non-zero unless only one segment remains.

We embed a value as a `List Nat` of segments, each `< 2 ^ 64` (predicate
`Good`), and interpret it with `val` (little-endian base `2 ^ 64`).  Every
operation of the C++ source is translated into a pure Lean function on
segment lists; in-place loops become structural recursions or index maps
computing exactly the values the loop stores (the loops only read positions
they have not yet overwritten, so this is a faithful translation).
-/

set_option maxHeartbeats 1000000

namespace ArbitraryPrecision

/-- Value of one full segment: segments are `uint64_t`, so `W = 2 ^ 64`. -/
def W : Nat := 2 ^ 64

theorem W_pos : 0 < W := by norm_num [W]

theorem one_lt_W : 1 < W := by norm_num [W]

/-- Every stored segment is a valid 64-bit value. -/
def Good (l : List Nat) : Prop := ∀ x ∈ l, x < W

theorem Good_nil : Good [] := by intro x hx; cases hx

theorem Good_cons {c : Nat} {l : List Nat} :
    Good (c :: l) ↔ c < W ∧ Good l := by
  constructor
  · intro h
    exact ⟨h c (by simp), fun x hx => h x (by simp [hx])⟩
  · rintro ⟨hc, hl⟩ x hx
    rcases List.mem_cons.1 hx with rfl | hx
    · exact hc
    · exact hl x hx

theorem Good_append {l₁ l₂ : List Nat} :
    Good (l₁ ++ l₂) ↔ Good l₁ ∧ Good l₂ := by
  constructor
  · intro h
    exact ⟨fun x hx => h x (by simp [hx]), fun x hx => h x (by simp [hx])⟩
  · rintro ⟨h₁, h₂⟩ x hx
    rcases List.mem_append.1 hx with hx | hx
    · exact h₁ x hx
    · exact h₂ x hx

theorem Good_replicate (n c : Nat) (hc : c < W) : Good (List.replicate n c) := by
  intro x hx
  rcases List.eq_of_mem_replicate hx with rfl
  exact hc

theorem Good_take {l : List Nat} (m : Nat) (h : Good l) : Good (l.take m) :=
  fun x hx => h x (List.mem_of_mem_take hx)

theorem Good_drop {l : List Nat} (m : Nat) (h : Good l) : Good (l.drop m) :=
  fun x hx => h x (List.mem_of_mem_drop hx)

theorem Good_set {l : List Nat} {i x : Nat} (h : Good l) (hx : x < W) :
    Good (l.set i x) := by
  intro y hy
  rcases List.mem_or_eq_of_mem_set hy with hy | rfl
  · exact h y hy
  · exact hx

theorem Good_getD {l : List Nat} (h : Good l) (i : Nat) : l.getD i 0 < W := by
  rcases Nat.lt_or_ge i l.length with hi | hi
  · rw [List.getD_eq_getElem l 0 hi]
    exact h _ (List.getElem_mem hi)
  · rw [List.getD_eq_default _ _ hi]
    exact W_pos

/-- Little-endian base-`W` interpretation of a segment list. -/
def val : List Nat → Nat
  | [] => 0
  | c :: cs => c + W * val cs

@[simp] theorem val_nil : val [] = 0 := rfl

@[simp] theorem val_cons (c : Nat) (cs : List Nat) :
    val (c :: cs) = c + W * val cs := rfl

theorem val_append (l₁ l₂ : List Nat) :
    val (l₁ ++ l₂) = val l₁ + W ^ l₁.length * val l₂ := by
  induction l₁ with
  | nil => simp
  | cons c cs ih => simp [ih, pow_succ]; ring

@[simp] theorem val_replicate_zero (n : Nat) : val (List.replicate n 0) = 0 := by
  induction n with
  | zero => rfl
  | succ n ih => simp [List.replicate_succ, ih]

theorem val_lt (l : List Nat) (h : Good l) : val l < W ^ l.length := by
  induction l with
  | nil => simp
  | cons c cs ih =>
    rcases Good_cons.1 h with ⟨hc, hcs⟩
    have := ih hcs
    simp only [val_cons, List.length_cons, pow_succ]
    calc c + W * val cs < W + W * val cs := by omega
    _ = W * (val cs + 1) := by ring
    _ ≤ W * W ^ cs.length := by
        have : val cs + 1 ≤ W ^ cs.length := this
        exact Nat.mul_le_mul_left _ this
    _ = W ^ cs.length * W := by ring

/-- Two well-formed segment lists of equal length with the same value are
equal (the representation of Fixed values is unique). -/
theorem val_inj {l₁ l₂ : List Nat} (h₁ : Good l₁) (h₂ : Good l₂)
    (hlen : l₁.length = l₂.length) (hval : val l₁ = val l₂) : l₁ = l₂ := by
  induction l₁ generalizing l₂ with
  | nil =>
    cases l₂ with
    | nil => rfl
    | cons c cs => simp at hlen
  | cons c cs ih =>
    cases l₂ with
    | nil => simp at hlen
    | cons d ds =>
      rcases Good_cons.1 h₁ with ⟨hc, hcs⟩
      rcases Good_cons.1 h₂ with ⟨hd, hds⟩
      simp only [val_cons] at hval
      have hcd : c = d := by
        have h₁ : (c + W * val cs) % W = c := by
          rw [Nat.add_mul_mod_self_left, Nat.mod_eq_of_lt hc]
        have h₂ : (d + W * val ds) % W = d := by
          rw [Nat.add_mul_mod_self_left, Nat.mod_eq_of_lt hd]
        rw [← h₁, ← h₂, hval]
      subst hcd
      have hval' : val cs = val ds := by
        have hW := W_pos
        have : W * val cs = W * val ds := by omega
        exact Nat.eq_of_mul_eq_mul_left hW this
      have := ih hcs hds (by simpa using hlen) hval'
      rw [this]

theorem val_take (l : List Nat) (h : Good l) (m : Nat) :
    val (l.take m) = val l % W ^ m := by
  induction l generalizing m with
  | nil => simp
  | cons c cs ih =>
    cases m with
    | zero => simp [Nat.mod_one]
    | succ m =>
      rcases Good_cons.1 h with ⟨hc, hcs⟩
      simp only [List.take_succ_cons, val_cons, ih hcs m, pow_succ]
      rw [mul_comm (W ^ m) W]
      have hq := Nat.div_add_mod (val cs) (W ^ m)
      have hlt : val cs % W ^ m < W ^ m := Nat.mod_lt _ (Nat.pos_pow_of_pos m W_pos)
      have h2 : c + W * (val cs % W ^ m) < W * W ^ m := by
        calc c + W * (val cs % W ^ m) < W + W * (val cs % W ^ m) := by omega
        _ = W * (val cs % W ^ m + 1) := by ring
        _ ≤ W * W ^ m := Nat.mul_le_mul_left _ hlt
      have h3 : W * val cs
          = W * (val cs % W ^ m) + (val cs / W ^ m) * (W * W ^ m) := by
        conv_lhs => rw [← hq]
        ring
      calc c + W * (val cs % W ^ m)
          = (c + W * (val cs % W ^ m)) % (W * W ^ m) := (Nat.mod_eq_of_lt h2).symm
        _ = (c + W * (val cs % W ^ m) + (val cs / W ^ m) * (W * W ^ m))
              % (W * W ^ m) := (Nat.add_mul_mod_self_right _ _ _).symm
        _ = (c + W * val cs) % (W * W ^ m) := by rw [h3]; ring_nf

theorem val_drop (l : List Nat) (h : Good l) (m : Nat) :
    val (l.drop m) = val l / W ^ m := by
  induction l generalizing m with
  | nil => simp
  | cons c cs ih =>
    cases m with
    | zero => simp
    | succ m =>
      rcases Good_cons.1 h with ⟨hc, hcs⟩
      simp only [List.drop_succ_cons, val_cons, ih hcs m, pow_succ]
      rw [mul_comm (W ^ m) W, ← Nat.div_div_eq_div_mul]
      congr 1
      rw [Nat.add_mul_div_left _ _ W_pos, Nat.div_eq_of_lt hc, Nat.zero_add]

theorem val_getD (l : List Nat) (h : Good l) (i : Nat) :
    l.getD i 0 = val l / W ^ i % W := by
  have hdrop := val_drop l h i
  rcases Nat.lt_or_ge i l.length with hi | hi
  · have : l.drop i = l.getD i 0 :: l.drop (i + 1) := by
      rw [List.getD_eq_getElem l 0 hi]
      exact (List.drop_eq_getElem_cons hi)
    rw [this] at hdrop
    simp only [val_cons] at hdrop
    rw [← hdrop, Nat.add_mul_mod_self_left,
      Nat.mod_eq_of_lt (Good_getD h i)]
  · rw [List.getD_eq_default _ _ hi]
    have hz : val l / W ^ i = 0 := by
      rw [← hdrop, List.drop_eq_nil_of_le hi]
      rfl
    rw [hz]
    rfl

theorem val_set (l : List Nat) (i x : Nat) (hi : i < l.length) :
    val (l.set i x) + (l.getD i 0) * W ^ i = val l + x * W ^ i := by
  induction l generalizing i with
  | nil => simp at hi
  | cons c cs ih =>
    cases i with
    | zero => simp [List.set]; ring
    | succ i =>
      simp only [List.set, val_cons, List.getD_cons_succ, pow_succ]
      have := ih i (by simpa using hi)
      have goal : W * val (cs.set i x) + cs.getD i 0 * (W ^ i * W)
          = W * val cs + x * (W ^ i * W) := by
        calc W * val (cs.set i x) + cs.getD i 0 * (W ^ i * W)
            = W * (val (cs.set i x) + cs.getD i 0 * W ^ i) := by ring
        _ = W * (val cs + x * W ^ i) := by rw [this]
        _ = W * val cs + x * (W ^ i * W) := by ring
      omega

theorem length_set_eq (l : List Nat) (i x : Nat) :
    (l.set i x).length = l.length := by simp

/-- Bitwise-or of numbers with no common bits is addition. -/
theorem lor_eq_add (x y : Nat) (h : x &&& y = 0) : x ||| y = x + y := by
  induction x using Nat.binaryRec generalizing y with
  | z => simp
  | f b n ih =>
    have hy : y = Nat.bit y.bodd y.div2 := (Nat.bit_decomp y).symm
    rw [hy] at h ⊢
    rw [Nat.land_bit] at h
    rw [Nat.lor_bit]
    have hparts := Nat.bit_eq_zero_iff.1 h
    have h2 : n &&& y.div2 = 0 := hparts.1
    have hb : (b && y.bodd) = false := hparts.2
    rw [ih _ h2, Nat.bit_val, Nat.bit_val, Nat.bit_val]
    cases b <;> cases hyb : y.bodd <;> simp only [Bool.or_self, Bool.false_or,
      Bool.or_false, Bool.true_or, Bool.toNat_false, Bool.toNat_true] <;> try omega
    · rw [hyb] at hb
      simp at hb

/-- A shifted block or-ed with a small number is their sum
(used for recombining segment halves). -/
theorem mul_pow_lor_eq_add (a b k : Nat) (hb : b < 2 ^ k) :
    (a * 2 ^ k) ||| b = a * 2 ^ k + b := by
  apply lor_eq_add
  apply Nat.eq_of_testBit_eq
  intro i
  simp only [Nat.testBit_and, Nat.zero_testBit]
  rcases Nat.lt_or_ge i k with hik | hik
  · have : (a * 2 ^ k).testBit i = false := by
      rw [Nat.testBit_to_div_mod]
      have hdiv : a * 2 ^ k / 2 ^ i % 2 = 0 := by
        have heq : a * 2 ^ k = (2 * (a * 2 ^ (k - i - 1))) * 2 ^ i := by
          have hk : k = (k - i - 1) + 1 + i := by omega
          calc a * 2 ^ k = a * 2 ^ ((k - i - 1) + 1 + i) := by rw [← hk]
          _ = (2 * (a * 2 ^ (k - i - 1))) * 2 ^ i := by
              rw [pow_add, pow_succ]; ring
        rw [heq, Nat.mul_div_cancel _ (Nat.pos_pow_of_pos i (by norm_num)),
          Nat.mul_mod_right]
      simp [hdiv]
    simp [this]
  · have : b.testBit i = false := by
      apply Nat.testBit_eq_false_of_lt
      exact lt_of_lt_of_le hb (Nat.pow_le_pow_right (by norm_num) hik)
    simp [this]

/-- Helper `add_with_carry` of the source: 64-bit wrapping addition,
returning the written segment and the carry-out flag
(computed, as in the source, from result comparisons). -/
def add_with_carry (a b : Nat) (carry_in : Bool) : Nat × Bool :=
  let result := (a + b + (if carry_in then 1 else 0)) % W
  (result, decide (result < a) || (carry_in && decide (result = a)))

/-- Helper `sub_with_borrow` of the source: 64-bit wrapping subtraction
(two's complement wraparound written with an explicit `+ W`). -/
def sub_with_borrow (a b : Nat) (borrow_in : Bool) : Nat × Bool :=
  let result := (W + a - b - (if borrow_in then 1 else 0)) % W
  (result, decide (b > a) || (borrow_in && decide (b = a)))

theorem add_with_carry_spec (a b : Nat) (c : Bool) (ha : a < W) (hb : b < W) :
    (add_with_carry a b c).1 + W * ((add_with_carry a b c).2.toNat)
      = a + b + c.toNat ∧ (add_with_carry a b c).1 < W := by
  have hW := W_pos
  cases c with
  | false =>
    have e : add_with_carry a b false
        = ((a + b) % W, decide ((a + b) % W < a)) := by
      simp [add_with_carry]
    rw [e]
    simp only [Bool.toNat_false, Nat.add_zero]
    rcases Nat.lt_or_ge (a + b) W with hlt | hge
    · rw [Nat.mod_eq_of_lt hlt,
        decide_eq_false (show ¬(a + b < a) by omega)]
      simp only [Bool.toNat_false, Bool.toNat_false]
      constructor <;> omega
    · have hmod : (a + b) % W = a + b - W := by
        rw [Nat.mod_eq_sub_mod hge, Nat.mod_eq_of_lt (by omega)]
      rw [hmod, decide_eq_true (show a + b - W < a by omega)]
      simp only [Bool.toNat_true]
      constructor <;> omega
  | true =>
    have e : add_with_carry a b true
        = ((a + b + 1) % W,
           decide ((a + b + 1) % W < a) || decide ((a + b + 1) % W = a)) := by
      simp [add_with_carry]
    rw [e]
    simp only [Bool.toNat_true]
    rcases Nat.lt_or_ge (a + b + 1) W with hlt | hge
    · rw [Nat.mod_eq_of_lt hlt,
        decide_eq_false (show ¬(a + b + 1 < a) by omega),
        decide_eq_false (show ¬(a + b + 1 = a) by omega)]
      simp only [Bool.or_false, Bool.toNat_false, Bool.toNat_true]
      constructor <;> omega
    · have hmod : (a + b + 1) % W = a + b + 1 - W := by
        rw [Nat.mod_eq_sub_mod hge, Nat.mod_eq_of_lt (by omega)]
      rw [hmod]
      rcases Nat.lt_or_ge b (W - 1) with hb1 | hb1
      · rw [decide_eq_true (show a + b + 1 - W < a by omega)]
        simp only [Bool.true_or, Bool.toNat_true]
        constructor <;> omega
      · rw [decide_eq_true (show a + b + 1 - W = a by omega)]
        simp only [Bool.or_true, Bool.toNat_true]
        constructor <;> omega

theorem sub_with_borrow_spec (a b : Nat) (c : Bool) (ha : a < W) (hb : b < W) :
    (sub_with_borrow a b c).1 + b + c.toNat
      = a + W * ((sub_with_borrow a b c).2.toNat)
      ∧ (sub_with_borrow a b c).1 < W := by
  have hW := W_pos
  cases c with
  | false =>
    have e : sub_with_borrow a b false
        = ((W + a - b) % W, decide (b > a)) := by
      simp [sub_with_borrow]
    rw [e]
    simp only [Bool.toNat_false, Nat.add_zero]
    rcases Nat.lt_or_ge a b with hab | hab
    · -- borrow out
      have hmod : (W + a - b) % W = W + a - b := Nat.mod_eq_of_lt (by omega)
      rw [hmod, decide_eq_true (show b > a by omega)]
      simp only [Bool.toNat_true]
      constructor <;> omega
    · have hmod : (W + a - b) % W = a - b := by
        have h2 : W + a - b = W + (a - b) := by omega
        rw [h2, Nat.add_mod_left, Nat.mod_eq_of_lt (by omega)]
      rw [hmod, decide_eq_false (show ¬(b > a) by omega)]
      simp only [Bool.toNat_false]
      constructor <;> omega
  | true =>
    have e : sub_with_borrow a b true
        = ((W + a - b - 1) % W, decide (b > a) || decide (b = a)) := by
      simp [sub_with_borrow]
    rw [e]
    simp only [Bool.toNat_true]
    rcases Nat.lt_or_ge a (b + 1) with hab | hab
    · -- borrow out: either b > a, or b = a
      have hmod : (W + a - b - 1) % W = W + a - b - 1 :=
        Nat.mod_eq_of_lt (by omega)
      rw [hmod]
      rcases Nat.lt_or_ge a b with h1 | h1
      · rw [decide_eq_true (show b > a by omega)]
        simp only [Bool.true_or, Bool.toNat_true]
        constructor <;> omega
      · rw [decide_eq_true (show b = a by omega)]
        simp only [Bool.or_true, Bool.toNat_true]
        constructor <;> omega
    · have hmod : (W + a - b - 1) % W = a - b - 1 := by
        have h2 : W + a - b - 1 = W + (a - b - 1) := by omega
        rw [h2, Nat.add_mod_left, Nat.mod_eq_of_lt (by omega)]
      rw [hmod, decide_eq_false (show ¬(b > a) by omega),
        decide_eq_false (show ¬(b = a) by omega)]
      simp only [Bool.or_false, Bool.toNat_false]
      constructor <;> omega

/-- Helper `mul128` of the source: full 64×64→128-bit product from four
32×32 partial products; each `uint64_t` operation carries an explicit
`% W`, and bit operations are kept as in the source. -/
def mul128 (a b : Nat) : Nat × Nat :=
  let a_lo := a &&& 0xFFFFFFFF
  let a_hi := a >>> 32
  let b_lo := b &&& 0xFFFFFFFF
  let b_hi := b >>> 32
  let p0 := (a_lo * b_lo) % W
  let p1 := (a_lo * b_hi) % W
  let p2 := (a_hi * b_lo) % W
  let p3 := (a_hi * b_hi) % W
  let mid1 := (p1 + (p0 >>> 32)) % W
  let mid := (mid1 + p2) % W
  let carry : Nat := if mid < p1 then 1 else 0
  let lo := ((mid <<< 32) % W) ||| (p0 &&& 0xFFFFFFFF)
  let hi := (p3 + (mid >>> 32) + ((carry <<< 32) % W)) % W
  (lo, hi)

theorem land_ffffffff (x : Nat) : x &&& 0xFFFFFFFF = x % 2 ^ 32 := by
  have h : (0xFFFFFFFF : Nat) = 2 ^ 32 - 1 := by norm_num
  rw [h, Nat.and_pow_two_sub_one_eq_mod]

theorem mul128_spec (a b : Nat) (ha : a < W) (hb : b < W) :
    (mul128 a b).1 + W * (mul128 a b).2 = a * b
      ∧ (mul128 a b).1 < W ∧ (mul128 a b).2 < W := by
  have hW64 : W = 2 ^ 64 := by norm_num [W]
  unfold mul128
  simp only [land_ffffffff, Nat.shiftRight_eq_div_pow, Nat.shiftLeft_eq]
  rw [hW64] at ha hb ⊢
  set al := a % 2 ^ 32 with hal
  set ah := a / 2 ^ 32 with hah
  set bl := b % 2 ^ 32 with hbl
  set bh := b / 2 ^ 32 with hbh
  have halH : al < 2 ^ 32 := by omega
  have hblH : bl < 2 ^ 32 := by omega
  have hahH : ah < 2 ^ 32 := by omega
  have hbhH : bh < 2 ^ 32 := by omega
  have hp0b : al * bl ≤ (2 ^ 32 - 1) * (2 ^ 32 - 1) :=
    Nat.mul_le_mul (by omega) (by omega)
  have hp1b : al * bh ≤ (2 ^ 32 - 1) * (2 ^ 32 - 1) :=
    Nat.mul_le_mul (by omega) (by omega)
  have hp2b : ah * bl ≤ (2 ^ 32 - 1) * (2 ^ 32 - 1) :=
    Nat.mul_le_mul (by omega) (by omega)
  have hp3b : ah * bh ≤ (2 ^ 32 - 1) * (2 ^ 32 - 1) :=
    Nat.mul_le_mul (by omega) (by omega)
  rw [Nat.mod_eq_of_lt (show al * bl < 2 ^ 64 by omega),
    Nat.mod_eq_of_lt (show al * bh < 2 ^ 64 by omega),
    Nat.mod_eq_of_lt (show ah * bl < 2 ^ 64 by omega),
    Nat.mod_eq_of_lt (show ah * bh < 2 ^ 64 by omega)]
  set p0 := al * bl with hp0d
  set p1 := al * bh with hp1d
  set p2 := ah * bl with hp2d
  set p3 := ah * bh with hp3d
  have hmid1lt : p1 + p0 / 2 ^ 32 < 2 ^ 64 := by omega
  rw [Nat.mod_eq_of_lt hmid1lt]
  set mid := (p1 + p0 / 2 ^ 32 + p2) % 2 ^ 64 with hmid
  set q := (p1 + p0 / 2 ^ 32 + p2) / 2 ^ 64 with hq
  have hmidlt : mid < 2 ^ 64 := by omega
  have hq01 : q = 0 ∨ q = 1 := by omega
  have hcarry : (if mid < p1 then (1 : Nat) else 0) = q := by
    rcases hq01 with hq0 | hq1
    · rw [if_neg (by omega), hq0]
    · rw [if_pos (by omega), hq1]
  rw [hcarry]
  have hloShift : mid * 2 ^ 32 % 2 ^ 64 = mid % 2 ^ 32 * 2 ^ 32 := by
    rw [show (2 : Nat) ^ 64 = 2 ^ 32 * 2 ^ 32 by norm_num, Nat.mul_mod_mul_right]
  rw [hloShift]
  have hlor : (mid % 2 ^ 32 * 2 ^ 32) ||| (p0 % 2 ^ 32)
      = mid % 2 ^ 32 * 2 ^ 32 + p0 % 2 ^ 32 :=
    mul_pow_lor_eq_add (mid % 2 ^ 32) (p0 % 2 ^ 32) 32 (by omega)
  rw [hlor]
  have hqH : q * 2 ^ 32 % 2 ^ 64 = q * 2 ^ 32 := Nat.mod_eq_of_lt (by omega)
  rw [hqH]
  have hab : a * b = p3 * 2 ^ 64 + (p1 + p2) * 2 ^ 32 + p0 := by
    have ha2 : a = ah * 2 ^ 32 + al := by omega
    have hb2 : b = bh * 2 ^ 32 + bl := by omega
    rw [ha2, hb2, hp0d, hp1d, hp2d, hp3d]
    ring
  have e1 : mid % 2 ^ 32 * 2 ^ 32 + mid / 2 ^ 32 * 2 ^ 64 = mid * 2 ^ 32 := by
    have h := Nat.mod_add_div mid (2 ^ 32)
    calc mid % 2 ^ 32 * 2 ^ 32 + mid / 2 ^ 32 * 2 ^ 64
        = (mid % 2 ^ 32 + 2 ^ 32 * (mid / 2 ^ 32)) * 2 ^ 32 := by ring
      _ = mid * 2 ^ 32 := by rw [h]
  have e2 : mid * 2 ^ 32 + q * 2 ^ 64 * 2 ^ 32
      = (p1 + p0 / 2 ^ 32 + p2) * 2 ^ 32 := by
    have h : mid + 2 ^ 64 * q = p1 + p0 / 2 ^ 32 + p2 := by omega
    calc mid * 2 ^ 32 + q * 2 ^ 64 * 2 ^ 32 = (mid + 2 ^ 64 * q) * 2 ^ 32 := by
          ring
      _ = (p1 + p0 / 2 ^ 32 + p2) * 2 ^ 32 := by rw [h]
  have e3 : p0 / 2 ^ 32 * 2 ^ 32 + p0 % 2 ^ 32 = p0 := by
    have h := Nat.div_add_mod p0 (2 ^ 32)
    omega
  have hhiExact : mid % 2 ^ 32 * 2 ^ 32 + p0 % 2 ^ 32
      + 2 ^ 64 * (p3 + mid / 2 ^ 32 + q * 2 ^ 32) = a * b := by
    calc mid % 2 ^ 32 * 2 ^ 32 + p0 % 2 ^ 32
          + 2 ^ 64 * (p3 + mid / 2 ^ 32 + q * 2 ^ 32)
        = (mid % 2 ^ 32 * 2 ^ 32 + mid / 2 ^ 32 * 2 ^ 64) + p0 % 2 ^ 32
            + 2 ^ 64 * p3 + q * 2 ^ 64 * 2 ^ 32 := by ring
      _ = mid * 2 ^ 32 + p0 % 2 ^ 32 + 2 ^ 64 * p3 + q * 2 ^ 64 * 2 ^ 32 := by
          rw [e1]
      _ = (mid * 2 ^ 32 + q * 2 ^ 64 * 2 ^ 32) + p0 % 2 ^ 32 + 2 ^ 64 * p3 := by
          ring
      _ = (p1 + p0 / 2 ^ 32 + p2) * 2 ^ 32 + p0 % 2 ^ 32 + 2 ^ 64 * p3 := by
          rw [e2]
      _ = p1 * 2 ^ 32 + p2 * 2 ^ 32
            + (p0 / 2 ^ 32 * 2 ^ 32 + p0 % 2 ^ 32) + 2 ^ 64 * p3 := by ring
      _ = p1 * 2 ^ 32 + p2 * 2 ^ 32 + p0 + 2 ^ 64 * p3 := by rw [e3]
      _ = a * b := by rw [hab]; ring
  have habUb : a * b ≤ (2 ^ 64 - 1) * (2 ^ 64 - 1) :=
    Nat.mul_le_mul (by omega) (by omega)
  have hhiLt : p3 + mid / 2 ^ 32 + q * 2 ^ 32 < 2 ^ 64 := by omega
  rw [Nat.mod_eq_of_lt hhiLt]
  refine ⟨hhiExact, ?_, hhiLt⟩
  have h2 : mid % 2 ^ 32 * 2 ^ 32 ≤ (2 ^ 32 - 1) * 2 ^ 32 :=
    Nat.mul_le_mul (by omega) (by omega)
  omega

/-- Splitting a value into its low segment and the rest, modulo a segment
count: if the head is in range, reduction only affects the tail. -/
theorem head_tail_mod (u v k : Nat) (hu : u < W) :
    (u + W * v) % W ^ (k + 1) = u + W * (v % W ^ k) := by
  have hWk : 0 < W ^ k := Nat.pos_pow_of_pos k W_pos
  have hsplit := Nat.div_add_mod v (W ^ k)
  have h1 : u + W * v
      = (u + W * (v % W ^ k)) + (v / W ^ k) * (W ^ (k + 1)) := by
    conv_lhs => rw [← hsplit]
    ring
  rw [h1, Nat.add_mul_mod_self_right]
  apply Nat.mod_eq_of_lt
  have h2 : v % W ^ k < W ^ k := Nat.mod_lt _ hWk
  calc u + W * (v % W ^ k) < W + W * (v % W ^ k) := by omega
    _ = W * (v % W ^ k + 1) := by ring
    _ ≤ W * W ^ k := Nat.mul_le_mul_left _ h2
    _ = W ^ (k + 1) := by rw [pow_succ]; ring

theorem val_headD_tail (bs : List Nat) :
    val bs = bs.headD 0 + W * val bs.tail := by
  cases bs <;> simp

theorem Good_tail {bs : List Nat} (h : Good bs) : Good bs.tail := by
  cases bs with
  | nil => exact h
  | cons b bs => exact (Good_cons.1 h).2

theorem Good_headD {bs : List Nat} (h : Good bs) : bs.headD 0 < W := by
  cases bs with
  | nil => exact W_pos
  | cons b bs => exact (Good_cons.1 h).1

/-- The segment loop of `operator+=`: the receiver (first list) has already
been resized to the full length; positions of the second operand beyond its
stored length read as zero (`headD 0`), exactly as in the source. -/
def addSegs : List Nat → List Nat → Bool → List Nat × Bool
  | [], _, carry => ([], carry)
  | a :: as, bs, carry =>
      let r := add_with_carry a (bs.headD 0) carry
      let rest := addSegs as bs.tail r.2
      (r.1 :: rest.1, rest.2)

/-- The segment loop of `operator-=`, same conventions as `addSegs`. -/
def subSegs : List Nat → List Nat → Bool → List Nat × Bool
  | [], _, borrow => ([], borrow)
  | a :: as, bs, borrow =>
      let r := sub_with_borrow a (bs.headD 0) borrow
      let rest := subSegs as bs.tail r.2
      (r.1 :: rest.1, rest.2)

theorem addSegs_spec (as : List Nat) : ∀ (bs : List Nat) (c : Bool),
    Good as → Good bs → bs.length ≤ as.length →
    val (addSegs as bs c).1 + W ^ as.length * (addSegs as bs c).2.toNat
        = val as + val bs + c.toNat
      ∧ (addSegs as bs c).1.length = as.length
      ∧ Good (addSegs as bs c).1 := by
  induction as with
  | nil =>
    intro bs c _ _ hlen
    have hbs : bs = [] := List.eq_nil_of_length_eq_zero (by simpa using hlen)
    subst hbs
    exact ⟨by simp [addSegs], rfl, Good_nil⟩
  | cons a as ih =>
    intro bs c hga hgb hlen
    rcases Good_cons.1 hga with ⟨ha, has⟩
    have hb0 : bs.headD 0 < W := Good_headD hgb
    obtain ⟨hadc, hadcLt⟩ := add_with_carry_spec a (bs.headD 0) c ha hb0
    have htl : bs.tail.length ≤ as.length := by
      cases bs <;> simp_all
    obtain ⟨hrest, hrlen, hrgood⟩ :=
      ih bs.tail (add_with_carry a (bs.headD 0) c).2 has (Good_tail hgb) htl
    have hunf : addSegs (a :: as) bs c
        = ((add_with_carry a (bs.headD 0) c).1
            :: (addSegs as bs.tail (add_with_carry a (bs.headD 0) c).2).1,
           (addSegs as bs.tail (add_with_carry a (bs.headD 0) c).2).2) := rfl
    refine ⟨?_, by rw [hunf]; simpa using hrlen, ?_⟩
    · show val (addSegs (a :: as) bs c).1
          + W ^ (a :: as).length * (addSegs (a :: as) bs c).2.toNat
        = val (a :: as) + val bs + c.toNat
      rw [hunf]
      simp only [val_cons, List.length_cons, pow_succ]
      rw [val_headD_tail bs]
      set r1 := (add_with_carry a (bs.headD 0) c).1
      set c1 := (add_with_carry a (bs.headD 0) c).2
      set rest := addSegs as bs.tail c1
      calc r1 + W * val rest.1 + W ^ as.length * W * rest.2.toNat
          = r1 + W * (val rest.1 + W ^ as.length * rest.2.toNat) := by ring
        _ = r1 + W * (val as + val bs.tail + c1.toNat) := by rw [hrest]
        _ = (r1 + W * c1.toNat) + W * val as + W * val bs.tail := by ring
        _ = (a + bs.headD 0 + c.toNat) + W * val as + W * val bs.tail := by
            rw [hadc]
        _ = a + W * val as + (bs.headD 0 + W * val bs.tail) + c.toNat := by ring
    · show Good (addSegs (a :: as) bs c).1
      rw [hunf]
      exact Good_cons.2 ⟨hadcLt, hrgood⟩

theorem subSegs_spec (as : List Nat) : ∀ (bs : List Nat) (c : Bool),
    Good as → Good bs → bs.length ≤ as.length →
    val (subSegs as bs c).1 + val bs + c.toNat
        = val as + W ^ as.length * (subSegs as bs c).2.toNat
      ∧ (subSegs as bs c).1.length = as.length
      ∧ Good (subSegs as bs c).1 := by
  induction as with
  | nil =>
    intro bs c _ _ hlen
    have hbs : bs = [] := List.eq_nil_of_length_eq_zero (by simpa using hlen)
    subst hbs
    exact ⟨by simp [subSegs], rfl, Good_nil⟩
  | cons a as ih =>
    intro bs c hga hgb hlen
    rcases Good_cons.1 hga with ⟨ha, has⟩
    have hb0 : bs.headD 0 < W := Good_headD hgb
    obtain ⟨hsbb, hsbbLt⟩ := sub_with_borrow_spec a (bs.headD 0) c ha hb0
    have htl : bs.tail.length ≤ as.length := by
      cases bs <;> simp_all
    obtain ⟨hrest, hrlen, hrgood⟩ :=
      ih bs.tail (sub_with_borrow a (bs.headD 0) c).2 has (Good_tail hgb) htl
    have hunf : subSegs (a :: as) bs c
        = ((sub_with_borrow a (bs.headD 0) c).1
            :: (subSegs as bs.tail (sub_with_borrow a (bs.headD 0) c).2).1,
           (subSegs as bs.tail (sub_with_borrow a (bs.headD 0) c).2).2) := rfl
    refine ⟨?_, by rw [hunf]; simpa using hrlen, ?_⟩
    · show val (subSegs (a :: as) bs c).1 + val bs + c.toNat
        = val (a :: as) + W ^ (a :: as).length * (subSegs (a :: as) bs c).2.toNat
      rw [hunf]
      simp only [val_cons, List.length_cons, pow_succ]
      rw [val_headD_tail bs]
      set r1 := (sub_with_borrow a (bs.headD 0) c).1
      set c1 := (sub_with_borrow a (bs.headD 0) c).2
      set rest := subSegs as bs.tail c1
      calc r1 + W * val rest.1 + (bs.headD 0 + W * val bs.tail) + c.toNat
          = (r1 + bs.headD 0 + c.toNat) + W * (val rest.1 + val bs.tail) := by
            ring
        _ = (a + W * c1.toNat) + W * (val rest.1 + val bs.tail) := by rw [hsbb]
        _ = a + W * (val rest.1 + val bs.tail + c1.toNat) := by ring
        _ = a + W * (val as + W ^ as.length * rest.2.toNat) := by
            have h := hrest
            have h2 : val rest.1 + val bs.tail + c1.toNat
                = val as + W ^ as.length * rest.2.toNat := h
            rw [h2]
        _ = a + W * val as + W ^ as.length * W * rest.2.toNat := by ring
    · show Good (subSegs (a :: as) bs c).1
      rw [hunf]
      exact Good_cons.2 ⟨hsbbLt, hrgood⟩

/-- The body of the left-shift loops for a non-zero intra-segment shift
`b`: each output segment is `(src << b) | (previous src >> (64 - b))`,
i.e. the shifted segment or-ed with the bits carried in from below.  The
in-place loop of the source walks indices downward and reads only segments
it has not yet overwritten, so it computes exactly these values. -/
def shlBits (b : Nat) : Nat → List Nat → List Nat
  | _, [] => []
  | carry, x :: xs => (((x <<< b) % W) ||| carry) :: shlBits b (x >>> (64 - b)) xs

/-- The body of the right-shift loops for a non-zero intra-segment shift:
each output segment is `(src >> b) | (next src << (64 - b))`, and the last
output segment is just the top source segment shifted right. -/
def shrBits (b : Nat) : List Nat → List Nat
  | [] => []
  | [x] => [x >>> b]
  | x :: y :: xs => ((x >>> b) ||| ((y <<< (64 - b)) % W)) :: shrBits b (y :: xs)

theorem two_pow_split (b : Nat) (hb : b ≤ 64) : 2 ^ (64 - b) * 2 ^ b = W := by
  rw [← pow_add, show 64 - b + b = 64 by omega]
  norm_num [W]

theorem shlBits_spec (b : Nat) (hb1 : 0 < b) (hb2 : b < 64) (xs : List Nat) :
    ∀ (carry : Nat), Good xs → carry < 2 ^ b →
    val (shlBits b carry xs) = (carry + val xs * 2 ^ b) % W ^ xs.length
      ∧ (shlBits b carry xs).length = xs.length
      ∧ Good (shlBits b carry xs) := by
  have hsplit := two_pow_split b (by omega)
  have hBpos : 0 < 2 ^ b := Nat.pos_pow_of_pos b (by norm_num)
  have hCpos : 0 < 2 ^ (64 - b) := Nat.pos_pow_of_pos _ (by norm_num)
  induction xs with
  | nil =>
    intro carry _ _
    refine ⟨?_, rfl, Good_nil⟩
    simp [shlBits, Nat.mod_one]
  | cons x xs ih =>
    intro carry hgood hcarry
    rcases Good_cons.1 hgood with ⟨hx, hxs⟩
    -- the head value: shifted segment plus carried-in bits
    have hshift : (x <<< b) % W = x % 2 ^ (64 - b) * 2 ^ b := by
      rw [Nat.shiftLeft_eq, ← hsplit, Nat.mul_mod_mul_right]
    have hhead : ((x <<< b) % W) ||| carry = x % 2 ^ (64 - b) * 2 ^ b + carry := by
      rw [hshift]
      exact mul_pow_lor_eq_add _ _ _ hcarry
    -- the carry pushed into the next segment
    have hnext : x >>> (64 - b) = x / 2 ^ (64 - b) := Nat.shiftRight_eq_div_pow _ _
    have hnextLt : x / 2 ^ (64 - b) < 2 ^ b := by
      apply Nat.div_lt_of_lt_mul
      rw [hsplit]
      exact hx
    obtain ⟨ihval, ihlen, ihgood⟩ := ih (x >>> (64 - b)) hxs (hnext ▸ hnextLt)
    have hmodC : x % 2 ^ (64 - b) < 2 ^ (64 - b) := Nat.mod_lt _ hCpos
    have hheadLt : x % 2 ^ (64 - b) * 2 ^ b + carry < W := by
      have h1 : x % 2 ^ (64 - b) * 2 ^ b ≤ (2 ^ (64 - b) - 1) * 2 ^ b :=
        Nat.mul_le_mul (by omega) (by omega)
      have h2 : (2 ^ (64 - b) - 1) * 2 ^ b + 2 ^ b = W := by
        rw [← hsplit]
        have : 1 ≤ 2 ^ (64 - b) := hCpos
        calc (2 ^ (64 - b) - 1) * 2 ^ b + 2 ^ b
            = (2 ^ (64 - b) - 1 + 1) * 2 ^ b := by ring
          _ = 2 ^ (64 - b) * 2 ^ b := by rw [Nat.sub_add_cancel this]
      omega
    refine ⟨?_, by simp [shlBits, ihlen], ?_⟩
    · have hunf : shlBits b carry (x :: xs)
          = (((x <<< b) % W) ||| carry) :: shlBits b (x >>> (64 - b)) xs := rfl
      rw [hunf]
      simp only [val_cons, List.length_cons]
      rw [hhead, ihval, hnext]
      -- identity: carry + (x + W * val xs) * 2^b
      --         = (x % C * 2^b + carry) + W * (x / C + val xs * 2^b)
      have hx2 : x * 2 ^ b
          = x % 2 ^ (64 - b) * 2 ^ b + x / 2 ^ (64 - b) * W := by
        have h := Nat.div_add_mod x (2 ^ (64 - b))
        calc x * 2 ^ b
            = (2 ^ (64 - b) * (x / 2 ^ (64 - b)) + x % 2 ^ (64 - b)) * 2 ^ b := by
              rw [h]
          _ = x % 2 ^ (64 - b) * 2 ^ b
              + x / 2 ^ (64 - b) * (2 ^ (64 - b) * 2 ^ b) := by ring
          _ = _ := by rw [hsplit]
      have hnum : carry + (x + W * val xs) * 2 ^ b
          = (x % 2 ^ (64 - b) * 2 ^ b + carry)
            + W * (x / 2 ^ (64 - b) + val xs * 2 ^ b) := by
        calc carry + (x + W * val xs) * 2 ^ b
            = carry + x * 2 ^ b + W * (val xs * 2 ^ b) := by ring
          _ = carry + (x % 2 ^ (64 - b) * 2 ^ b + x / 2 ^ (64 - b) * W)
              + W * (val xs * 2 ^ b) := by rw [hx2]
          _ = _ := by ring
      rw [hnum, head_tail_mod _ _ _ hheadLt]
    · have hunf : shlBits b carry (x :: xs)
          = (((x <<< b) % W) ||| carry) :: shlBits b (x >>> (64 - b)) xs := rfl
      rw [hunf]
      refine Good_cons.2 ⟨?_, ihgood⟩
      rw [hhead]
      exact hheadLt

theorem shrBits_spec (b : Nat) (hb1 : 0 < b) (hb2 : b < 64) :
    ∀ (l : List Nat), Good l →
    val (shrBits b l) = val l / 2 ^ b
      ∧ (shrBits b l).length = l.length
      ∧ Good (shrBits b l) := by
  have hsplit := two_pow_split b (by omega)
  have hBpos : 0 < 2 ^ b := Nat.pos_pow_of_pos b (by norm_num)
  have hCpos : 0 < 2 ^ (64 - b) := Nat.pos_pow_of_pos _ (by norm_num)
  intro l
  induction l with
  | nil => intro _; exact ⟨by simp [shrBits], rfl, Good_nil⟩
  | cons x xs ih =>
    intro hgood
    rcases Good_cons.1 hgood with ⟨hx, hxs⟩
    cases xs with
    | nil =>
      refine ⟨?_, rfl, ?_⟩
      · simp [shrBits, Nat.shiftRight_eq_div_pow]
      · refine Good_cons.2 ⟨?_, Good_nil⟩
        rw [Nat.shiftRight_eq_div_pow]
        exact lt_of_le_of_lt (Nat.div_le_self _ _) hx
    | cons y ys =>
      obtain ⟨ihval, ihlen, ihgood⟩ := ih hxs
      rcases Good_cons.1 hxs with ⟨hy, hys⟩
      have hxdiv : x >>> b = x / 2 ^ b := Nat.shiftRight_eq_div_pow _ _
      have hxdivLt : x / 2 ^ b < 2 ^ (64 - b) := by
        apply Nat.div_lt_of_lt_mul
        rw [mul_comm, hsplit]
        exact hx
      have hyshift : (y <<< (64 - b)) % W = y % 2 ^ b * 2 ^ (64 - b) := by
        rw [Nat.shiftLeft_eq, ← hsplit, mul_comm (2 ^ (64 - b)) (2 ^ b),
          Nat.mul_mod_mul_right]
      have hhead : (x >>> b) ||| ((y <<< (64 - b)) % W)
          = y % 2 ^ b * 2 ^ (64 - b) + x / 2 ^ b := by
        rw [hyshift, hxdiv, Nat.lor_comm]
        exact mul_pow_lor_eq_add _ _ _ hxdivLt
      have hheadLt : y % 2 ^ b * 2 ^ (64 - b) + x / 2 ^ b < W := by
        have h1 : y % 2 ^ b * 2 ^ (64 - b) ≤ (2 ^ b - 1) * 2 ^ (64 - b) :=
          Nat.mul_le_mul (by have := Nat.mod_lt y hBpos; omega) (by omega)
        have h2 : (2 ^ b - 1) * 2 ^ (64 - b) + 2 ^ (64 - b) = W := by
          rw [← hsplit]
          have h3 : 1 ≤ 2 ^ b := hBpos
          calc (2 ^ b - 1) * 2 ^ (64 - b) + 2 ^ (64 - b)
              = (2 ^ b - 1 + 1) * 2 ^ (64 - b) := by ring
            _ = 2 ^ b * 2 ^ (64 - b) := by rw [Nat.sub_add_cancel h3]
            _ = 2 ^ (64 - b) * 2 ^ b := by ring
        omega
      have hunf : shrBits b (x :: y :: ys)
          = ((x >>> b) ||| ((y <<< (64 - b)) % W)) :: shrBits b (y :: ys) := rfl
      refine ⟨?_, by rw [hunf]; simpa using ihlen, ?_⟩
      · rw [hunf]
        simp only [val_cons]
        rw [hhead, ihval]
        -- identity about the value of y :: ys
        rw [show val (y :: ys) = y + W * val ys from val_cons y ys]
        set V := y + W * val ys with hV
        have hVmod : V % 2 ^ b = y % 2 ^ b := by
          have hVd : V = y + 2 ^ (64 - b) * val ys * 2 ^ b := by
            rw [hV, ← hsplit]
            ring
          rw [hVd, Nat.add_mul_mod_self_right]
        have hrhs : (x + W * V) / 2 ^ b = x / 2 ^ b + 2 ^ (64 - b) * V := by
          have hWV : W * V = 2 ^ (64 - b) * V * 2 ^ b := by
            rw [← hsplit]
            ring
          rw [hWV, Nat.add_mul_div_right _ _ hBpos]
        rw [hrhs]
        have hmd := Nat.mod_add_div V (2 ^ b)
        calc y % 2 ^ b * 2 ^ (64 - b) + x / 2 ^ b
              + W * (V / 2 ^ b)
            = x / 2 ^ b + (V % 2 ^ b * 2 ^ (64 - b) + W * (V / 2 ^ b)) := by
              rw [hVmod]; ring
          _ = x / 2 ^ b + 2 ^ (64 - b) * (V % 2 ^ b + 2 ^ b * (V / 2 ^ b)) := by
              rw [← hsplit]; ring
          _ = x / 2 ^ b + 2 ^ (64 - b) * V := by rw [hmd]
      · rw [hunf]
        refine Good_cons.2 ⟨?_, ihgood⟩
        rw [hhead]
        exact hheadLt

/-- Conversion to `bool` of both representations: true iff any segment is
non-zero. -/
def toBool (l : List Nat) : Bool := l.any (fun seg => seg != 0)

theorem toBool_false_iff (l : List Nat) : toBool l = false ↔ val l = 0 := by
  induction l with
  | nil => simp [toBool]
  | cons c cs ih =>
    have hW := W_pos
    simp only [toBool, List.any_cons, Bool.or_eq_false_iff, bne_eq_false_iff_eq,
      val_cons] at *
    constructor
    · rintro ⟨hc, hcs⟩
      rw [hc, ih.1 hcs]
      simp
    · intro h
      have hc : c = 0 := by omega
      have hm : W * val cs = 0 := by omega
      have hv : val cs = 0 := by
        rcases Nat.mul_eq_zero.1 hm with h1 | h1
        · omega
        · exact h1
      exact ⟨hc, ih.2 hv⟩

theorem toBool_iff (l : List Nat) : toBool l = true ↔ val l ≠ 0 := by
  rcases hb : toBool l with hf | ht
  · have h0 := (toBool_false_iff l).1 hb
    simp [h0]
  · have h0 : val l ≠ 0 := by
      intro hv
      have := (toBool_false_iff l).2 hv
      rw [hb] at this
      cases this
    simp [h0]

/-- The loop of `trim` on the reversed segment list: pop the (reversed)
head while it is zero and more than one segment remains. -/
def trimRev : List Nat → List Nat
  | [] => []
  | x :: xs => if x = 0 ∧ xs ≠ [] then trimRev xs else x :: xs

/-- Helper `trim` of DynamicInteger: drop most-significant zero segments,
keeping at least one segment. -/
def trim (l : List Nat) : List Nat := (trimRev l.reverse).reverse

/-- The Dynamic-store invariant: at least one segment, and the
most-significant segment is non-zero unless exactly one segment remains. -/
def Trimmed (l : List Nat) : Prop :=
  l ≠ [] ∧ (l.length = 1 ∨ l.getLastD 0 ≠ 0)

theorem trimRev_ne_nil {r : List Nat} (h : r ≠ []) : trimRev r ≠ [] := by
  induction r with
  | nil => exact absurd rfl h
  | cons x xs ih =>
    by_cases hc : x = 0 ∧ xs ≠ []
    · rw [trimRev, if_pos hc]
      exact ih hc.2
    · rw [trimRev, if_neg hc]
      simp

theorem trimRev_good {r : List Nat} (h : Good r) : Good (trimRev r) := by
  induction r with
  | nil => exact h
  | cons x xs ih =>
    rcases Good_cons.1 h with ⟨hx, hxs⟩
    by_cases hc : x = 0 ∧ xs ≠ []
    · rw [trimRev, if_pos hc]
      exact ih hxs
    · rw [trimRev, if_neg hc]
      exact h

theorem trimRev_length {r : List Nat} : (trimRev r).length ≤ r.length := by
  induction r with
  | nil => simp [trimRev]
  | cons x xs ih =>
    by_cases hc : x = 0 ∧ xs ≠ []
    · rw [trimRev, if_pos hc]
      simp only [List.length_cons]
      omega
    · rw [trimRev, if_neg hc]

theorem trimRev_val {r : List Nat} : val (trimRev r).reverse = val r.reverse := by
  induction r with
  | nil => rfl
  | cons x xs ih =>
    by_cases hc : x = 0 ∧ xs ≠ []
    · rw [trimRev, if_pos hc, ih, List.reverse_cons, val_append, hc.1]
      simp
    · rw [trimRev, if_neg hc]

theorem trimRev_shape {r : List Nat} (h : r ≠ []) :
    (trimRev r).length = 1 ∨ (trimRev r).headD 0 ≠ 0 := by
  induction r with
  | nil => exact absurd rfl h
  | cons x xs ih =>
    by_cases hc : x = 0 ∧ xs ≠ []
    · rw [trimRev, if_pos hc]
      exact ih hc.2
    · rw [trimRev, if_neg hc]
      rcases Decidable.not_and_iff_or_not.1 hc with hx | hxs
    
      · right
        simpa using hx
      · left
        have : xs = [] := by simpa using hxs
        simp [this]

theorem trim_ne_nil {l : List Nat} (h : l ≠ []) : trim l ≠ [] := by
  unfold trim
  have h1 : l.reverse ≠ [] := by simpa using h
  have h2 := trimRev_ne_nil h1
  simpa using h2

theorem Good_trim {l : List Nat} (h : Good l) : Good (trim l) := by
  unfold trim
  intro x hx
  have h1 : Good l.reverse := fun y hy => h y (List.mem_reverse.1 hy)
  exact trimRev_good h1 x (List.mem_reverse.1 hx)

theorem val_trim (l : List Nat) : val (trim l) = val l := by
  unfold trim
  rw [trimRev_val, List.reverse_reverse]

theorem length_trim_le (l : List Nat) : (trim l).length ≤ l.length := by
  unfold trim
  calc (trimRev l.reverse).reverse.length = (trimRev l.reverse).length := by simp
    _ ≤ l.reverse.length := trimRev_length
    _ = l.length := by simp

theorem trimmed_trim {l : List Nat} (h : l ≠ []) : Trimmed (trim l) := by
  refine ⟨trim_ne_nil h, ?_⟩
  have h1 : l.reverse ≠ [] := by simpa using h
  rcases trimRev_shape h1 with hs | hs
  · left
    unfold trim
    simpa using hs
  · right
    unfold trim
    have h2 := trimRev_ne_nil h1
    cases htr : trimRev l.reverse with
    | nil => exact absurd htr h2
    | cons a s =>
      rw [htr] at hs
      simp only [List.headD_cons] at hs
      rw [List.reverse_cons]
      rw [List.getLastD_concat]
      exact hs

theorem trim_eq_self {l : List Nat} (h : Trimmed l) : trim l = l := by
  obtain ⟨hne, hshape⟩ := h
  unfold trim
  cases hr : l.reverse with
  | nil => simp_all
  | cons a s =>
    have hra : trimRev (a :: s) = a :: s := by
      rcases hshape with hlen | hlast
      · have hs : s = [] := by
          have : l.reverse.length = 1 := by simpa using hlen
          rw [hr] at this
          simpa using this
        rw [trimRev, if_neg (by simp [hs])]
      · have ha : a ≠ 0 := by
          have h1 : l.getLastD 0 = a := by
            have h2 : l = (a :: s).reverse := by rw [← hr, List.reverse_reverse]
            rw [h2, List.reverse_cons, List.getLastD_concat]
          rw [← h1]
          exact hlast
        rw [trimRev, if_neg (by tauto)]
    rw [hra, ← hr, List.reverse_reverse]

theorem val_ge_of_trimmed (l : List Nat) (hg : Good l) (ht : Trimmed l)
    (hlen : 2 ≤ l.length) : W ^ (l.length - 1) ≤ val l := by
  induction l with
  | nil => simp at hlen
  | cons c cs ih =>
    cases cs with
    | nil => simp at hlen
    | cons d ds =>
      rcases Good_cons.1 hg with ⟨hc, hcs⟩
      have htcs : Trimmed (d :: ds) := by
        refine ⟨by simp, ?_⟩
        rcases ht.2 with hl | hl
        · simp at hl
        · right
          rw [List.getLastD_cons] at hl
          exact hl
      rcases Nat.lt_or_ge (d :: ds).length 2 with hsmall | hbig
      · -- exactly two segments: the top one is non-zero
        have hds : ds = [] := by
          simp only [List.length_cons] at hsmall
          have : ds.length = 0 := by omega
          exact List.eq_nil_of_length_eq_zero this
        subst hds
        have hd : d ≠ 0 := by
          rcases htcs.2 with h1 | h1
          · rcases ht.2 with h2 | h2
            · simp at h2
            · simpa using h2
          · simpa using h1
        simp only [val_cons, val_nil, List.length_cons, List.length_nil]
        have : 1 ≤ d := by omega
        have h2 : W ≤ W * d := Nat.le_mul_of_pos_right _ (by omega)
        have h3 : W * (d + W * 0) = W * d := by ring
        simp only [Nat.mul_zero, Nat.add_zero]
        calc W ^ (1 + 1 - 1) = W := by ring
          _ ≤ W * d := h2
          _ ≤ c + W * d := by omega
      · have := ih hcs htcs hbig
        simp only [List.length_cons] at *
        have h1 : W ^ (ds.length + 1 + 1 - 1) = W * W ^ (ds.length + 1 - 1) := by
          rw [show ds.length + 1 + 1 - 1 = (ds.length + 1 - 1) + 1 by omega,
            pow_succ]
          ring
        rw [h1]
        calc W * W ^ (ds.length + 1 - 1) ≤ W * val (d :: ds) :=
              Nat.mul_le_mul_left _ this
          _ ≤ c + W * val (d :: ds) := by omega

/-- Two well-formed trimmed lists with the same value are equal: the Dynamic
representation of a value is unique. -/
theorem trimmed_inj {l₁ l₂ : List Nat} (h₁ : Good l₁) (h₂ : Good l₂)
    (t₁ : Trimmed l₁) (t₂ : Trimmed l₂) (hval : val l₁ = val l₂) : l₁ = l₂ := by
  have hlen : l₁.length = l₂.length := by
    by_contra hne
    rcases Nat.lt_or_ge l₁.length l₂.length with hlt | hge
    · have hl2 : 2 ≤ l₂.length := by
        have : 1 ≤ l₁.length := by
          have := t₁.1
          cases l₁ with
          | nil => exact absurd rfl this
          | cons a s => simp
        omega
      have hge2 := val_ge_of_trimmed l₂ h₂ t₂ hl2
      have hlt2 : val l₁ < W ^ l₁.length := val_lt l₁ h₁
      have hpow : W ^ l₁.length ≤ W ^ (l₂.length - 1) :=
        Nat.pow_le_pow_right (le_of_lt one_lt_W) (by omega)
      omega
    · have hlt : l₂.length < l₁.length := by omega
      have hl1 : 2 ≤ l₁.length := by
        have : 1 ≤ l₂.length := by
          have := t₂.1
          cases l₂ with
          | nil => exact absurd rfl this
          | cons a s => simp
        omega
      have hge2 := val_ge_of_trimmed l₁ h₁ t₁ hl1
      have hlt2 : val l₂ < W ^ l₂.length := val_lt l₂ h₂
      have hpow : W ^ l₂.length ≤ W ^ (l₁.length - 1) :=
        Nat.pow_le_pow_right (le_of_lt one_lt_W) (by omega)
      omega
  exact val_inj h₁ h₂ hlen hval

/-- The comparison loop of `operator<=>`, applied to the reversed segment
lists (the source walks from the most-significant segment down and returns
at the first difference). -/
def cmpMSB : List Nat → List Nat → Ordering
  | x :: xs, y :: ys =>
      if x < y then Ordering.lt
      else if y < x then Ordering.gt
      else cmpMSB xs ys
  | _, _ => Ordering.eq

theorem cmpMSB_spec (ra : List Nat) : ∀ (rb : List Nat),
    ra.length = rb.length → Good ra → Good rb →
    cmpMSB ra rb = compare (val ra.reverse) (val rb.reverse) := by
  induction ra with
  | nil =>
    intro rb hlen _ _
    have hrb : rb = [] := List.eq_nil_of_length_eq_zero (by
      simp only [List.length_nil] at hlen
      omega)
    subst hrb
    rw [show cmpMSB [] [] = Ordering.eq from rfl, Nat.compare_eq_eq.2 rfl]
  | cons x xs ih =>
    intro rb hlen hga hgb
    cases rb with
    | nil => simp at hlen
    | cons y ys =>
      rcases Good_cons.1 hga with ⟨hx, hxs⟩
      rcases Good_cons.1 hgb with ⟨hy, hys⟩
      have hlen' : xs.length = ys.length := by simpa using hlen
      have hgxs : Good xs.reverse := fun z hz => hxs z (List.mem_reverse.1 hz)
      have hgys : Good ys.reverse := fun z hz => hys z (List.mem_reverse.1 hz)
      have hvx : val xs.reverse < W ^ xs.length := by
        have := val_lt xs.reverse hgxs
        simpa using this
      have hvy : val ys.reverse < W ^ ys.length := by
        have := val_lt ys.reverse hgys
        simpa using this
      have hva : val (x :: xs).reverse = val xs.reverse + W ^ xs.length * x := by
        rw [List.reverse_cons, val_append]
        simp
      have hvb : val (y :: ys).reverse = val ys.reverse + W ^ ys.length * y := by
        rw [List.reverse_cons, val_append]
        simp
      rw [hva, hvb, ← hlen']
      by_cases hxy : x < y
      · rw [cmpMSB, if_pos hxy]
        have : val xs.reverse + W ^ xs.length * x
            < val ys.reverse + W ^ xs.length * y := by
          have h1 : val xs.reverse + W ^ xs.length * x
              < W ^ xs.length * (x + 1) := by
            have := hvx
            calc val xs.reverse + W ^ xs.length * x
                < W ^ xs.length + W ^ xs.length * x := by omega
              _ = W ^ xs.length * (x + 1) := by ring
          have h2 : W ^ xs.length * (x + 1) ≤ W ^ xs.length * y :=
            Nat.mul_le_mul_left _ (by omega)
          omega
        rw [Nat.compare_eq_lt.2 this]
      · by_cases hyx : y < x
        · rw [cmpMSB, if_neg hxy, if_pos hyx]
          have : val ys.reverse + W ^ xs.length * y
              < val xs.reverse + W ^ xs.length * x := by
            have h1 : val ys.reverse + W ^ xs.length * y
                < W ^ xs.length * (y + 1) := by
              rw [← hlen'] at hvy
              calc val ys.reverse + W ^ xs.length * y
                  < W ^ xs.length + W ^ xs.length * y := by omega
                _ = W ^ xs.length * (y + 1) := by ring
            have h2 : W ^ xs.length * (y + 1) ≤ W ^ xs.length * x :=
              Nat.mul_le_mul_left _ (by omega)
            omega
          rw [Nat.compare_eq_gt.2 this]
        · have hxye : x = y := by omega
          subst hxye
          rw [cmpMSB, if_neg hxy, if_neg hyx, ih ys hlen' hxs hys]
          rcases lt_trichotomy (val xs.reverse) (val ys.reverse) with h | h | h
          · rw [Nat.compare_eq_lt.2 h, Nat.compare_eq_lt.2 (by omega)]
          · rw [h, Nat.compare_eq_eq.2 rfl, Nat.compare_eq_eq.2 rfl]
          · rw [Nat.compare_eq_gt.2 h, Nat.compare_eq_gt.2 (by omega)]

/-- The ripple loop of `operator++`: increment segments from the bottom
until one does not wrap to zero; the Bool reports a carry out of the last
segment (`++segments[i] != 0` in the source). -/
def incSegs : List Nat → List Nat × Bool
  | [] => ([], true)
  | c :: cs =>
      if (c + 1) % W ≠ 0 then (((c + 1) % W) :: cs, false)
      else ((0 : Nat) :: (incSegs cs).1, (incSegs cs).2)

/-- The ripple loop of `operator--`: `segments[i]--` wraps a zero segment to
all-ones and continues; the loop stops at the first non-zero segment. -/
def decSegs : List Nat → List Nat
  | [] => []
  | c :: cs => if c ≠ 0 then (c - 1) :: cs else (W - 1) :: decSegs cs

theorem incSegs_spec (l : List Nat) (h : Good l) :
    val (incSegs l).1 + W ^ l.length * (incSegs l).2.toNat = val l + 1
      ∧ (incSegs l).1.length = l.length
      ∧ Good (incSegs l).1 := by
  induction l with
  | nil => exact ⟨by simp [incSegs], rfl, Good_nil⟩
  | cons c cs ih =>
    rcases Good_cons.1 h with ⟨hc, hcs⟩
    obtain ⟨ihval, ihlen, ihgood⟩ := ih hcs
    by_cases hwrap : (c + 1) % W ≠ 0
    · have hlt : c + 1 < W ∨ c + 1 = W := by omega
      have hmod : (c + 1) % W = c + 1 := by
        rcases hlt with h1 | h1
        · exact Nat.mod_eq_of_lt h1
        · rw [h1, Nat.mod_self] at hwrap ⊢
          exact absurd rfl hwrap
      rw [incSegs, if_pos hwrap]
      refine ⟨?_, by simp, ?_⟩
      · simp only [val_cons, List.length_cons, Bool.toNat_false]
        rw [hmod]
        ring
      · refine Good_cons.2 ⟨?_, hcs⟩
        rw [hmod]
        rcases hlt with h1 | h1
        · exact h1
        · rw [h1, Nat.mod_self] at hwrap
          exact absurd rfl hwrap
    · push_neg at hwrap
      have hce : c + 1 = W := by
        rcases Nat.lt_or_ge (c + 1) W with h1 | h1
        · rw [Nat.mod_eq_of_lt h1] at hwrap
          omega
        · omega
      rw [incSegs, if_neg (by simpa using hwrap)]
      refine ⟨?_, by simpa using ihlen, ?_⟩
      · simp only [val_cons, List.length_cons, pow_succ]
        calc 0 + W * val (incSegs cs).1
              + W ^ cs.length * W * (incSegs cs).2.toNat
            = W * (val (incSegs cs).1 + W ^ cs.length * (incSegs cs).2.toNat) := by
              ring
          _ = W * (val cs + 1) := by rw [ihval]
          _ = c + W * val cs + 1 := by rw [← hce]; ring
      · exact Good_cons.2 ⟨W_pos, ihgood⟩

theorem decSegs_spec (l : List Nat) (h : Good l) :
    (decSegs l).length = l.length ∧ Good (decSegs l) := by
  induction l with
  | nil => exact ⟨rfl, Good_nil⟩
  | cons c cs ih =>
    rcases Good_cons.1 h with ⟨hc, hcs⟩
    obtain ⟨ihlen, ihgood⟩ := ih hcs
    by_cases hz : c ≠ 0
    · rw [decSegs, if_pos hz]
      exact ⟨by simp, Good_cons.2 ⟨by omega, hcs⟩⟩
    · rw [decSegs, if_neg hz]
      have hW := W_pos
      exact ⟨by simpa using ihlen, Good_cons.2 ⟨by omega, ihgood⟩⟩

/-! ### FixedInteger: operations (all operands have the fixed segment count,
`Bits / 64`; the embedding takes the count from the list length). -/

namespace FixedInteger

/-- Constructor from an integral value: the two's-complement cast of the
value goes to segment 0; for a negative signed input every higher segment
is filled with all-ones (`~0ULL`), otherwise the zero-initialized segments
remain zero. -/
def ofInt (n : Nat) (v : Int) : List Nat :=
  (List.range n).map fun i =>
    if i = 0 then (v % (2 ^ 64 : Int)).toNat
    else if v < 0 then W - 1 else 0

/-- Fixed `operator+=` / `operator+`: segment-wise addition, the carry out
of the last segment is dropped. -/
def add (a b : List Nat) : List Nat := (addSegs a b false).1

/-- Fixed `operator-=` / `operator-` (binary): segment-wise subtraction,
the borrow out of the last segment is dropped. -/
def sub (a b : List Nat) : List Nat := (subSegs a b false).1

/-- Inner loop of `operator*=`: accumulate `x * bs` into `r` starting at
position `pos`; returns the updated segments and the final carry
(`carry = hi + c1 + c2`, a `uint64_t` sum, hence the `% W`). -/
def mulInner (x : Nat) : List Nat → List Nat → Nat → Nat → List Nat × Nat
  | [], r, _, carry => (r, carry)
  | bj :: bs, r, pos, carry =>
      let p := mul128 x bj
      let s1 := add_with_carry p.1 carry false
      let s2 := add_with_carry s1.1 (r.getD pos 0) false
      mulInner x bs (r.set pos s2.1) (pos + 1)
        ((p.2 + s1.2.toNat + s2.2.toNat) % W)

/-- Outer loop of Fixed `operator*=`: row `i` multiplies segment `i` of the
receiver with the first `n - i` segments of the other operand (partial
products at positions `≥ n` are never computed) and the final carry of each
row is discarded. -/
def mulOuter (n : Nat) (bs : List Nat) : List Nat → Nat → List Nat → List Nat
  | [], _, r => r
  | a :: as, i, r => mulOuter n bs as (i + 1) (mulInner a (bs.take (n - i)) r i 0).1

/-- Fixed `operator*=` / `operator*`. -/
def mul (a b : List Nat) : List Nat :=
  mulOuter a.length b a 0 (List.replicate a.length 0)

/-- Fixed `operator<<=` / `operator<<`: a shift of at least `Bits` zeroes
the value; otherwise the whole-segment part moves segments up and the
intra-segment part is `shlBits`.  The downward in-place loop of the source
reads only segments it has not yet overwritten, so its results coincide
with this out-of-place form. -/
def shl (l : List Nat) (shift : Nat) : List Nat :=
  if shift ≥ 64 * l.length then List.replicate l.length 0
  else
    let seg := shift / 64
    let bit := shift % 64
    if bit = 0 then List.replicate seg 0 ++ l.take (l.length - seg)
    else List.replicate seg 0 ++ shlBits bit 0 (l.take (l.length - seg))

/-- Fixed `operator>>=` / `operator>>`, mirror of `shl`. -/
def shr (l : List Nat) (shift : Nat) : List Nat :=
  if shift ≥ 64 * l.length then List.replicate l.length 0
  else
    let seg := shift / 64
    let bit := shift % 64
    if bit = 0 then l.drop seg ++ List.replicate seg 0
    else shrBits bit (l.drop seg) ++ List.replicate seg 0

/-- Fixed pre/post `operator++` (both mutate by the same ripple loop). -/
def inc (l : List Nat) : List Nat := (incSegs l).1

/-- Fixed pre/post `operator--`. -/
def dec (l : List Nat) : List Nat := decSegs l

/-- Fixed `operator<=>`: lexicographic from the most-significant segment. -/
def cmp (a b : List Nat) : Ordering := cmpMSB a.reverse b.reverse

/-- One iteration of the Fixed division loop, processing dividend bit `k`:
shift the remainder left one bit, or-in dividend bit `k`, and if the
remainder is now `≥ divisor`, subtract the divisor and set quotient
bit `k`. -/
def divStep (dividend divisor : List Nat) (k : Nat)
    (st : List Nat × List Nat) : List Nat × List Nat :=
  let segIdx := k / 64
  let bitInSeg := k % 64
  let r1 := shl st.2 1
  let r2 := if dividend.getD segIdx 0 &&& (1 <<< bitInSeg) ≠ 0
            then r1.set 0 (r1.getD 0 0 ||| 1) else r1
  if cmp r2 divisor ≠ Ordering.lt then
    (st.1.set segIdx (st.1.getD segIdx 0 ||| (1 <<< bitInSeg)), sub r2 divisor)
  else (st.1, r2)

/-- The Fixed division loop, iterating bit indices `i - 1, i - 2, ..., 0`. -/
def divLoop (dividend divisor : List Nat) :
    Nat → List Nat × List Nat → List Nat × List Nat
  | 0, st => st
  | i + 1, st => divLoop dividend divisor i (divStep dividend divisor i st)

/-- Fixed `divide` (quotient, remainder); `none` is the
`std::domain_error` thrown for a divisor whose boolean conversion is
false. -/
def divide (dividend divisor : List Nat) : Option (List Nat × List Nat) :=
  if toBool divisor = false then none
  else some (divLoop dividend divisor (64 * dividend.length)
    (List.replicate dividend.length 0, List.replicate dividend.length 0))

/-- Fixed `operator/=` as a state transformer: the exception of `divide` is
raised before `*this` is assigned, so on error the receiver keeps its old
segments; the Bool records whether the error was signalled. -/
def divAssign (self other : List Nat) : List Nat × Bool :=
  match divide self other with
  | none => (self, true)
  | some qr => (qr.1, false)

/-- Fixed `operator%=` as a state transformer, as in `divAssign`. -/
def modAssign (self other : List Nat) : List Nat × Bool :=
  match divide self other with
  | none => (self, true)
  | some qr => (qr.2, false)

end FixedInteger

/-! ### DynamicInteger: operations (the segment vector grows and shrinks;
`trim` keeps the most-significant segment non-zero, floor length 1). -/

namespace DynamicInteger

/-- Constructor from an integral value: a single segment holding the
two's-complement cast of the value (no sign extension). -/
def ofInt (v : Int) : List Nat := [(v % (2 ^ 64 : Int)).toNat]

/-- Dynamic `operator+=` / `operator+`: the receiver is resized to the
longer length, segments of the shorter operand beyond its length read as
zero, a final carry appends a new segment `1`, then `trim`. -/
def add (a b : List Nat) : List Nat :=
  let m := max a.length b.length
  let s := addSegs (a ++ List.replicate (m - a.length) 0) b false
  trim (if s.2 then s.1 ++ [1] else s.1)

/-- Dynamic `operator-=` / `operator-` (binary): same resize convention,
the final borrow is dropped (modular wrap at the current width), then
`trim`. -/
def sub (a b : List Nat) : List Nat :=
  let m := max a.length b.length
  trim (subSegs (a ++ List.replicate (m - a.length) 0) b false).1

/-- Dynamic `operator*=` / `operator*`: the result store is sized to
`a.length + b.length`; row `i` accumulates over all of `b` (the bounds
check `i + j >= result.length()` never fires there) and stores its final
carry at position `i + b.length` (always in range since `i < a.length`);
then `trim`. -/
def mulOuter (lb : Nat) (bs : List Nat) : List Nat → Nat → List Nat → List Nat
  | [], _, r => r
  | a :: as, i, r =>
      let s := FixedInteger.mulInner a bs r i 0
      mulOuter lb bs as (i + 1) (s.1.set (i + lb) s.2)

/-- Dynamic `operator*=` / `operator*`. -/
def mul (a b : List Nat) : List Nat :=
  trim (mulOuter b.length b a 0 (List.replicate (a.length + b.length) 0))

/-- Dynamic `operator&=` / `operator&`: the receiver is truncated to the
shorter length, segments are and-ed, then `trim`. -/
def and (a b : List Nat) : List Nat :=
  trim (List.zipWith (fun x y => x &&& y) a b)

/-- Dynamic `operator|=` / `operator|`: the receiver grows to the longer
length (zero fill); segments of the shorter operand beyond its length
leave the receiver unchanged (equivalently, read as zero); then `trim`. -/
def or (a b : List Nat) : List Nat :=
  let m := max a.length b.length
  trim (List.zipWith (fun x y => x ||| y)
    (a ++ List.replicate (m - a.length) 0)
    (b ++ List.replicate (m - b.length) 0))

/-- Dynamic `operator^=` / `operator^`, same conventions as `or`. -/
def xor (a b : List Nat) : List Nat :=
  let m := max a.length b.length
  trim (List.zipWith (fun x y => x ^^^ y)
    (a ++ List.replicate (m - a.length) 0)
    (b ++ List.replicate (m - b.length) 0))

/-- Dynamic `operator~`: invert exactly the stored segments; note that the
source does NOT `trim` here. -/
def not (l : List Nat) : List Nat :=
  l.map fun x => W - 1 - x

/-- Dynamic `operator<<=` / `operator<<`: grows by the whole-segment shift,
plus one more segment when the top segment's high bits would overflow. -/
def shl (l : List Nat) (shift : Nat) : List Nat :=
  if shift = 0 then l
  else
    let seg := shift / 64
    let bit := shift % 64
    let len := l.length
    let newLen := len + seg
      + (if 0 < bit ∧ 0 < len ∧ l.getD (len - 1) 0 >>> (64 - bit) ≠ 0
         then 1 else 0)
    let padded := l ++ List.replicate (newLen - len) 0
    trim (if bit = 0 then List.replicate seg 0 ++ padded.take (newLen - seg)
          else List.replicate seg 0 ++ shlBits bit 0 (padded.take (newLen - seg)))

/-- Dynamic `operator>>=` / `operator>>`: a whole-segment shift at least
the stored length collapses to the zero value of length 1; otherwise the
length shrinks by the whole-segment shift, then `trim`. -/
def shr (l : List Nat) (shift : Nat) : List Nat :=
  if shift = 0 then l
  else
    let seg := shift / 64
    let bit := shift % 64
    if seg ≥ l.length then [0]
    else trim (if bit = 0 then l.drop seg else shrBits bit (l.drop seg))

/-- Dynamic pre/post `operator++`: ripple increment; a carry out of the
last segment appends a new segment `1` (no trim in the source). -/
def inc (l : List Nat) : List Nat :=
  let s := incSegs l
  if s.2 then s.1 ++ [1] else s.1

/-- Dynamic pre/post `operator--`: ripple decrement, then `trim` (both
exits of the source loop trim). -/
def dec (l : List Nat) : List Nat := trim (decSegs l)

/-- Dynamic `operator<=>`: shorter stores compare less; equal lengths
compare lexicographically from the most-significant segment. -/
def cmp (a b : List Nat) : Ordering :=
  if a.length ≠ b.length then compare a.length b.length
  else cmpMSB a.reverse b.reverse

/-- One iteration of the Dynamic division loop, processing dividend
bit `k`: as in Fixed, but the quotient store grows on demand before a
quotient bit beyond its current length is set, and the dividend segment is
read only if `segIdx` is in range. -/
def divStep (dividend divisor : List Nat) (k : Nat)
    (st : List Nat × List Nat) : List Nat × List Nat :=
  let segIdx := k / 64
  let bitInSeg := k % 64
  let r1 := shl st.2 1
  let r2 := if segIdx < dividend.length
               ∧ dividend.getD segIdx 0 &&& (1 <<< bitInSeg) ≠ 0
            then r1.set 0 (r1.getD 0 0 ||| 1) else r1
  if cmp r2 divisor ≠ Ordering.lt then
    let q1 := if segIdx ≥ st.1.length
              then st.1 ++ List.replicate (segIdx + 1 - st.1.length) 0
              else st.1
    (q1.set segIdx (q1.getD segIdx 0 ||| (1 <<< bitInSeg)), sub r2 divisor)
  else (st.1, r2)

/-- The Dynamic division loop over `total_bits = 64 * dividend.length`
bit positions. -/
def divLoop (dividend divisor : List Nat) :
    Nat → List Nat × List Nat → List Nat × List Nat
  | 0, st => st
  | i + 1, st => divLoop dividend divisor i (divStep dividend divisor i st)

/-- Dynamic `divide`: quotient and remainder both start as the default
value `[0]`, and both are trimmed at the end; `none` is the
`std::domain_error` for a false divisor. -/
def divide (dividend divisor : List Nat) : Option (List Nat × List Nat) :=
  if toBool divisor = false then none
  else
    let st := divLoop dividend divisor (64 * dividend.length) ([0], [0])
    some (trim st.1, trim st.2)

/-- Dynamic `operator/=` as a state transformer (see
`FixedInteger.divAssign`). -/
def divAssign (self other : List Nat) : List Nat × Bool :=
  match divide self other with
  | none => (self, true)
  | some qr => (qr.1, false)

/-- Dynamic `operator%=` as a state transformer. -/
def modAssign (self other : List Nat) : List Nat × Bool :=
  match divide self other with
  | none => (self, true)
  | some qr => (qr.2, false)

end DynamicInteger

namespace FixedInteger

theorem add_spec (a b : List Nat) (hga : Good a) (hgb : Good b)
    (hlen : b.length = a.length) :
    val (add a b) = (val a + val b) % W ^ a.length
      ∧ (add a b).length = a.length ∧ Good (add a b) := by
  obtain ⟨hval, hl, hg⟩ := addSegs_spec a b false hga hgb (le_of_eq hlen)
  simp only [Bool.toNat_false, Nat.add_zero] at hval
  refine ⟨?_, hl, hg⟩
  have hlt : val (add a b) < W ^ a.length := by
    have := val_lt (add a b) hg
    rwa [show (add a b).length = a.length from hl] at this
  have h2 : val a + val b
      = val (add a b) + (addSegs a b false).2.toNat * W ^ a.length := by
    rw [← hval]
    show val (add a b) + W ^ a.length * (addSegs a b false).2.toNat
      = val (add a b) + (addSegs a b false).2.toNat * W ^ a.length
    ring
  rw [h2, Nat.add_mul_mod_self_right, Nat.mod_eq_of_lt hlt]

theorem sub_spec_ge (a b : List Nat) (hga : Good a) (hgb : Good b)
    (hlen : b.length = a.length) (hge : val b ≤ val a) :
    val (sub a b) = val a - val b
      ∧ (sub a b).length = a.length ∧ Good (sub a b) := by
  obtain ⟨hval, hl, hg⟩ := subSegs_spec a b false hga hgb (le_of_eq hlen)
  simp only [Bool.toNat_false, Nat.add_zero] at hval
  refine ⟨?_, hl, hg⟩
  have hlt : val (sub a b) < W ^ a.length := by
    have := val_lt (sub a b) hg
    rwa [show (sub a b).length = a.length from hl] at this
  rcases hc : (subSegs a b false).2 with hf | ht
  · rw [hc] at hval
    simp only [Bool.toNat_false, Nat.mul_zero, Nat.add_zero] at hval
    have h1 : val (sub a b) + val b = val a := hval
    omega
  · rw [hc] at hval
    simp only [Bool.toNat_true, Nat.mul_one] at hval
    have h1 : val (sub a b) + val b = val a + W ^ a.length := hval
    omega

theorem sub_spec_lt (a b : List Nat) (hga : Good a) (hgb : Good b)
    (hlen : b.length = a.length) (hge : val a < val b) :
    val (sub a b) = W ^ a.length + val a - val b
      ∧ (sub a b).length = a.length ∧ Good (sub a b) := by
  obtain ⟨hval, hl, hg⟩ := subSegs_spec a b false hga hgb (le_of_eq hlen)
  simp only [Bool.toNat_false, Nat.add_zero] at hval
  refine ⟨?_, hl, hg⟩
  have hlt : val (sub a b) < W ^ a.length := by
    have := val_lt (sub a b) hg
    rwa [show (sub a b).length = a.length from hl] at this
  rcases hc : (subSegs a b false).2 with hf | ht
  · rw [hc] at hval
    simp only [Bool.toNat_false, Nat.mul_zero, Nat.add_zero] at hval
    have h1 : val (sub a b) + val b = val a := hval
    omega
  · rw [hc] at hval
    simp only [Bool.toNat_true, Nat.mul_one] at hval
    have h1 : val (sub a b) + val b = val a + W ^ a.length := hval
    omega

theorem W_pow_eq (n : Nat) : W ^ n = 2 ^ (64 * n) := by
  rw [show W = 2 ^ 64 from by norm_num [W], ← pow_mul]

theorem shl_spec (l : List Nat) (shift : Nat) (hg : Good l) :
    val (shl l shift) = (val l * 2 ^ shift) % W ^ l.length
      ∧ (shl l shift).length = l.length ∧ Good (shl l shift) := by
  by_cases hbig : shift ≥ 64 * l.length
  · rw [shl, if_pos hbig]
    refine ⟨?_, by simp, Good_replicate _ _ W_pos⟩
    have hdvd : W ^ l.length ∣ 2 ^ shift := by
      rw [W_pow_eq]
      exact pow_dvd_pow 2 hbig
    obtain ⟨k, hk⟩ := hdvd
    rw [val_replicate_zero, hk, show val l * (W ^ l.length * k)
      = (val l * k) * W ^ l.length by ring, Nat.mul_mod_left]
  · push_neg at hbig
    have hseg : shift / 64 ≤ l.length := by omega
    have hseglt : shift / 64 < l.length := by
      by_contra hc
      push_neg at hc
      have : l.length * 64 ≤ shift / 64 * 64 := by omega
      have h2 := Nat.div_mul_le_self shift 64
      omega
    have hpows : W ^ (shift / 64) * W ^ (l.length - shift / 64) = W ^ l.length := by
      rw [← pow_add]
      congr 1
      omega
    by_cases hbit : shift % 64 = 0
    · rw [shl, if_neg (by omega), if_pos hbit]
      have hlen : (List.replicate (shift / 64) 0
          ++ l.take (l.length - shift / 64)).length = l.length := by
        simp only [List.length_append, List.length_replicate, List.length_take]
        omega
      refine ⟨?_, hlen, ?_⟩
      · rw [val_append, val_replicate_zero, List.length_replicate,
          val_take l hg, Nat.zero_add]
        have hW2 : 2 ^ shift = W ^ (shift / 64) := by
          rw [W_pow_eq]
          congr 1
          omega
        rw [hW2, ← hpows, mul_comm (val l) (W ^ (shift / 64)),
          Nat.mul_mod_mul_left]
      · exact Good_append.2 ⟨Good_replicate _ _ W_pos, Good_take _ hg⟩
    · rw [shl, if_neg (by omega), if_neg hbit]
      have hb1 : 0 < shift % 64 := by omega
      have hb2 : shift % 64 < 64 := Nat.mod_lt _ (by norm_num)
      obtain ⟨hsval, hslen, hsgood⟩ := shlBits_spec (shift % 64) hb1 hb2
        (l.take (l.length - shift / 64)) 0 (Good_take _ hg)
        (Nat.pos_pow_of_pos _ (by norm_num))
      have hlen : (List.replicate (shift / 64) 0
          ++ shlBits (shift % 64) 0 (l.take (l.length - shift / 64))).length
          = l.length := by
        simp only [List.length_append, List.length_replicate, hslen,
          List.length_take]
        omega
      refine ⟨?_, hlen, ?_⟩
      · rw [val_append, val_replicate_zero, List.length_replicate, Nat.zero_add,
          hsval, val_take l hg]
        have htklen : (l.take (l.length - shift / 64)).length
            = l.length - shift / 64 := by
          simp only [List.length_take]
          omega
        rw [htklen]
        -- assemble: W^seg * ((val l % W^(n-seg)) * 2^bit % W^(n-seg))
        --         = val l * 2^shift % W^n
        set n := l.length
        set sg := shift / 64
        set bt := shift % 64
        have hsplit : 2 ^ shift = W ^ sg * 2 ^ bt := by
          rw [W_pow_eq]
          rw [← pow_add]
          congr 1
          omega
        have step1 : W ^ sg * ((0 + val l % W ^ (n - sg) * 2 ^ bt) % W ^ (n - sg))
            = (W ^ sg * (val l % W ^ (n - sg) * 2 ^ bt)) % W ^ n := by
          rw [Nat.zero_add, ← hpows, Nat.mul_mod_mul_left]
        rw [step1]
        have step2 : W ^ sg * (val l * 2 ^ bt)
            = W ^ sg * (val l % W ^ (n - sg) * 2 ^ bt)
              + (2 ^ bt * (val l / W ^ (n - sg))) * W ^ n := by
          conv_lhs => rw [← Nat.div_add_mod (val l) (W ^ (n - sg))]
          rw [← hpows]
          ring
        have step3 : (W ^ sg * (val l % W ^ (n - sg) * 2 ^ bt)) % W ^ n
            = (W ^ sg * (val l * 2 ^ bt)) % W ^ n := by
          rw [step2, Nat.add_mul_mod_self_right]
        rw [step3, hsplit]
        ring_nf
      · exact Good_append.2 ⟨Good_replicate _ _ W_pos, hsgood⟩

theorem shr_spec (l : List Nat) (shift : Nat) (hg : Good l) :
    val (shr l shift) = val l / 2 ^ shift
      ∧ (shr l shift).length = l.length ∧ Good (shr l shift) := by
  by_cases hbig : shift ≥ 64 * l.length
  · rw [shr, if_pos hbig]
    refine ⟨?_, by simp, Good_replicate _ _ W_pos⟩
    have hlt : val l < 2 ^ shift := by
      have h1 := val_lt l hg
      have h2 : W ^ l.length ≤ 2 ^ shift := by
        rw [W_pow_eq]
        exact Nat.pow_le_pow_right (by norm_num) hbig
      omega
    rw [val_replicate_zero, Nat.div_eq_of_lt hlt]
  · push_neg at hbig
    have hseglt : shift / 64 < l.length := by
      by_contra hc
      push_neg at hc
      have : l.length * 64 ≤ shift / 64 * 64 := by omega
      have h2 := Nat.div_mul_le_self shift 64
      omega
    by_cases hbit : shift % 64 = 0
    · rw [shr, if_neg (by omega), if_pos hbit]
      refine ⟨?_, ?_, ?_⟩
      · rw [val_append, val_replicate_zero, val_drop l hg]
        have hW2 : 2 ^ shift = W ^ (shift / 64) := by
          rw [W_pow_eq]
          congr 1
          omega
        rw [hW2]
        ring_nf
      · simp only [List.length_append, List.length_drop, List.length_replicate]
        omega
      · exact Good_append.2 ⟨Good_drop _ hg, Good_replicate _ _ W_pos⟩
    · rw [shr, if_neg (by omega), if_neg hbit]
      have hb1 : 0 < shift % 64 := by omega
      have hb2 : shift % 64 < 64 := Nat.mod_lt _ (by norm_num)
      obtain ⟨hsval, hslen, hsgood⟩ := shrBits_spec (shift % 64) hb1 hb2
        (l.drop (shift / 64)) (Good_drop _ hg)
      refine ⟨?_, ?_, ?_⟩
      · rw [val_append, hsval, val_drop l hg]
        have h1 : val l / W ^ (shift / 64) / 2 ^ (shift % 64)
            = val l / 2 ^ shift := by
          rw [Nat.div_div_eq_div_mul, W_pow_eq, ← pow_add]
          congr 2
          omega
        rw [h1]
        simp
      · simp only [List.length_append, hslen, List.length_drop,
          List.length_replicate]
        omega
      · exact Good_append.2 ⟨hsgood, Good_replicate _ _ W_pos⟩

theorem cmp_spec (a b : List Nat) (hga : Good a) (hgb : Good b)
    (hlen : a.length = b.length) : cmp a b = compare (val a) (val b) := by
  unfold cmp
  have h := cmpMSB_spec a.reverse b.reverse (by simpa using hlen)
    (fun z hz => hga z (List.mem_reverse.1 hz))
    (fun z hz => hgb z (List.mem_reverse.1 hz))
  simpa using h

theorem inc_spec (l : List Nat) (hg : Good l) :
    val (inc l) = (val l + 1) % W ^ l.length
      ∧ (inc l).length = l.length ∧ Good (inc l) := by
  obtain ⟨hval, hlen, hgood⟩ := incSegs_spec l hg
  refine ⟨?_, hlen, hgood⟩
  have hlt : val (inc l) < W ^ l.length := by
    have := val_lt (inc l) hgood
    rwa [show (inc l).length = l.length from hlen] at this
  have h2 : val l + 1
      = val (inc l) + (incSegs l).2.toNat * W ^ l.length := by
    rw [← hval]
    show val (inc l) + W ^ l.length * (incSegs l).2.toNat
      = val (inc l) + (incSegs l).2.toNat * W ^ l.length
    ring
  rw [h2, Nat.add_mul_mod_self_right, Nat.mod_eq_of_lt hlt]

theorem ofInt_eq_neg (n : Nat) (v : Int) (hn : 1 ≤ n) (hv : v < 0) :
    ofInt n v = (v % (2 ^ 64 : Int)).toNat :: List.replicate (n - 1) (W - 1) := by
  unfold ofInt
  cases n with
  | zero => omega
  | succ m =>
    rw [List.range_succ_eq_map]
    simp only [List.map_cons, if_pos rfl, List.map_map]
    congr 1
    have hmem : ∀ x ∈ List.map
        ((fun i => if i = 0 then (v % (2 ^ 64 : Int)).toNat
          else if v < 0 then W - 1 else 0) ∘ Nat.succ) (List.range m),
        x = W - 1 := by
      intro x hx
      simp only [List.mem_map, Function.comp_apply, List.mem_range] at hx
      obtain ⟨i, _, hix⟩ := hx
      rw [← hix, if_neg (Nat.succ_ne_zero i), if_pos hv]
    rw [List.eq_replicate_of_mem hmem]
    simp

theorem ofInt_eq_nonneg (n : Nat) (v : Int) (hn : 1 ≤ n) (hv : 0 ≤ v) :
    ofInt n v = (v % (2 ^ 64 : Int)).toNat :: List.replicate (n - 1) 0 := by
  unfold ofInt
  cases n with
  | zero => omega
  | succ m =>
    rw [List.range_succ_eq_map]
    simp only [List.map_cons, if_pos rfl, List.map_map]
    congr 1
    have hmem : ∀ x ∈ List.map
        ((fun i => if i = 0 then (v % (2 ^ 64 : Int)).toNat
          else if v < 0 then W - 1 else 0) ∘ Nat.succ) (List.range m),
        x = 0 := by
      intro x hx
      simp only [List.mem_map, Function.comp_apply, List.mem_range] at hx
      obtain ⟨i, _, hix⟩ := hx
      rw [← hix, if_neg (Nat.succ_ne_zero i), if_neg (by omega)]
    rw [List.eq_replicate_of_mem hmem]
    simp

theorem ofInt_length (n : Nat) (v : Int) : (ofInt n v).length = n := by
  unfold ofInt
  simp

theorem ofInt_good (n : Nat) (v : Int) : Good (ofInt n v) := by
  unfold ofInt
  intro x hx
  simp only [List.mem_map, List.mem_range] at hx
  obtain ⟨i, _, hix⟩ := hx
  subst hix
  by_cases hi : i = 0
  · rw [if_pos hi]
    have h1 : (0 : Int) ≤ v % (2 ^ 64 : Int) := Int.emod_nonneg v (by norm_num)
    have h2 : v % (2 ^ 64 : Int) < 2 ^ 64 := Int.emod_lt_of_pos v (by norm_num)
    have : ((v % (2 ^ 64 : Int)).toNat : Int) < 2 ^ 64 := by
      rwa [Int.toNat_of_nonneg h1]
    rw [show W = 2 ^ 64 from by norm_num [W]]
    exact_mod_cast this
  · rw [if_neg hi]
    by_cases hv : v < 0
    · rw [if_pos hv]
      have := W_pos
      omega
    · rw [if_neg hv]
      exact W_pos

theorem ofInt_val_nonneg (n : Nat) (v : Int) (hn : 1 ≤ n) (hv : 0 ≤ v)
    (hsmall : v < 2 ^ 64) : val (ofInt n v) = v.toNat := by
  rw [ofInt_eq_nonneg n v hn hv]
  simp only [val_cons, val_replicate_zero, Nat.mul_zero, Nat.add_zero]
  congr 1
  rw [Int.emod_eq_of_lt hv hsmall]

end FixedInteger

theorem getD_set_ne (l : List Nat) (i j x : Nat) (h : i ≠ j) :
    (l.set i x).getD j 0 = l.getD j 0 := by
  simp [List.getD_eq_getElem?_getD, List.getElem?_set_ne h]

namespace FixedInteger

theorem mulInner_spec (x : Nat) (bs : List Nat) : ∀ (r : List Nat) (pos carry : Nat),
    x < W → Good bs → Good r → carry < W → pos + bs.length ≤ r.length →
    (val (mulInner x bs r pos carry).1
        + W ^ (pos + bs.length) * (mulInner x bs r pos carry).2
      = val r + W ^ pos * (x * val bs + carry))
    ∧ (mulInner x bs r pos carry).1.length = r.length
    ∧ Good (mulInner x bs r pos carry).1
    ∧ (mulInner x bs r pos carry).2 < W
    ∧ (∀ j, pos + bs.length ≤ j →
        (mulInner x bs r pos carry).1.getD j 0 = r.getD j 0) := by
  induction bs with
  | nil =>
    intro r pos carry hx _ hgr hc _
    refine ⟨?_, rfl, hgr, hc, fun j _ => rfl⟩
    simp [mulInner]
  | cons bj bs ih =>
    intro r pos carry hx hgb hgr hc hlen
    rcases Good_cons.1 hgb with ⟨hbj, hgbs⟩
    have hW2 : W = 2 ^ 64 := by norm_num [W]
    -- the three primitive steps of the loop body
    obtain ⟨hp, hp1, hp2⟩ := mul128_spec x bj hx hbj
    have hrpos : r.getD pos 0 < W := Good_getD hgr pos
    obtain ⟨hs1, hs1lt⟩ :=
      add_with_carry_spec (mul128 x bj).1 carry false hp1 hc
    obtain ⟨hs2, hs2lt⟩ := add_with_carry_spec
      (add_with_carry (mul128 x bj).1 carry false).1 (r.getD pos 0) false
      hs1lt hrpos
    simp only [Bool.toNat_false, Nat.add_zero] at hs1 hs2
    set p := mul128 x bj with hpd
    set s1 := add_with_carry p.1 carry false with hs1d
    set s2 := add_with_carry s1.1 (r.getD pos 0) false with hs2d
    -- the recomputed carry does not overflow
    have hxbj : x * bj ≤ (2 ^ 64 - 1) * (2 ^ 64 - 1) :=
      Nat.mul_le_mul (by omega) (by omega)
    have hcarrylt : p.2 + s1.2.toNat + s2.2.toNat < W := by
      have e1 : p.1 + 2 ^ 64 * p.2 = x * bj := by rw [← hW2]; exact hp
      have e2 : s1.1 + 2 ^ 64 * s1.2.toNat = p.1 + carry := by rw [← hW2]; exact hs1
      have e3 : s2.1 + 2 ^ 64 * s2.2.toNat = s1.1 + r.getD pos 0 := by
        rw [← hW2]; exact hs2
      have hcW : carry < 2 ^ 64 := by rw [← hW2]; exact hc
      have hrW : r.getD pos 0 < 2 ^ 64 := by rw [← hW2]; exact hrpos
      rw [hW2]
      omega
    have hcmod : (p.2 + s1.2.toNat + s2.2.toNat) % W
        = p.2 + s1.2.toNat + s2.2.toNat := Nat.mod_eq_of_lt hcarrylt
    -- the combined effect of one loop body
    have hkey : s2.1 + W * (p.2 + s1.2.toNat + s2.2.toNat)
        = x * bj + carry + r.getD pos 0 := by
      have e1 : p.1 + W * p.2 = x * bj := hp
      have e2 : s1.1 + W * s1.2.toNat = p.1 + carry := hs1
      have e3 : s2.1 + W * s2.2.toNat = s1.1 + r.getD pos 0 := hs2
      rw [hW2] at e1 e2 e3 ⊢
      omega
    -- apply the induction hypothesis to the updated store
    have hposlt : pos < r.length := by
      simp only [List.length_cons] at hlen
      omega
    have hglset : Good (r.set pos s2.1) := Good_set hgr hs2lt
    obtain ⟨ihval, ihlen, ihgood, ihcarry, ihuntouched⟩ :=
      ih (r.set pos s2.1) (pos + 1) ((p.2 + s1.2.toNat + s2.2.toNat) % W)
        hx hgbs hglset (Nat.mod_lt _ W_pos)
        (by simp only [List.length_set, List.length_cons] at hlen ⊢; omega)
    have hunf : mulInner x (bj :: bs) r pos carry
        = mulInner x bs (r.set pos s2.1) (pos + 1)
            ((p.2 + s1.2.toNat + s2.2.toNat) % W) := rfl
    rw [hunf, hcmod] at *
    set c2 := p.2 + s1.2.toNat + s2.2.toNat with hc2d
    set R := mulInner x bs (r.set pos s2.1) (pos + 1) c2 with hRd
    refine ⟨?_, by rw [ihlen]; simp, ihgood, ihcarry, ?_⟩
    · -- value accounting
      have hset := val_set r pos s2.1 hposlt
      -- hset : val (r.set pos s2.1) + r.getD pos 0 * W^pos = val r + s2.1 * W^pos
      have hlenstep : pos + (bj :: bs).length = (pos + 1) + bs.length := by
        simp
        omega
      rw [hlenstep]
      apply Nat.add_right_cancel (m := r.getD pos 0 * W ^ pos)
      calc val R.1 + W ^ (pos + 1 + bs.length) * R.2 + r.getD pos 0 * W ^ pos
          = (val (r.set pos s2.1) + W ^ (pos + 1) * (x * val bs + c2))
              + r.getD pos 0 * W ^ pos := by rw [ihval]
        _ = (val (r.set pos s2.1) + r.getD pos 0 * W ^ pos)
              + W ^ (pos + 1) * (x * val bs + c2) := by ring
        _ = (val r + s2.1 * W ^ pos) + W ^ (pos + 1) * (x * val bs + c2) := by
            rw [hset]
        _ = val r + W ^ pos * (s2.1 + W * c2) + W ^ (pos + 1) * (x * val bs) := by
            rw [pow_succ]
            ring
        _ = val r + W ^ pos * (x * bj + carry + r.getD pos 0)
              + W ^ (pos + 1) * (x * val bs) := by rw [hkey]
        _ = val r + W ^ pos * (x * (bj + W * val bs) + carry)
              + r.getD pos 0 * W ^ pos := by
            rw [pow_succ]
            ring
        _ = val r + W ^ pos * (x * val (bj :: bs) + carry)
              + r.getD pos 0 * W ^ pos := by rw [val_cons]
    · -- positions at or beyond pos + length are untouched
      intro j hj
      simp only [List.length_cons] at hj
      have h1 : pos + 1 + bs.length ≤ j := by omega
      rw [ihuntouched j h1, getD_set_ne r pos j s2.1 (by omega)]

end FixedInteger

theorem getD_replicate_zero (n j : Nat) : (List.replicate n 0).getD j 0 = 0 := by
  rcases Nat.lt_or_ge j n with h | h
  · rw [List.getD_eq_getElem _ _ (by simpa using h)]
    simp
  · rw [List.getD_eq_default _ _ (by simpa using h)]

namespace FixedInteger

theorem mulOuter_spec (n : Nat) (bs : List Nat) (hgb : Good bs)
    (hbs : bs.length = n) :
    ∀ (as : List Nat) (i : Nat) (r : List Nat), Good as → Good r →
    r.length = n → i + as.length = n →
    (val (mulOuter n bs as i r) % W ^ n
        = (val r + W ^ i * (val as * val bs)) % W ^ n)
    ∧ (mulOuter n bs as i r).length = n
    ∧ Good (mulOuter n bs as i r) := by
  intro as
  induction as with
  | nil =>
    intro i r _ hgr hrlen _
    refine ⟨?_, hrlen, hgr⟩
    simp [mulOuter]
  | cons a as ih =>
    intro i r hga hgr hrlen hi
    rcases Good_cons.1 hga with ⟨ha, hgas⟩
    have hlt : i < n := by
      simp only [List.length_cons] at hi
      omega
    have htklen : (bs.take (n - i)).length = n - i := by
      simp only [List.length_take]
      omega
    obtain ⟨innerval, innerlen, innergood, innercarry, _⟩ :=
      mulInner_spec a (bs.take (n - i)) r i 0 ha (Good_take _ hgb) hgr W_pos
        (by rw [htklen]; omega)
    rw [htklen, show i + (n - i) = n by omega] at innerval
    set r2 := (mulInner a (bs.take (n - i)) r i 0).1 with hr2
    have hunf : mulOuter n bs (a :: as) i r = mulOuter n bs as (i + 1) r2 := rfl
    obtain ⟨ihval, ihlen, ihgood⟩ := ih (i + 1) r2 hgas innergood
      (innerlen.trans hrlen)
      (by simp only [List.length_cons] at hi; omega)
    rw [hunf]
    refine ⟨?_, ihlen, ihgood⟩
    -- r2 mod W^n equals r plus the row contribution
    have hpows : W ^ i * W ^ (n - i) = W ^ n := by
      rw [← pow_add]
      congr 1
      omega
    have hr2mod : val r2 % W ^ n
        = (val r + W ^ i * (a * val bs)) % W ^ n := by
      have h1 : val r + W ^ i * (a * val (bs.take (n - i)) + 0)
          = val r2 + (mulInner a (bs.take (n - i)) r i 0).2 * W ^ n := by
        rw [← innerval]
        ring
      have h2 : val r2 % W ^ n
          = (val r + W ^ i * (a * val (bs.take (n - i)) + 0)) % W ^ n := by
        rw [h1, Nat.add_mul_mod_self_right]
      rw [h2, val_take bs hgb]
      have h3 : val r + W ^ i * (a * val bs)
          = val r + W ^ i * (a * (val bs % W ^ (n - i)) + 0)
            + (a * (val bs / W ^ (n - i))) * W ^ n := by
        conv_lhs => rw [← Nat.div_add_mod (val bs) (W ^ (n - i))]
        rw [← hpows]
        ring
      rw [h3, Nat.add_mul_mod_self_right]
    calc val (mulOuter n bs as (i + 1) r2) % W ^ n
        = (val r2 + W ^ (i + 1) * (val as * val bs)) % W ^ n := ihval
      _ = (val r2 % W ^ n + W ^ (i + 1) * (val as * val bs)) % W ^ n := by
          rw [Nat.mod_add_mod]
      _ = ((val r + W ^ i * (a * val bs)) % W ^ n
            + W ^ (i + 1) * (val as * val bs)) % W ^ n := by rw [hr2mod]
      _ = (val r + W ^ i * (a * val bs)
            + W ^ (i + 1) * (val as * val bs)) % W ^ n := by
          rw [Nat.mod_add_mod]
      _ = (val r + W ^ i * (val (a :: as) * val bs)) % W ^ n := by
          rw [val_cons, pow_succ]
          ring_nf

theorem mul_spec (a b : List Nat) (hga : Good a) (hgb : Good b)
    (hlen : b.length = a.length) :
    val (mul a b) = (val a * val b) % W ^ a.length
      ∧ (mul a b).length = a.length ∧ Good (mul a b) := by
  obtain ⟨hval, hl, hg⟩ := mulOuter_spec a.length b hgb hlen a 0
    (List.replicate a.length 0) hga (Good_replicate _ _ W_pos)
    (by simp) (by omega)
  refine ⟨?_, hl, hg⟩
  have hlt : val (mul a b) < W ^ a.length := by
    have := val_lt (mul a b) hg
    rwa [show (mul a b).length = a.length from hl] at this
  have h2 : val (mul a b) % W ^ a.length = val (mul a b) := Nat.mod_eq_of_lt hlt
  have h3 : val (mul a b) % W ^ a.length = (val a * val b) % W ^ a.length := by
    show val (mulOuter a.length b a 0 (List.replicate a.length 0)) % W ^ a.length
      = (val a * val b) % W ^ a.length
    rw [hval]
    simp
  rw [← h2, h3]

end FixedInteger

namespace DynamicInteger

theorem mulOuter_spec_dyn (lb : Nat) (bs : List Nat) (hgb : Good bs)
    (hlb : bs.length = lb) :
    ∀ (as : List Nat) (i : Nat) (r : List Nat), Good as → Good r →
    r.length = i + as.length + lb →
    (∀ j, i + lb ≤ j → r.getD j 0 = 0) →
    val (mulOuter lb bs as i r) = val r + W ^ i * (val as * val bs)
    ∧ (mulOuter lb bs as i r).length = r.length
    ∧ Good (mulOuter lb bs as i r) := by
  intro as
  induction as with
  | nil =>
    intro i r _ hgr _ _
    refine ⟨?_, rfl, hgr⟩
    simp [mulOuter]
  | cons a as ih =>
    intro i r hga hgr hrlen hzero
    rcases Good_cons.1 hga with ⟨ha, hgas⟩
    obtain ⟨innerval, innerlen, innergood, innercarry, inneruntouched⟩ :=
      FixedInteger.mulInner_spec a bs r i 0 ha hgb hgr W_pos
        (by rw [hlb] at *; simp only [List.length_cons] at hrlen; omega)
    rw [hlb] at innerval inneruntouched
    set r1 := (FixedInteger.mulInner a bs r i 0).1 with hr1
    set cout := (FixedInteger.mulInner a bs r i 0).2 with hcout
    have hset : i + lb < r1.length := by
      rw [innerlen, hrlen]
      simp only [List.length_cons]
      omega
    set r2 := r1.set (i + lb) cout with hr2
    have hunf : mulOuter lb bs (a :: as) i r = mulOuter lb bs as (i + 1) r2 := rfl
    have hr1top : r1.getD (i + lb) 0 = 0 := by
      rw [inneruntouched (i + lb) (le_refl _)]
      exact hzero (i + lb) (le_refl _)
    have hval2 : val r2 = val r + W ^ i * (a * val bs) := by
      have hv := val_set r1 (i + lb) cout hset
      rw [hr1top] at hv
      simp only [Nat.zero_mul, Nat.add_zero] at hv
      -- hv : val r2 = val r1 + cout * W ^ (i + lb)
      rw [← hr2] at hv
      have : val r1 + W ^ (i + lb) * cout = val r + W ^ i * (a * val bs + 0) :=
        innerval
      rw [hv]
      rw [show cout * W ^ (i + lb) = W ^ (i + lb) * cout by ring, this]
      ring_nf
    have hgr2 : Good r2 := Good_set innergood innercarry
    have hlen2 : r2.length = (i + 1) + as.length + lb := by
      rw [hr2, List.length_set, innerlen, hrlen]
      simp only [List.length_cons]
      omega
    have hzero2 : ∀ j, (i + 1) + lb ≤ j → r2.getD j 0 = 0 := by
      intro j hj
      rw [hr2, getD_set_ne r1 (i + lb) j cout (by omega),
        inneruntouched j (by omega)]
      exact hzero j (by omega)
    obtain ⟨ihval, ihlen, ihgood⟩ := ih (i + 1) r2 hgas hgr2 hlen2 hzero2
    rw [hunf]
    refine ⟨?_, by rw [ihlen, hlen2, hrlen]; simp only [List.length_cons]; omega,
      ihgood⟩
    rw [ihval, hval2, val_cons, pow_succ]
    ring_nf

theorem mul_spec_dyn (a b : List Nat) (hga : Good a) (hgb : Good b)
    (hne : a ≠ []) :
    val (mul a b) = val a * val b
      ∧ (mul a b).length ≤ a.length + b.length
      ∧ Good (mul a b) ∧ Trimmed (mul a b) := by
  obtain ⟨hval, hl, hg⟩ := mulOuter_spec_dyn b.length b hgb rfl a 0
    (List.replicate (a.length + b.length) 0) hga (Good_replicate _ _ W_pos)
    (by simp) (by intro j hj; exact getD_replicate_zero _ _)
  have hlen0 : (List.replicate (a.length + b.length) 0).length
      = a.length + b.length := by simp
  have hne2 : mulOuter b.length b a 0 (List.replicate (a.length + b.length) 0)
      ≠ [] := by
    intro hempty
    have := hl
    rw [hempty] at this
    simp only [List.length_nil] at this
    have h1 : 1 ≤ a.length := by
      cases a with
      | nil => exact absurd rfl hne
      | cons x xs => simp
    omega
  refine ⟨?_, ?_, Good_trim hg, trimmed_trim hne2⟩
  · rw [mul, val_trim, hval]
    simp
  · calc (mul a b).length ≤ (mulOuter b.length b a 0
        (List.replicate (a.length + b.length) 0)).length := length_trim_le _
      _ = a.length + b.length := by rw [hl, hlen0]

end DynamicInteger

theorem getLastD_irrel {l : List Nat} (h : l ≠ []) (d1 d2 : Nat) :
    l.getLastD d1 = l.getLastD d2 := by
  cases l with
  | nil => exact absurd rfl h
  | cons a s => rw [List.getLastD_cons, List.getLastD_cons]

theorem lor_lt_W {x y : Nat} (hx : x < W) (hy : y < W) : (x ||| y) < W := by
  rw [show W = 2 ^ 64 from by norm_num [W]] at *
  exact Nat.bitwise_lt hx hy

theorem xor_lt_W {x y : Nat} (hx : x < W) (hy : y < W) : (x ^^^ y) < W := by
  rw [show W = 2 ^ 64 from by norm_num [W]] at *
  exact Nat.bitwise_lt hx hy

namespace DynamicInteger

theorem ofInt_spec (v : Int) :
    (ofInt v).length = 1 ∧ Good (ofInt v) ∧ Trimmed (ofInt v) := by
  refine ⟨rfl, ?_, by simp [ofInt], by left; rfl⟩
  intro x hx
  simp only [ofInt, List.mem_singleton] at hx
  subst hx
  have h1 : (0 : Int) ≤ v % (2 ^ 64 : Int) := Int.emod_nonneg v (by norm_num)
  have h2 : v % (2 ^ 64 : Int) < 2 ^ 64 := Int.emod_lt_of_pos v (by norm_num)
  have h3 : ((v % (2 ^ 64 : Int)).toNat : Int) < 2 ^ 64 := by
    rwa [Int.toNat_of_nonneg h1]
  rw [show W = 2 ^ 64 from by norm_num [W]]
  exact_mod_cast h3

theorem add_spec_dyn (a b : List Nat) (hga : Good a) (hgb : Good b)
    (hne : a ≠ []) :
    val (add a b) = val a + val b ∧ Good (add a b) ∧ Trimmed (add a b) := by
  have hm : b.length ≤ max a.length b.length := le_max_right _ _
  have hpadlen : (a ++ List.replicate (max a.length b.length - a.length) 0).length
      = max a.length b.length := by
    simp only [List.length_append, List.length_replicate]
    omega
  have hgpad : Good (a ++ List.replicate (max a.length b.length - a.length) 0) :=
    Good_append.2 ⟨hga, Good_replicate _ _ W_pos⟩
  have hvpad : val (a ++ List.replicate (max a.length b.length - a.length) 0)
      = val a := by
    rw [val_append, val_replicate_zero]
    ring
  obtain ⟨hsval, hslen, hsgood⟩ := addSegs_spec
    (a ++ List.replicate (max a.length b.length - a.length) 0) b false
    hgpad hgb (by rw [hpadlen]; exact hm)
  rw [hvpad] at hsval
  rw [hpadlen] at hsval hslen
  simp only [Bool.toNat_false, Nat.add_zero] at hsval
  set s := addSegs (a ++ List.replicate (max a.length b.length - a.length) 0) b
    false with hs
  have hm1 : 1 ≤ max a.length b.length := by
    cases a with
    | nil => exact absurd rfl hne
    | cons x xs =>
      simp only [List.length_cons]
      omega
  have hs1ne : s.1 ≠ [] := by
    intro hempty
    rw [hempty] at hslen
    simp only [List.length_nil] at hslen
    omega
  rcases hc : s.2 with hf | ht
  · rw [hc] at hsval
    simp only [Bool.toNat_false, Nat.mul_zero, Nat.add_zero] at hsval
    refine ⟨?_, ?_, ?_⟩
    · show val (trim (if s.2 then s.1 ++ [1] else s.1)) = val a + val b
      rw [hc, if_neg (by simp), val_trim, hsval]
    · show Good (trim (if s.2 then s.1 ++ [1] else s.1))
      rw [hc, if_neg (by simp)]
      exact Good_trim hsgood
    · show Trimmed (trim (if s.2 then s.1 ++ [1] else s.1))
      rw [hc, if_neg (by simp)]
      exact trimmed_trim hs1ne
  · rw [hc] at hsval
    simp only [Bool.toNat_true, Nat.mul_one] at hsval
    refine ⟨?_, ?_, ?_⟩
    · show val (trim (if s.2 then s.1 ++ [1] else s.1)) = val a + val b
      rw [hc, if_pos rfl, val_trim, val_append, hslen]
      simp only [val_cons, val_nil]
      rw [← hsval]
      ring
    · show Good (trim (if s.2 then s.1 ++ [1] else s.1))
      rw [hc, if_pos rfl]
      exact Good_trim (Good_append.2 ⟨hsgood,
        Good_cons.2 ⟨one_lt_W, Good_nil⟩⟩)
    · show Trimmed (trim (if s.2 then s.1 ++ [1] else s.1))
      rw [hc, if_pos rfl]
      exact trimmed_trim (by simp)

theorem sub_spec (a b : List Nat) (hga : Good a) (hgb : Good b)
    (hne : a ≠ []) :
    (val b ≤ val a → val (sub a b) = val a - val b)
      ∧ (val a < val b →
          val (sub a b) = W ^ max a.length b.length + val a - val b)
      ∧ Good (sub a b) ∧ Trimmed (sub a b)
      ∧ (sub a b).length ≤ max a.length b.length := by
  have hm : b.length ≤ max a.length b.length := le_max_right _ _
  have hpadlen : (a ++ List.replicate (max a.length b.length - a.length) 0).length
      = max a.length b.length := by
    simp only [List.length_append, List.length_replicate]
    omega
  have hgpad : Good (a ++ List.replicate (max a.length b.length - a.length) 0) :=
    Good_append.2 ⟨hga, Good_replicate _ _ W_pos⟩
  have hvpad : val (a ++ List.replicate (max a.length b.length - a.length) 0)
      = val a := by
    rw [val_append, val_replicate_zero]
    ring
  obtain ⟨hsval, hslen, hsgood⟩ := subSegs_spec
    (a ++ List.replicate (max a.length b.length - a.length) 0) b false
    hgpad hgb (by rw [hpadlen]; exact hm)
  rw [hvpad] at hsval
  rw [hpadlen] at hsval hslen
  simp only [Bool.toNat_false, Nat.add_zero] at hsval
  set s := subSegs (a ++ List.replicate (max a.length b.length - a.length) 0) b
    false with hs
  have hm1 : 1 ≤ max a.length b.length := by
    cases a with
    | nil => exact absurd rfl hne
    | cons x xs =>
      simp only [List.length_cons]
      omega
  have hs1ne : s.1 ≠ [] := by
    intro hempty
    rw [hempty] at hslen
    simp only [List.length_nil] at hslen
    omega
  have hslt : val s.1 < W ^ max a.length b.length := by
    have := val_lt s.1 hsgood
    rwa [hslen] at this
  have hblt : val b < W ^ max a.length b.length := by
    have h1 := val_lt b hgb
    have h2 : W ^ b.length ≤ W ^ max a.length b.length :=
      Nat.pow_le_pow_right (le_of_lt one_lt_W) hm
    omega
  have hvtrim : val (sub a b) = val s.1 := val_trim _
  refine ⟨?_, ?_, Good_trim hsgood, trimmed_trim hs1ne,
    le_trans (length_trim_le _) (le_of_eq hslen)⟩
  · intro hge
    rw [hvtrim]
    rcases hc : s.2 with hf | ht
    · rw [hc] at hsval
      simp only [Bool.toNat_false, Nat.mul_zero, Nat.add_zero] at hsval
      omega
    · rw [hc] at hsval
      simp only [Bool.toNat_true, Nat.mul_one] at hsval
      omega
  · intro hlt
    rw [hvtrim]
    rcases hc : s.2 with hf | ht
    · rw [hc] at hsval
      simp only [Bool.toNat_false, Nat.mul_zero, Nat.add_zero] at hsval
      omega
    · rw [hc] at hsval
      simp only [Bool.toNat_true, Nat.mul_one] at hsval
      omega

theorem incSegs_length (l : List Nat) : (incSegs l).1.length = l.length := by
  induction l with
  | nil => rfl
  | cons c cs ih =>
    by_cases hwrap : (c + 1) % W ≠ 0
    · rw [incSegs, if_pos hwrap]
      simp
    · rw [incSegs, if_neg hwrap]
      simpa using ih

theorem incSegs_getLastD (l : List Nat) :
    (incSegs l).2 = false → l ≠ [] →
    (incSegs l).1.getLastD 0 = l.getLastD 0 ∨ (incSegs l).1.getLastD 0 ≠ 0 := by
  induction l with
  | nil => intro _ h; exact absurd rfl h
  | cons c cs ih =>
    intro hcarry _
    by_cases hwrap : (c + 1) % W ≠ 0
    · rw [incSegs, if_pos hwrap]
      dsimp only
      cases cs with
      | nil =>
        right
        simpa using hwrap
      | cons d ds =>
        left
        rw [List.getLastD_cons 0 ((c + 1) % W) (d :: ds),
          List.getLastD_cons 0 c (d :: ds)]
        exact getLastD_irrel (show (d :: ds : List Nat) ≠ [] by simp) _ _
    · have hcarry2 : (incSegs cs).2 = false := by
        rw [incSegs, if_neg hwrap] at hcarry
        exact hcarry
      have hcsne : cs ≠ [] := by
        intro hcs
        subst hcs
        simp [incSegs] at hcarry2
      rw [incSegs, if_neg hwrap]
      dsimp only
      rcases ih hcarry2 hcsne with h | h
      · left
        rw [List.getLastD_cons 0 0 (incSegs cs).1, List.getLastD_cons 0 c cs, h]
        exact getLastD_irrel hcsne _ _
      · right
        rw [List.getLastD_cons 0 0 (incSegs cs).1]
        exact h

theorem inc_spec_dyn (l : List Nat) (hg : Good l) (hne : l ≠ []) :
    val (inc l) = val l + 1 ∧ Good (inc l)
      ∧ (Trimmed l → Trimmed (inc l)) := by
  obtain ⟨hval, hlen, hgood⟩ := incSegs_spec l hg
  rcases hc : (incSegs l).2 with hf | ht
  · rw [hc] at hval
    simp only [Bool.toNat_false, Nat.mul_zero, Nat.add_zero] at hval
    have he : inc l = (incSegs l).1 := by
      rw [inc, hc, if_neg (by simp)]
    refine ⟨by rw [he, hval], by rw [he]; exact hgood, ?_⟩
    intro ht
    rw [he]
    refine ⟨?_, ?_⟩
    · intro hnil
      rw [hnil] at hlen
      simp only [List.length_nil] at hlen
      cases l with
      | nil => exact absurd rfl hne
      | cons x xs => simp at hlen
    · rcases ht.2 with h1 | h1
      · left
        rw [hlen, h1]
      · rcases incSegs_getLastD l hc hne with h2 | h2
        · right
          rw [h2]
          exact h1
        · right
          exact h2
  · rw [hc] at hval
    simp only [Bool.toNat_true, Nat.mul_one] at hval
    have he : inc l = (incSegs l).1 ++ [1] := by
      rw [inc, hc, if_pos rfl]
    refine ⟨?_, ?_, ?_⟩
    · rw [he, val_append, hlen]
      simp only [val_cons, val_nil]
      rw [← hval]
      ring
    · rw [he]
      exact Good_append.2 ⟨hgood, Good_cons.2 ⟨one_lt_W, Good_nil⟩⟩
    · intro _
      rw [he]
      refine ⟨by simp, Or.inr ?_⟩
      rw [List.getLastD_concat]
      omega

theorem dec_spec (l : List Nat) (hg : Good l) (hne : l ≠ []) :
    Good (dec l) ∧ Trimmed (dec l) := by
  obtain ⟨hlen, hgood⟩ := decSegs_spec l hg
  have hdne : decSegs l ≠ [] := by
    intro hempty
    rw [hempty] at hlen
    simp only [List.length_nil] at hlen
    cases l with
    | nil => exact absurd rfl hne
    | cons x xs => simp at hlen
  exact ⟨Good_trim hgood, trimmed_trim hdne⟩

theorem cmp_spec_dyn (a b : List Nat) (hga : Good a) (hgb : Good b)
    (ta : Trimmed a) (tb : Trimmed b) :
    cmp a b = compare (val a) (val b) := by
  unfold cmp
  by_cases hlen : a.length = b.length
  · rw [if_neg (by omega)]
    have h := cmpMSB_spec a.reverse b.reverse (by simpa using hlen)
      (fun z hz => hga z (List.mem_reverse.1 hz))
      (fun z hz => hgb z (List.mem_reverse.1 hz))
    simpa using h
  · rw [if_pos hlen]
    have ha1 : 1 ≤ a.length := by
      cases a with
      | nil => exact absurd rfl ta.1
      | cons x xs => simp
    have hb1 : 1 ≤ b.length := by
      cases b with
      | nil => exact absurd rfl tb.1
      | cons x xs => simp
    rcases Nat.lt_or_ge a.length b.length with hlt | hge
    · have hvab : val a < val b := by
        have h1 : val a < W ^ a.length := val_lt a hga
        have h2 : W ^ (b.length - 1) ≤ val b :=
          val_ge_of_trimmed b hgb tb (by omega)
        have h3 : W ^ a.length ≤ W ^ (b.length - 1) :=
          Nat.pow_le_pow_right (le_of_lt one_lt_W) (by omega)
        omega
      rw [Nat.compare_eq_lt.2 hlt, Nat.compare_eq_lt.2 hvab]
    · have hlt2 : b.length < a.length := by omega
      have hvab : val b < val a := by
        have h1 : val b < W ^ b.length := val_lt b hgb
        have h2 : W ^ (a.length - 1) ≤ val a :=
          val_ge_of_trimmed a hga ta (by omega)
        have h3 : W ^ b.length ≤ W ^ (a.length - 1) :=
          Nat.pow_le_pow_right (le_of_lt one_lt_W) (by omega)
        omega
      rw [Nat.compare_eq_gt.2 hlt2, Nat.compare_eq_gt.2 hvab]

theorem and_spec (a b : List Nat) (hga : Good a) (hgb : Good b)
    (hnea : a ≠ []) (hneb : b ≠ []) :
    Good (and a b) ∧ Trimmed (and a b)
      ∧ (and a b).length ≤ min a.length b.length := by
  have hglen : (List.zipWith (fun x y => x &&& y) a b).length
      = min a.length b.length := by simp
  have hgz : Good (List.zipWith (fun x y => x &&& y) a b) := by
    intro x hx
    rw [List.mem_iff_getElem] at hx
    obtain ⟨i, hi, hix⟩ := hx
    rw [List.getElem_zipWith] at hix
    subst hix
    have h1 : a[i] < W := hga _ (List.getElem_mem _)
    exact lt_of_le_of_lt (Nat.and_le_left) h1
  have hzne : List.zipWith (fun x y => x &&& y) a b ≠ [] := by
    intro hempty
    rw [hempty] at hglen
    simp only [List.length_nil] at hglen
    cases a with
    | nil => exact absurd rfl hnea
    | cons x xs =>
      cases b with
      | nil => exact absurd rfl hneb
      | cons y ys => simp at hglen; omega
  exact ⟨Good_trim hgz, trimmed_trim hzne,
    le_trans (length_trim_le _) (le_of_eq hglen)⟩

theorem or_spec (a b : List Nat) (hga : Good a) (hgb : Good b)
    (hnea : a ≠ []) :
    Good (or a b) ∧ Trimmed (or a b) := by
  have hga2 : Good (a ++ List.replicate (max a.length b.length - a.length) 0) :=
    Good_append.2 ⟨hga, Good_replicate _ _ W_pos⟩
  have hgb2 : Good (b ++ List.replicate (max a.length b.length - b.length) 0) :=
    Good_append.2 ⟨hgb, Good_replicate _ _ W_pos⟩
  have hgz : Good (List.zipWith (fun x y => x ||| y)
      (a ++ List.replicate (max a.length b.length - a.length) 0)
      (b ++ List.replicate (max a.length b.length - b.length) 0)) := by
    intro x hx
    rw [List.mem_iff_getElem] at hx
    obtain ⟨i, hi, hix⟩ := hx
    rw [List.getElem_zipWith] at hix
    subst hix
    exact lor_lt_W (hga2 _ (List.getElem_mem _)) (hgb2 _ (List.getElem_mem _))
  have hzlen : (List.zipWith (fun x y => x ||| y)
      (a ++ List.replicate (max a.length b.length - a.length) 0)
      (b ++ List.replicate (max a.length b.length - b.length) 0)).length
      = max a.length b.length := by
    simp only [List.length_zipWith, List.length_append, List.length_replicate]
    omega
  have hzne : List.zipWith (fun x y => x ||| y)
      (a ++ List.replicate (max a.length b.length - a.length) 0)
      (b ++ List.replicate (max a.length b.length - b.length) 0) ≠ [] := by
    intro hempty
    rw [hempty] at hzlen
    simp only [List.length_nil] at hzlen
    have : 1 ≤ a.length := by
      cases a with
      | nil => exact absurd rfl hnea
      | cons x xs => simp
    omega
  exact ⟨Good_trim hgz, trimmed_trim hzne⟩

theorem xor_spec (a b : List Nat) (hga : Good a) (hgb : Good b)
    (hnea : a ≠ []) :
    Good (xor a b) ∧ Trimmed (xor a b) := by
  have hga2 : Good (a ++ List.replicate (max a.length b.length - a.length) 0) :=
    Good_append.2 ⟨hga, Good_replicate _ _ W_pos⟩
  have hgb2 : Good (b ++ List.replicate (max a.length b.length - b.length) 0) :=
    Good_append.2 ⟨hgb, Good_replicate _ _ W_pos⟩
  have hgz : Good (List.zipWith (fun x y => x ^^^ y)
      (a ++ List.replicate (max a.length b.length - a.length) 0)
      (b ++ List.replicate (max a.length b.length - b.length) 0)) := by
    intro x hx
    rw [List.mem_iff_getElem] at hx
    obtain ⟨i, hi, hix⟩ := hx
    rw [List.getElem_zipWith] at hix
    subst hix
    exact xor_lt_W (hga2 _ (List.getElem_mem _)) (hgb2 _ (List.getElem_mem _))
  have hzlen : (List.zipWith (fun x y => x ^^^ y)
      (a ++ List.replicate (max a.length b.length - a.length) 0)
      (b ++ List.replicate (max a.length b.length - b.length) 0)).length
      = max a.length b.length := by
    simp only [List.length_zipWith, List.length_append, List.length_replicate]
    omega
  have hzne : List.zipWith (fun x y => x ^^^ y)
      (a ++ List.replicate (max a.length b.length - a.length) 0)
      (b ++ List.replicate (max a.length b.length - b.length) 0) ≠ [] := by
    intro hempty
    rw [hempty] at hzlen
    simp only [List.length_nil] at hzlen
    have : 1 ≤ a.length := by
      cases a with
      | nil => exact absurd rfl hnea
      | cons x xs => simp
    omega
  exact ⟨Good_trim hgz, trimmed_trim hzne⟩

end DynamicInteger

namespace DynamicInteger

theorem shl_spec_dyn (l : List Nat) (shift : Nat) (hg : Good l) (hne : l ≠ []) :
    val (shl l shift) = val l * 2 ^ shift
      ∧ Good (shl l shift)
      ∧ (Trimmed l → Trimmed (shl l shift)) := by
  by_cases h0 : shift = 0
  · subst h0
    rw [shl, if_pos rfl]
    simp only [pow_zero, Nat.mul_one]
    exact ⟨by trivial, hg, fun h => h⟩
  · have hlen1 : 1 ≤ l.length := by
      cases l with
      | nil => exact absurd rfl hne
      | cons x xs => simp
    rw [shl, if_neg h0]
    dsimp only
    set sg := shift / 64 with hsg
    set bt := shift % 64 with hbt
    set len := l.length with hlend
    set extra := (if 0 < bt ∧ 0 < len ∧ l.getD (len - 1) 0 >>> (64 - bt) ≠ 0
      then 1 else 0) with hextra
    have hextra01 : extra = 0 ∨ extra = 1 := by
      rw [hextra]
      split
      · right; rfl
      · left; rfl
    have hnewlen : len + sg + extra - len = sg + extra := by omega
    have htake : (l ++ List.replicate (len + sg + extra - len) 0).take
        (len + sg + extra - sg) = l ++ List.replicate extra 0 := by
      rw [hnewlen, show len + sg + extra - sg = len + extra by omega,
        List.take_append_eq_append_take]
      congr 1
      · exact List.take_of_length_le (by rw [← hlend]; omega)
      · rw [List.take_replicate, ← hlend]
        congr 1
        omega
    have hE : Good (l ++ List.replicate extra 0) :=
      Good_append.2 ⟨hg, Good_replicate _ _ W_pos⟩
    have hEval : val (l ++ List.replicate extra 0) = val l := by
      rw [val_append, val_replicate_zero]
      ring
    have hElen : (l ++ List.replicate extra 0).length = len + extra := by
      simp only [List.length_append, List.length_replicate, ← hlend]
    have hEne : l ++ List.replicate extra 0 ≠ [] := by
      intro hc
      rw [List.append_eq_nil] at hc
      exact hne hc.1
    -- bound: the product never overflows the chosen store
    have hbound : val l * 2 ^ bt < W ^ (len + extra) := by
      rcases hextra01 with he0 | he1
      · -- the top segment has no bits beyond 64 - bt
        rw [he0]
        by_cases hbt0 : bt = 0
        · rw [hbt0, pow_zero, Nat.mul_one]
          rw [hlend]
          exact val_lt l hg
        · have hcond : ¬(0 < bt ∧ 0 < len ∧ l.getD (len - 1) 0 >>> (64 - bt) ≠ 0) := by
            intro hc
            rw [hextra] at he0
            rw [if_pos hc] at he0
            cases he0
          have htop0 : l.getD (len - 1) 0 >>> (64 - bt) = 0 := by
            by_contra hc
            exact hcond ⟨by omega, by omega, hc⟩
          have hbtlt : bt < 64 := by
            rw [hbt]
            exact Nat.mod_lt _ (by norm_num)
          have htoplt : l.getD (len - 1) 0 < 2 ^ (64 - bt) := by
            rw [Nat.shiftRight_eq_div_pow] at htop0
            have hp : 0 < 2 ^ (64 - bt) := Nat.pos_pow_of_pos _ (by norm_num)
            by_contra hc
            push_neg at hc
            have : 1 ≤ l.getD (len - 1) 0 / 2 ^ (64 - bt) :=
              (Nat.le_div_iff_mul_le hp).2 (by omega)
            omega
          have hgetd : l.getD (len - 1) 0 = val l / W ^ (len - 1) := by
            rw [val_getD l hg]
            have hdivlt : val l / W ^ (len - 1) < W := by
              apply Nat.div_lt_of_lt_mul
              have : W ^ (len - 1) * W = W ^ len := by
                rw [← pow_succ]
                congr 1
                omega
              rw [this, hlend]
              exact val_lt l hg
            rw [Nat.mod_eq_of_lt hdivlt]
          have hvl : val l < W ^ (len - 1) * 2 ^ (64 - bt) := by
            have h1 : val l < W ^ (len - 1) * (l.getD (len - 1) 0 + 1) := by
              rw [hgetd]
              have hdm := Nat.div_add_mod (val l) (W ^ (len - 1))
              have hml : val l % W ^ (len - 1) < W ^ (len - 1) :=
                Nat.mod_lt _ (Nat.pos_pow_of_pos (len - 1) W_pos)
              calc val l = W ^ (len - 1) * (val l / W ^ (len - 1))
                    + val l % W ^ (len - 1) := hdm.symm
                _ < W ^ (len - 1) * (val l / W ^ (len - 1)) + W ^ (len - 1) := by
                    omega
                _ = W ^ (len - 1) * (val l / W ^ (len - 1) + 1) := by ring
            have h2 : W ^ (len - 1) * (l.getD (len - 1) 0 + 1)
                ≤ W ^ (len - 1) * 2 ^ (64 - bt) :=
              Nat.mul_le_mul_left _ (by omega)
            omega
          calc val l * 2 ^ bt < W ^ (len - 1) * 2 ^ (64 - bt) * 2 ^ bt := by
                apply Nat.mul_lt_mul_right (Nat.pos_pow_of_pos _ (by norm_num)) |>.2
                exact hvl
            _ = W ^ (len - 1) * W := by
                rw [mul_assoc, two_pow_split bt (by omega)]
            _ = W ^ len := by
                rw [← pow_succ]
                congr 1
                omega
      · rw [he1]
        have h1 : val l < W ^ len := by rw [hlend]; exact val_lt l hg
        have h2 : (2 : Nat) ^ bt ≤ W := by
          rw [show W = 2 ^ 64 from by norm_num [W]]
          exact Nat.pow_le_pow_right (by norm_num) (by rw [hbt]; omega)
        calc val l * 2 ^ bt < W ^ len * 2 ^ bt := by
              apply Nat.mul_lt_mul_right (Nat.pos_pow_of_pos _ (by norm_num)) |>.2
              exact h1
          _ ≤ W ^ len * W := Nat.mul_le_mul_left _ h2
          _ = W ^ (len + 1) := by rw [← pow_succ]
    by_cases hbt0 : bt = 0
    · -- pure segment shift
      have hextra0 : extra = 0 := by
        rw [hextra, if_neg (by omega)]
      rw [if_pos hbt0, htake, hextra0]
      simp only [List.replicate_zero, List.append_nil]
      have hshift : 2 ^ shift = W ^ sg := by
        rw [FixedInteger.W_pow_eq]
        congr 1
        omega
      refine ⟨?_, ?_, ?_⟩
      · rw [val_trim, val_append, val_replicate_zero, List.length_replicate,
          hshift]
        ring
      · exact Good_trim (Good_append.2 ⟨Good_replicate _ _ W_pos, hg⟩)
      · intro _
        apply trimmed_trim
        intro hc
        rw [List.append_eq_nil] at hc
        exact hne hc.2
    · rw [if_neg hbt0, htake]
      have hb1 : 0 < bt := by omega
      have hb2 : bt < 64 := by rw [hbt]; exact Nat.mod_lt _ (by norm_num)
      obtain ⟨hsval, hslen, hsgood⟩ := shlBits_spec bt hb1 hb2
        (l ++ List.replicate extra 0) 0 hE (Nat.pos_pow_of_pos _ (by norm_num))
      have hsval2 : val (shlBits bt 0 (l ++ List.replicate extra 0))
          = val l * 2 ^ bt := by
        rw [hsval, hEval, hElen, Nat.zero_add, Nat.mod_eq_of_lt hbound]
      have hsne : shlBits bt 0 (l ++ List.replicate extra 0) ≠ [] := by
        intro hc
        rw [hc] at hslen
        simp only [List.length_nil] at hslen
        rw [hElen] at hslen
        omega
      have hshift : 2 ^ shift = W ^ sg * 2 ^ bt := by
        rw [FixedInteger.W_pow_eq, ← pow_add]
        congr 1
        omega
      refine ⟨?_, ?_, ?_⟩
      · rw [val_trim, val_append, val_replicate_zero, List.length_replicate,
          hsval2, hshift]
        ring
      · exact Good_trim (Good_append.2 ⟨Good_replicate _ _ W_pos, hsgood⟩)
      · intro _
        apply trimmed_trim
        intro hc
        rw [List.append_eq_nil] at hc
        exact hsne hc.2

theorem shr_spec_dyn (l : List Nat) (shift : Nat) (hg : Good l) (hne : l ≠ []) :
    val (shr l shift) = val l / 2 ^ shift
      ∧ Good (shr l shift)
      ∧ (Trimmed l → Trimmed (shr l shift)) := by
  by_cases h0 : shift = 0
  · subst h0
    rw [shr, if_pos rfl]
    simp only [pow_zero, Nat.div_one]
    exact ⟨by trivial, hg, fun h => h⟩
  · have hlen1 : 1 ≤ l.length := by
      cases l with
      | nil => exact absurd rfl hne
      | cons x xs => simp
    rw [shr, if_neg h0]
    dsimp only
    by_cases hcollapse : shift / 64 ≥ l.length
    · rw [if_pos hcollapse]
      refine ⟨?_, ?_, ?_⟩
      · have hlt : val l < 2 ^ shift := by
          have h1 := val_lt l hg
          have h2 : W ^ l.length ≤ 2 ^ shift := by
            rw [FixedInteger.W_pow_eq]
            apply Nat.pow_le_pow_right (by norm_num)
            have := Nat.div_mul_le_self shift 64
            omega
          omega
        rw [Nat.div_eq_of_lt hlt]
        rfl
      · exact Good_cons.2 ⟨W_pos, Good_nil⟩
      · intro _
        exact ⟨by simp, Or.inl rfl⟩
    · rw [if_neg hcollapse]
      push_neg at hcollapse
      have hdropne : l.drop (shift / 64) ≠ [] := by
        intro hc
        have := List.drop_eq_nil_iff.1 hc
        omega
      by_cases hbt0 : shift % 64 = 0
      · rw [if_pos hbt0]
        refine ⟨?_, Good_trim (Good_drop _ hg), fun _ => trimmed_trim hdropne⟩
        rw [val_trim, val_drop l hg]
        congr 1
        rw [FixedInteger.W_pow_eq]
        congr 1
        omega
      · rw [if_neg hbt0]
        have hb1 : 0 < shift % 64 := by omega
        have hb2 : shift % 64 < 64 := Nat.mod_lt _ (by norm_num)
        obtain ⟨hsval, hslen, hsgood⟩ := shrBits_spec (shift % 64) hb1 hb2
          (l.drop (shift / 64)) (Good_drop _ hg)
        have hsne : shrBits (shift % 64) (l.drop (shift / 64)) ≠ [] := by
          intro hc
          rw [hc] at hslen
          simp only [List.length_nil, List.length_drop] at hslen
          omega
        refine ⟨?_, Good_trim hsgood, fun _ => trimmed_trim hsne⟩
        rw [val_trim, hsval, val_drop l hg, Nat.div_div_eq_div_mul, FixedInteger.W_pow_eq,
          ← pow_add]
        congr 2
        omega

end DynamicInteger

theorem testBit_getD (l : List Nat) (hg : Good l) (s t : Nat) (ht : t < 64) :
    (l.getD s 0).testBit t = (val l).testBit (64 * s + t) := by
  rw [val_getD l hg s, show W = 2 ^ 64 from by norm_num [W], ← pow_mul,
    Nat.testBit_mod_two_pow, ← Nat.shiftRight_eq_div_pow, Nat.testBit_shiftRight]
  simp [ht]

theorem bitCond_iff (l : List Nat) (hg : Good l) (i : Nat) :
    (l.getD (i / 64) 0 &&& (1 <<< (i % 64)) ≠ 0) ↔ (val l).testBit i = true := by
  have h1 : (1 : Nat) <<< (i % 64) = 2 ^ (i % 64) := by
    rw [Nat.shiftLeft_eq, Nat.one_mul]
  rw [h1, Nat.and_two_pow,
    testBit_getD l hg (i / 64) (i % 64) (Nat.mod_lt _ (by norm_num)),
    show 64 * (i / 64) + i % 64 = i from by omega]
  rcases hb : (val l).testBit i with hf | ht2
  · simp
  · simp [Nat.pos_pow_of_pos]

theorem even_lor_one (x : Nat) (hx : x % 2 = 0) : x ||| 1 = x + 1 := by
  apply lor_eq_add
  rw [Nat.and_one_is_mod, hx]

/-- The dividend bit injected at step `i` is `(D / 2^i) % 2`. -/
theorem testBit_toNat_eq (D i : Nat) :
    ((D.testBit i).toNat) = D / 2 ^ i % 2 := by
  rw [Nat.testBit_to_div_mod]
  rcases hb : decide (D / 2 ^ i % 2 = 1) with hf | ht
  · have := of_decide_eq_false hb
    simp only [Bool.toNat_false]
    omega
  · have := of_decide_eq_true hb
    simp only [Bool.toNat_true]
    omega

namespace FixedInteger

/-- Loop invariant of the Fixed bit-serial division: with `i` bit positions
still to process, the quotient holds the already-determined high quotient
bits (scaled by `2^i`) and the remainder is the running remainder of the
processed high part of the dividend. -/
def divInv (a d : List Nat) (i : Nat) (st : List Nat × List Nat) : Prop :=
  st.1.length = a.length ∧ st.2.length = a.length ∧ Good st.1 ∧ Good st.2
  ∧ val st.1 = (val a / 2 ^ i / val d) * 2 ^ i
  ∧ val st.2 = (val a / 2 ^ i) % val d

theorem divStep_inv (a d : List Nat) (hga : Good a) (hgd : Good d)
    (hlen : d.length = a.length) (hvd : 0 < val d) (i : Nat)
    (hi : i < 64 * a.length) (st : List Nat × List Nat)
    (hst : divInv a d (i + 1) st) : divInv a d i (divStep a d i st) := by
  obtain ⟨hql, hrl, hqg, hrg, hqv, hrv⟩ := hst
  have hn1 : 1 ≤ a.length := by omega
  set n := a.length with hn
  set D := val a with hD
  set vb := val d with hvb
  set high := D / 2 ^ (i + 1) with hhigh
  have hD_lt : D < W ^ n := val_lt a hga
  have hnewhigh : D / 2 ^ i = 2 * high + D / 2 ^ i % 2 := by
    have h1 : D / 2 ^ i / 2 = high := by
      rw [Nat.div_div_eq_div_mul, hhigh, pow_succ]
    omega
  have hhighbound : D / 2 ^ i ≤ D := Nat.div_le_self _ _
  have hrhigh : val st.2 ≤ high := by
    rw [hrv]
    exact Nat.mod_le _ _
  obtain ⟨hshlval, hshllen, hshlgood⟩ := shl_spec st.2 1 hrg
  have hshlval2 : val (shl st.2 1) = 2 * val st.2 := by
    rw [hshlval, pow_one]
    have hlt : val st.2 * 2 < W ^ st.2.length := by
      rw [hrl]
      omega
    rw [Nat.mod_eq_of_lt hlt]
    ring
  rw [divStep]
  set r1 := shl st.2 1 with hr1
  have hr1l : r1.length = n := by rw [hr1, hshllen, hrl]
  -- the injected dividend bit
  have hbitn : (if a.getD (i / 64) 0 &&& (1 <<< (i % 64)) ≠ 0
      then (1 : Nat) else 0) = D / 2 ^ i % 2 := by
    by_cases hbset : a.getD (i / 64) 0 &&& (1 <<< (i % 64)) ≠ 0
    · rw [if_pos hbset]
      have htb : (val a).testBit i = true := (bitCond_iff a hga i).1 hbset
      have h2 := testBit_toNat_eq D i
      rw [show (val a).testBit i = D.testBit i from rfl] at htb
      rw [htb] at h2
      simpa using h2
    · rw [if_neg hbset]
      have htb : (val a).testBit i = false := by
        rcases hb2 : (val a).testBit i with hf | ht
        · rfl
        · exact absurd ((bitCond_iff a hga i).2 hb2) hbset
      have h2 := testBit_toNat_eq D i
      rw [show (val a).testBit i = D.testBit i from rfl] at htb
      rw [htb] at h2
      simpa using h2
  -- the remainder after the shift and bit injection
  have hr2all : val (if a.getD (i / 64) 0 &&& (1 <<< (i % 64)) ≠ 0
        then r1.set 0 (r1.getD 0 0 ||| 1) else r1)
      = 2 * val st.2 + D / 2 ^ i % 2
      ∧ Good (if a.getD (i / 64) 0 &&& (1 <<< (i % 64)) ≠ 0
        then r1.set 0 (r1.getD 0 0 ||| 1) else r1)
      ∧ (if a.getD (i / 64) 0 &&& (1 <<< (i % 64)) ≠ 0
        then r1.set 0 (r1.getD 0 0 ||| 1) else r1).length = n := by
    by_cases hbset : a.getD (i / 64) 0 &&& (1 <<< (i % 64)) ≠ 0
    · rw [if_pos hbset] at hbitn ⊢
      have hr1e : r1.getD 0 0 % 2 = 0 := by
        rw [val_getD r1 hshlgood 0]
        simp only [pow_zero, Nat.div_one]
        rw [hshlval2, show W = 2 ^ 64 from by norm_num [W]]
        omega
      have hlor := even_lor_one (r1.getD 0 0) hr1e
      have h0n : 0 < r1.length := by rw [hr1l]; omega
      have hsetval := val_set r1 0 (r1.getD 0 0 ||| 1) h0n
      rw [hlor] at hsetval
      simp only [pow_zero, Nat.mul_one] at hsetval
      refine ⟨?_, ?_, by rw [List.length_set, hr1l]⟩
      · rw [← hbitn, ← hshlval2, hlor]
        omega
      · apply Good_set hshlgood
        rw [hlor]
        have h1 : r1.getD 0 0 < W := Good_getD hshlgood 0
        have h2 : W % 2 = 0 := by norm_num [W]
        omega
    · rw [if_neg hbset] at hbitn ⊢
      refine ⟨?_, hshlgood, hr1l⟩
      omega
  set r2 := if a.getD (i / 64) 0 &&& (1 <<< (i % 64)) ≠ 0
    then r1.set 0 (r1.getD 0 0 ||| 1) else r1 with hr2d
  obtain ⟨hr2val, hr2good, hr2len⟩ := hr2all
  have hr2v2 : val r2 = 2 * (high % vb) + D / 2 ^ i % 2 := by
    rw [hr2val, hrv]
  have hcmp : cmp r2 d = compare (val r2) vb :=
    cmp_spec r2 d hr2good hgd (by rw [hr2len, hlen])
  have hdm := Nat.div_add_mod high vb
  have hmlt : high % vb < vb := Nat.mod_lt _ hvd
  by_cases hge : vb ≤ val r2
  · rw [if_pos (by
      rw [hcmp]
      intro hc
      have := Nat.compare_eq_lt.1 hc
      omega)]
    obtain ⟨hsv, hsl, hsg⟩ := sub_spec_ge r2 d hr2good hgd
      (by rw [hr2len, hlen]) hge
    -- the current quotient has bit i clear
    have hqbit : (st.1.getD (i / 64) 0).testBit (i % 64) = false := by
      rw [testBit_getD st.1 hqg (i / 64) (i % 64) (Nat.mod_lt _ (by norm_num)),
        show 64 * (i / 64) + i % 64 = i from by omega, Nat.testBit_to_div_mod]
      have h1 : val st.1 / 2 ^ i = 2 * (high / vb) := by
        rw [hqv, pow_succ,
          show high / vb * (2 ^ i * 2) = 2 * (high / vb) * 2 ^ i by ring,
          Nat.mul_div_cancel _ (Nat.pos_pow_of_pos i (by norm_num))]
      rw [h1]
      simp [Nat.mul_mod_right]
    have hqlor : st.1.getD (i / 64) 0 ||| (1 <<< (i % 64))
        = st.1.getD (i / 64) 0 + 2 ^ (i % 64) := by
      rw [Nat.shiftLeft_eq, Nat.one_mul]
      apply lor_eq_add
      rw [Nat.and_two_pow, hqbit]
      simp
    have hsegidx : i / 64 < n := by
      have h1 := Nat.div_mul_le_self i 64
      by_contra hc
      push_neg at hc
      have h2 : n * 64 ≤ i / 64 * 64 := by omega
      omega
    have hqset := val_set st.1 (i / 64)
      (st.1.getD (i / 64) 0 ||| (1 <<< (i % 64))) (by rw [hql]; exact hsegidx)
    set q2 := st.1.set (i / 64) (st.1.getD (i / 64) 0 ||| (1 <<< (i % 64)))
      with hq2
    rw [hqlor] at hqset
    have hpowseg : (2 : Nat) ^ (i % 64) * W ^ (i / 64) = 2 ^ i := by
      rw [W_pow_eq, ← pow_add]
      congr 1
      omega
    have hq2val : val q2 = val st.1 + 2 ^ i := by
      have h3 : (st.1.getD (i / 64) 0 + 2 ^ (i % 64)) * W ^ (i / 64)
          = st.1.getD (i / 64) 0 * W ^ (i / 64)
            + 2 ^ (i % 64) * W ^ (i / 64) := by
        ring
      rw [h3, hpowseg] at hqset
      omega
    have hq2good : Good q2 := by
      apply Good_set hqg
      apply lor_lt_W (Good_getD hqg _)
      rw [Nat.shiftLeft_eq, Nat.one_mul, show W = 2 ^ 64 from by norm_num [W]]
      exact Nat.pow_lt_pow_right (by norm_num) (Nat.mod_lt _ (by norm_num))
    have hdivmod : (D / 2 ^ i) / vb = 2 * (high / vb) + 1
        ∧ (D / 2 ^ i) % vb = val r2 - vb := by
      have hdist : vb * (2 * (high / vb) + 1) = 2 * (vb * (high / vb)) + vb := by
        ring
      apply (Nat.div_mod_unique hvd).2
      refine ⟨?_, by omega⟩
      rw [hdist]
      omega
    refine ⟨?_, ?_, hq2good, hsg, ?_, ?_⟩
    · rw [hq2, List.length_set, hql]
    · rw [hsl, hr2len]
    · rw [hq2val, hqv, hdivmod.1, pow_succ]
      ring
    · rw [hsv, hdivmod.2]
  · push_neg at hge
    rw [if_neg (by
      rw [hcmp, Nat.compare_eq_lt.2 hge]
      simp)]
    have hdivmod : (D / 2 ^ i) / vb = 2 * (high / vb)
        ∧ (D / 2 ^ i) % vb = val r2 := by
      have hdist : vb * (2 * (high / vb)) = 2 * (vb * (high / vb)) := by ring
      apply (Nat.div_mod_unique hvd).2
      refine ⟨?_, hge⟩
      rw [hdist]
      omega
    refine ⟨hql, hr2len, hqg, hr2good, ?_, hdivmod.2.symm ▸ rfl⟩
    rw [hqv, hdivmod.1, pow_succ]
    ring

theorem divLoop_inv (a d : List Nat) (hga : Good a) (hgd : Good d)
    (hlen : d.length = a.length) (hvd : 0 < val d) :
    ∀ (i : Nat) (st : List Nat × List Nat), i ≤ 64 * a.length →
    divInv a d i st → divInv a d 0 (divLoop a d i st) := by
  intro i
  induction i with
  | zero => intro st _ h; exact h
  | succ i ih =>
    intro st hle h
    rw [divLoop]
    exact ih _ (by omega) (divStep_inv a d hga hgd hlen hvd i (by omega) st h)

theorem divide_spec (a d : List Nat) (hga : Good a) (hgd : Good d)
    (hlen : d.length = a.length) (htb : toBool d = true) :
    ∃ q r, divide a d = some (q, r)
      ∧ val q = val a / val d ∧ val r = val a % val d
      ∧ q.length = a.length ∧ r.length = a.length ∧ Good q ∧ Good r := by
  have hvd : 0 < val d := by
    have := (toBool_iff d).1 htb
    omega
  have hstart : divInv a d (64 * a.length)
      (List.replicate a.length 0, List.replicate a.length 0) := by
    have hD_lt : val a < 2 ^ (64 * a.length) := by
      have h1 := val_lt a hga
      rwa [W_pow_eq] at h1
    have hdiv0 : val a / 2 ^ (64 * a.length) = 0 := Nat.div_eq_of_lt hD_lt
    refine ⟨by simp, by simp, Good_replicate _ _ W_pos, Good_replicate _ _ W_pos,
      ?_, ?_⟩
    · simp [hdiv0]
    · simp [hdiv0]
  have hfinal := divLoop_inv a d hga hgd hlen hvd (64 * a.length) _ (le_refl _)
    hstart
  obtain ⟨hql, hrl, hqg, hrg, hqv, hrv⟩ := hfinal
  refine ⟨_, _, ?_, ?_, ?_, hql, hrl, hqg, hrg⟩
  · rw [divide, if_neg (by rw [htb]; simp)]
  · rw [hqv]
    simp
  · rw [hrv]
    simp

end FixedInteger

theorem getLastD_eq_getD (l : List Nat) : l.getLastD 0 = l.getD (l.length - 1) 0 := by
  induction l with
  | nil => rfl
  | cons a t ih =>
    cases t with
    | nil => rfl
    | cons b u =>
      rw [List.getLastD_cons,
        getLastD_irrel (show (b :: u : List Nat) ≠ [] by simp) a 0, ih]
      simp

/-- Overwriting the least-significant segment keeps a store trimmed. -/
theorem Trimmed_set (l : List Nat) (x : Nat) (ht : Trimmed l) :
    Trimmed (l.set 0 x) := by
  obtain ⟨hne, hrest⟩ := ht
  have hpos : 0 < l.length := List.length_pos.2 hne
  have hlen : (l.set 0 x).length = l.length := List.length_set l 0 x
  refine ⟨by simp [← List.length_pos, hlen, hpos], ?_⟩
  by_cases hl1 : l.length = 1
  · left
    rw [hlen, hl1]
  · right
    rcases hrest with h1 | h2
    · exact absurd h1 hl1
    · rw [getLastD_eq_getD, hlen, getD_set_ne]
      · rwa [← getLastD_eq_getD]
      · omega

namespace DynamicInteger

/-- Loop invariant of the Dynamic bit-serial division, mirroring
`FixedInteger.divInv`, with the Dynamic store-shape facts (nonempty
quotient, trimmed remainder) carried along. -/
def divInv (a d : List Nat) (i : Nat) (st : List Nat × List Nat) : Prop :=
  st.1 ≠ [] ∧ Good st.1 ∧ Good st.2 ∧ Trimmed st.2
  ∧ val st.1 = (val a / 2 ^ i / val d) * 2 ^ i
  ∧ val st.2 = (val a / 2 ^ i) % val d

theorem divStep_inv_dyn (a d : List Nat) (hga : Good a) (hgd : Good d)
    (htd : Trimmed d) (hvd : 0 < val d) (i : Nat)
    (hi : i < 64 * a.length) (st : List Nat × List Nat)
    (hst : divInv a d (i + 1) st) : divInv a d i (divStep a d i st) := by
  obtain ⟨hqne, hqg, hrg, hrt, hqv, hrv⟩ := hst
  set D := val a with hD
  set vb := val d with hvb
  set high := D / 2 ^ (i + 1) with hhigh
  have hnewhigh : D / 2 ^ i = 2 * high + D / 2 ^ i % 2 := by
    have h1 : D / 2 ^ i / 2 = high := by
      rw [Nat.div_div_eq_div_mul, hhigh, pow_succ]
    omega
  have hrne : st.2 ≠ [] := hrt.1
  obtain ⟨hshlval, hshlgood, hshltrim⟩ := shl_spec_dyn st.2 1 hrg hrne
  have hshlval2 : val (shl st.2 1) = 2 * val st.2 := by
    rw [hshlval, pow_one]
    ring
  rw [divStep]
  set r1 := shl st.2 1 with hr1
  have hr1t : Trimmed r1 := hshltrim hrt
  have hr1ne : r1 ≠ [] := hr1t.1
  have hr1pos : 0 < r1.length := List.length_pos.2 hr1ne
  have hseg : i / 64 < a.length := by
    rw [Nat.div_lt_iff_lt_mul (by norm_num)]
    omega
  -- the injected dividend bit
  have hbitn : (if i / 64 < a.length ∧ a.getD (i / 64) 0 &&& (1 <<< (i % 64)) ≠ 0
      then (1 : Nat) else 0) = D / 2 ^ i % 2 := by
    by_cases hbset : a.getD (i / 64) 0 &&& (1 <<< (i % 64)) ≠ 0
    · rw [if_pos ⟨hseg, hbset⟩]
      have htb : (val a).testBit i = true := (bitCond_iff a hga i).1 hbset
      have h2 := testBit_toNat_eq D i
      rw [show (val a).testBit i = D.testBit i from rfl] at htb
      rw [htb] at h2
      simpa using h2
    · rw [if_neg (fun hc => hbset hc.2)]
      have htb : (val a).testBit i = false := by
        rcases hb2 : (val a).testBit i with hf | ht
        · rfl
        · exact absurd ((bitCond_iff a hga i).2 hb2) hbset
      have h2 := testBit_toNat_eq D i
      rw [show (val a).testBit i = D.testBit i from rfl] at htb
      rw [htb] at h2
      simpa using h2
  -- the remainder after the shift and bit injection
  have hr2all : val (if i / 64 < a.length
          ∧ a.getD (i / 64) 0 &&& (1 <<< (i % 64)) ≠ 0
        then r1.set 0 (r1.getD 0 0 ||| 1) else r1)
      = 2 * val st.2 + D / 2 ^ i % 2
      ∧ Good (if i / 64 < a.length
          ∧ a.getD (i / 64) 0 &&& (1 <<< (i % 64)) ≠ 0
        then r1.set 0 (r1.getD 0 0 ||| 1) else r1)
      ∧ Trimmed (if i / 64 < a.length
          ∧ a.getD (i / 64) 0 &&& (1 <<< (i % 64)) ≠ 0
        then r1.set 0 (r1.getD 0 0 ||| 1) else r1) := by
    by_cases hbset : a.getD (i / 64) 0 &&& (1 <<< (i % 64)) ≠ 0
    · rw [if_pos ⟨hseg, hbset⟩] at hbitn ⊢
      have hr1e : r1.getD 0 0 % 2 = 0 := by
        rw [val_getD r1 hshlgood 0]
        simp only [pow_zero, Nat.div_one]
        rw [hshlval2, show W = 2 ^ 64 from by norm_num [W]]
        omega
      have hlor := even_lor_one (r1.getD 0 0) hr1e
      have hsetval := val_set r1 0 (r1.getD 0 0 ||| 1) hr1pos
      rw [hlor] at hsetval
      simp only [pow_zero, Nat.mul_one] at hsetval
      refine ⟨?_, ?_, Trimmed_set r1 _ hr1t⟩
      · rw [← hbitn, ← hshlval2, hlor]
        omega
      · apply Good_set hshlgood
        rw [hlor]
        have h1 : r1.getD 0 0 < W := Good_getD hshlgood 0
        have h2 : W % 2 = 0 := by norm_num [W]
        omega
    · rw [if_neg (fun hc => hbset hc.2)] at hbitn ⊢
      refine ⟨?_, hshlgood, hr1t⟩
      omega
  set r2 := if i / 64 < a.length ∧ a.getD (i / 64) 0 &&& (1 <<< (i % 64)) ≠ 0
    then r1.set 0 (r1.getD 0 0 ||| 1) else r1 with hr2d
  obtain ⟨hr2val, hr2good, hr2trim⟩ := hr2all
  have hr2ne : r2 ≠ [] := hr2trim.1
  have hr2v2 : val r2 = 2 * (high % vb) + D / 2 ^ i % 2 := by
    rw [hr2val, hrv]
  have hcmp : cmp r2 d = compare (val r2) vb :=
    cmp_spec_dyn r2 d hr2good hgd hr2trim htd
  have hdm := Nat.div_add_mod high vb
  have hmlt : high % vb < vb := Nat.mod_lt _ hvd
  by_cases hge : vb ≤ val r2
  · rw [if_pos (by
      rw [hcmp]
      intro hc
      have := Nat.compare_eq_lt.1 hc
      omega)]
    obtain ⟨hsubge, hsublt, hsg, hstrim, hsublen⟩ := sub_spec r2 d hr2good hgd hr2ne
    have hsv : val (sub r2 d) = val r2 - vb := hsubge hge
    -- the resized quotient keeps the value
    set q1 := if i / 64 ≥ st.1.length
      then st.1 ++ List.replicate (i / 64 + 1 - st.1.length) 0
      else st.1 with hq1d
    have hq1val : val q1 = val st.1 := by
      rw [hq1d]
      by_cases hc : i / 64 ≥ st.1.length
      · rw [if_pos hc, val_append]
        simp
      · rw [if_neg hc]
    have hq1good : Good q1 := by
      rw [hq1d]
      by_cases hc : i / 64 ≥ st.1.length
      · rw [if_pos hc]
        exact Good_append.2 ⟨hqg, Good_replicate _ 0 W_pos⟩
      · rw [if_neg hc]
        exact hqg
    have hq1len : i / 64 < q1.length := by
      rw [hq1d]
      by_cases hc : i / 64 ≥ st.1.length
      · rw [if_pos hc]
        simp only [List.length_append, List.length_replicate]
        omega
      · rw [if_neg hc]
        omega
    -- the current quotient has bit i clear
    have hqbit : (q1.getD (i / 64) 0).testBit (i % 64) = false := by
      rw [testBit_getD q1 hq1good (i / 64) (i % 64) (Nat.mod_lt _ (by norm_num)),
        show 64 * (i / 64) + i % 64 = i from by omega, Nat.testBit_to_div_mod]
      have h1 : val q1 / 2 ^ i = 2 * (high / vb) := by
        rw [hq1val, hqv, pow_succ,
          show high / vb * (2 ^ i * 2) = 2 * (high / vb) * 2 ^ i by ring,
          Nat.mul_div_cancel _ (Nat.pos_pow_of_pos i (by norm_num))]
      rw [h1]
      simp [Nat.mul_mod_right]
    have hqlor : q1.getD (i / 64) 0 ||| (1 <<< (i % 64))
        = q1.getD (i / 64) 0 + 2 ^ (i % 64) := by
      rw [Nat.shiftLeft_eq, Nat.one_mul]
      apply lor_eq_add
      rw [Nat.and_two_pow, hqbit]
      simp
    have hqset := val_set q1 (i / 64)
      (q1.getD (i / 64) 0 ||| (1 <<< (i % 64))) hq1len
    set q2 := q1.set (i / 64) (q1.getD (i / 64) 0 ||| (1 <<< (i % 64)))
      with hq2
    rw [hqlor] at hqset
    have hpowseg : (2 : Nat) ^ (i % 64) * W ^ (i / 64) = 2 ^ i := by
      rw [FixedInteger.W_pow_eq, ← pow_add]
      congr 1
      omega
    have hq2val : val q2 = val st.1 + 2 ^ i := by
      have h3 : (q1.getD (i / 64) 0 + 2 ^ (i % 64)) * W ^ (i / 64)
          = q1.getD (i / 64) 0 * W ^ (i / 64)
            + 2 ^ (i % 64) * W ^ (i / 64) := by
        ring
      rw [h3, hpowseg] at hqset
      omega
    have hq2good : Good q2 := by
      apply Good_set hq1good
      apply lor_lt_W (Good_getD hq1good _)
      rw [Nat.shiftLeft_eq, Nat.one_mul, show W = 2 ^ 64 from by norm_num [W]]
      exact Nat.pow_lt_pow_right (by norm_num) (Nat.mod_lt _ (by norm_num))
    have hq2ne : q2 ≠ [] := by
      rw [← List.length_pos, hq2, List.length_set]
      omega
    have hdivmod : (D / 2 ^ i) / vb = 2 * (high / vb) + 1
        ∧ (D / 2 ^ i) % vb = val r2 - vb := by
      have hdist : vb * (2 * (high / vb) + 1) = 2 * (vb * (high / vb)) + vb := by
        ring
      apply (Nat.div_mod_unique hvd).2
      refine ⟨?_, by omega⟩
      rw [hdist]
      omega
    refine ⟨hq2ne, hq2good, hsg, hstrim, ?_, ?_⟩
    · rw [hq2val, hqv, hdivmod.1, pow_succ]
      ring
    · rw [hsv, hdivmod.2]
  · push_neg at hge
    rw [if_neg (by
      rw [hcmp, Nat.compare_eq_lt.2 hge]
      simp)]
    have hdivmod : (D / 2 ^ i) / vb = 2 * (high / vb)
        ∧ (D / 2 ^ i) % vb = val r2 := by
      have hdist : vb * (2 * (high / vb)) = 2 * (vb * (high / vb)) := by ring
      apply (Nat.div_mod_unique hvd).2
      refine ⟨?_, hge⟩
      rw [hdist]
      omega
    refine ⟨hqne, hqg, hr2good, hr2trim, ?_, hdivmod.2.symm ▸ rfl⟩
    rw [hqv, hdivmod.1, pow_succ]
    ring

theorem divLoop_inv_dyn (a d : List Nat) (hga : Good a) (hgd : Good d)
    (htd : Trimmed d) (hvd : 0 < val d) :
    ∀ (i : Nat) (st : List Nat × List Nat), i ≤ 64 * a.length →
    divInv a d i st → divInv a d 0 (divLoop a d i st) := by
  intro i
  induction i with
  | zero => intro st _ h; exact h
  | succ i ih =>
    intro st hle h
    rw [divLoop]
    exact ih _ (by omega)
      (divStep_inv_dyn a d hga hgd htd hvd i (by omega) st h)

theorem divide_spec_dyn (a d : List Nat) (hga : Good a) (hgd : Good d)
    (htd : Trimmed d) (htb : toBool d = true) :
    ∃ q r, divide a d = some (q, r)
      ∧ val q = val a / val d ∧ val r = val a % val d
      ∧ Good q ∧ Good r ∧ Trimmed q ∧ Trimmed r := by
  have hvd : 0 < val d := by
    have := (toBool_iff d).1 htb
    omega
  have hg0 : Good [0] := by
    intro x hx
    rcases List.mem_singleton.1 hx with rfl
    exact W_pos
  have hstart : divInv a d (64 * a.length) ([0], [0]) := by
    have hD_lt : val a < 2 ^ (64 * a.length) := by
      have h1 := val_lt a hga
      rwa [FixedInteger.W_pow_eq] at h1
    have hdiv0 : val a / 2 ^ (64 * a.length) = 0 := Nat.div_eq_of_lt hD_lt
    refine ⟨by simp, hg0, hg0, ⟨by simp, Or.inl rfl⟩, ?_, ?_⟩
    · simp [val, hdiv0]
    · simp [val, hdiv0]
  have hfinal := divLoop_inv_dyn a d hga hgd htd hvd (64 * a.length) _
    (le_refl _) hstart
  obtain ⟨hqne, hqg, hrg, hrt, hqv, hrv⟩ := hfinal
  simp only [pow_zero, Nat.div_one, Nat.mul_one] at hqv hrv
  refine ⟨_, _, ?_, ?_, ?_, Good_trim hqg, Good_trim hrg,
    trimmed_trim hqne, trimmed_trim hrt.1⟩
  · rw [divide, if_neg (by rw [htb]; simp)]
  · rw [val_trim, hqv]
  · rw [val_trim, hrv]

end DynamicInteger

/-- LSD-first decimal digit characters (ASCII codes) of a natural number:
the common value-level description of the `to_string` digit loop for both
representations. -/
def decChars (N : Nat) : List Nat :=
  if N = 0 then [] else (48 + N % 10) :: decChars (N / 10)
termination_by N
decreasing_by exact Nat.div_lt_self (by omega) (by norm_num)

theorem decChars_mem (N : Nat) : ∀ c ∈ decChars N, 48 ≤ c ∧ c ≤ 57 := by
  induction N using Nat.strong_induction_on with
  | _ N ih =>
    intro c hc
    by_cases h0 : N = 0
    · rw [decChars, if_pos h0] at hc
      simp at hc
    · rw [decChars, if_neg h0] at hc
      rcases List.mem_cons.1 hc with rfl | hc
      · have : N % 10 < 10 := Nat.mod_lt _ (by norm_num)
        omega
      · exact ih (N / 10) (Nat.div_lt_self (by omega) (by norm_num)) c hc

theorem decChars_ne_nil (N : Nat) (h0 : N ≠ 0) : decChars N ≠ [] := by
  rw [decChars, if_neg h0]
  simp

/-- Folding the `from_string` accumulation step over the digit characters
most-significant first recovers the number. -/
theorem foldl_rev_decChars (N : Nat) : ∀ v : Nat,
    List.foldl (fun x c => x * 10 + (c - 48)) v (decChars N).reverse
      = v * 10 ^ (decChars N).length + N := by
  induction N using Nat.strong_induction_on with
  | _ N ih =>
    intro v
    by_cases h0 : N = 0
    · subst h0
      rw [decChars]
      simp
    · rw [decChars, if_neg h0]
      simp only [List.reverse_cons, List.foldl_append, List.foldl_cons,
        List.foldl_nil, List.length_cons]
      rw [ih (N / 10) (Nat.div_lt_self (by omega) (by norm_num)) v,
        pow_succ, ← mul_assoc]
      have h1 : 48 + N % 10 - 48 = N % 10 := by omega
      have h2 := Nat.div_add_mod N 10
      rw [h1]
      omega

/-- A trimmed store with a single-segment value is that single segment. -/
theorem eq_singleton_of_small (r : List Nat) (hg : Good r) (ht : Trimmed r)
    (hlt : val r < W) : r = [val r] := by
  have hlen : r.length = 1 := by
    by_contra hc
    have h1 : 1 ≤ r.length := List.length_pos.2 ht.1
    have h2 : 2 ≤ r.length := by omega
    have h3 := val_ge_of_trimmed r hg ht h2
    have h4 : W ≤ W ^ (r.length - 1) := by
      calc W = W ^ 1 := (pow_one W).symm
        _ ≤ W ^ (r.length - 1) :=
          Nat.pow_le_pow_right W_pos (by omega)
    omega
  cases r with
  | nil => simp at hlen
  | cons x xs =>
    cases xs with
    | nil => simp [val]
    | cons y ys => simp at hlen

namespace DynamicInteger

theorem divide_ten_facts (l : List Nat) (hg : Good l) :
    ∀ qr : List Nat × List Nat, divide l [10] = some qr →
      Good qr.1 ∧ Trimmed qr.1 ∧ val qr.1 = val l / 10
      ∧ Good qr.2 ∧ Trimmed qr.2 ∧ val qr.2 = val l % 10 := by
  intro qr hdiv
  have hg10 : Good [10] := by
    intro x hx
    rcases List.mem_singleton.1 hx with rfl
    norm_num [W]
  have ht10 : Trimmed [10] := ⟨by simp, Or.inl rfl⟩
  have hv10 : val [10] = 10 := by simp [val]
  have htb : toBool [10] = true := by
    rw [toBool_iff, hv10]
    norm_num
  obtain ⟨q, r, heq, hq, hr, hgq, hgr, htq, htr⟩ :=
    divide_spec_dyn l [10] hg hg10 ht10 htb
  rw [heq] at hdiv
  have hqr : qr = (q, r) := by
    injection hdiv with h
    exact h.symm
  subst hqr
  rw [hv10] at hq hr
  exact ⟨hgq, htq, hq, hgr, htr, hr⟩

/-- The `to_string` digit loop for the Dynamic representation: record the
character of `temp % ten`, continue with `temp /= ten`; characters come out
least-significant first (the source appends, then reverses at the end). -/
def toStringAux (l : List Nat) (hg : Good l) : List Nat :=
  if hz : toBool l = false then []
  else
    match hdiv : divide l [10] with
    | none => []
    | some qr =>
      (48 + qr.2.headD 0)
        :: toStringAux qr.1 (divide_ten_facts l hg qr hdiv).1
termination_by val l
decreasing_by
  rw [(divide_ten_facts l hg qr hdiv).2.2.1]
  refine Nat.div_lt_self ?_ (by norm_num)
  have h2 : toBool l = true := by
    revert hz
    cases toBool l <;> simp
  have := (toBool_iff l).1 h2
  omega

/-- Dynamic `to_string`: a falsy value prints as "0" (code 48), otherwise
the digit loop output is reversed. Strings are modeled as ASCII code
lists. -/
def to_string (l : List Nat) (hg : Good l) : List Nat :=
  if toBool l = false then [48]
  else (toStringAux l hg).reverse

/-- The `from_string` accumulation loop for the Dynamic representation:
non-digit characters are rejected, otherwise
`result = result * ten + T(c - 48)` through the representation's own
multiply and add. -/
def fromLoop (s acc : List Nat) : Option (List Nat) :=
  match s with
  | [] => some acc
  | c :: cs =>
    if c < 48 ∨ 57 < c then none
    else fromLoop cs (add (mul acc [10]) [c - 48])

/-- Dynamic `from_string`: the empty string is rejected; the accumulator
starts as `T(0)`, one zero segment. -/
def from_string (s : List Nat) : Option (List Nat) :=
  if s = [] then none else fromLoop s [0]

theorem toStringAux_spec (N : Nat) : ∀ (l : List Nat) (hg : Good l),
    Trimmed l → val l = N → toStringAux l hg = decChars N := by
  induction N using Nat.strong_induction_on with
  | _ N ih =>
    intro l hg ht hN
    subst hN
    by_cases hz : toBool l = false
    · have hv0 : val l = 0 := by
        have h1 : ¬toBool l = true := by simp [hz]
        have h2 := mt (toBool_iff l).2 h1
        omega
      rw [toStringAux, dif_pos hz, decChars, if_pos hv0]
    · rw [toStringAux, dif_neg hz]
      have hvne : val l ≠ 0 := by
        have h2 : toBool l = true := by
          revert hz
          cases toBool l <;> simp
        exact (toBool_iff l).1 h2
      have hg10 : Good [10] := by
        intro x hx
        rcases List.mem_singleton.1 hx with rfl
        norm_num [W]
      have ht10 : Trimmed [10] := ⟨by simp, Or.inl rfl⟩
      have hv10 : val [10] = 10 := by simp [val]
      have htb : toBool [10] = true := by
        rw [toBool_iff, hv10]
        norm_num
      obtain ⟨q, r, heq, hq, hr, hgq, hgr, htq, htr⟩ :=
        divide_spec_dyn l [10] hg hg10 ht10 htb
      rw [hv10] at hq hr
      split
      · rename_i hdiv
        rw [heq] at hdiv
        exact absurd hdiv (by simp)
      · rename_i qr hdiv
        have hqr : qr = (q, r) := by
          rw [heq] at hdiv
          injection hdiv with h
          exact h.symm
        subst hqr
        have hrsmall : val r < W := by
          rw [hr]
          have h1 : val l % 10 < 10 := Nat.mod_lt _ (by norm_num)
          have hW : (10 : Nat) < W := by norm_num [W]
          omega
        have hhead : r.headD 0 = val l % 10 := by
          rw [eq_singleton_of_small r hgr htr hrsmall]
          simp [hr]
        rw [hhead,
          ih (val l / 10) (Nat.div_lt_self (by omega) (by norm_num)) q
            ((divide_ten_facts l hg (q, r) hdiv).1) htq hq]
        conv_rhs => rw [decChars]
        rw [if_neg hvne]

theorem fromLoop_spec (s : List Nat) : ∀ acc : List Nat,
    (∀ c ∈ s, 48 ≤ c ∧ c ≤ 57) → Good acc → Trimmed acc →
    ∃ res, fromLoop s acc = some res
      ∧ val res = List.foldl (fun x c => x * 10 + (c - 48)) (val acc) s
      ∧ Good res ∧ Trimmed res := by
  induction s with
  | nil =>
    intro acc _ hg ht
    exact ⟨acc, rfl, by simp, hg, ht⟩
  | cons c cs ih =>
    intro acc hds hg ht
    have hc := hds c (by simp)
    rw [fromLoop]
    rw [if_neg (by omega)]
    have hg10 : Good [10] := by
      intro x hx
      rcases List.mem_singleton.1 hx with rfl
      norm_num [W]
    have hgc : Good [c - 48] := by
      intro x hx
      rcases List.mem_singleton.1 hx with rfl
      have : (57 : Nat) < W := by norm_num [W]
      omega
    obtain ⟨hmv, hml, hmg, hmt⟩ := mul_spec_dyn acc [10] hg hg10 ht.1
    obtain ⟨hav, hag, hat⟩ :=
      add_spec_dyn (mul acc [10]) [c - 48] hmg hgc hmt.1
    obtain ⟨res, he, hv, hgr, htr⟩ := ih (add (mul acc [10]) [c - 48])
      (fun d hd => hds d (by simp [hd])) hag hat
    refine ⟨res, he, ?_, hgr, htr⟩
    rw [hv, hav, hmv, List.foldl_cons]
    have h10 : val [10] = 10 := by simp [val]
    have hc48 : val [c - 48] = c - 48 := by simp [val]
    rw [h10, hc48]

/-- Dynamic decimal round trip: parsing the serialization of any
invariant-satisfying value returns exactly that value. -/
theorem roundtrip_dyn (l : List Nat) (hg : Good l) (ht : Trimmed l) :
    from_string (to_string l hg) = some l := by
  have hg0 : Good [0] := by
    intro x hx
    rcases List.mem_singleton.1 hx with rfl
    exact W_pos
  have ht0 : Trimmed [0] := ⟨by simp, Or.inl rfl⟩
  have hv0 : val [0] = 0 := by simp [val]
  by_cases hz : toBool l = false
  · have hval0 : val l = 0 := by
      have h1 : ¬toBool l = true := by simp [hz]
      have h2 := mt (toBool_iff l).2 h1
      omega
    rw [to_string, if_pos hz, from_string, if_neg (by simp)]
    obtain ⟨res, he, hv, hgr, htr⟩ := fromLoop_spec [48] [0]
      (by
        intro c hc
        rcases List.mem_singleton.1 hc with rfl
        omega) hg0 ht0
    rw [he]
    congr 1
    apply trimmed_inj hgr hg htr ht
    rw [hv, hval0, hv0]
    simp
  · have hvne : val l ≠ 0 := by
      have h2 : toBool l = true := by
        revert hz
        cases toBool l <;> simp
      exact (toBool_iff l).1 h2
    rw [to_string, if_neg hz, toStringAux_spec (val l) l hg ht rfl,
      from_string,
      if_neg (by simpa using decChars_ne_nil (val l) hvne)]
    obtain ⟨res, he, hv, hgr, htr⟩ :=
      fromLoop_spec (decChars (val l)).reverse [0]
        (by
          intro c hc
          exact decChars_mem (val l) c (List.mem_reverse.1 hc)) hg0 ht0
    rw [he]
    congr 1
    apply trimmed_inj hgr hg htr ht
    rw [hv, hv0, foldl_rev_decChars (val l) 0]
    simp

end DynamicInteger

theorem foldl_digits_le (s : List Nat) : ∀ v : Nat,
    v ≤ List.foldl (fun x c => x * 10 + (c - 48)) v s := by
  induction s with
  | nil =>
    intro v
    simp
  | cons c cs ih =>
    intro v
    refine le_trans (show v ≤ v * 10 + (c - 48) by omega) ?_
    rw [List.foldl_cons]
    exact ih (v * 10 + (c - 48))

namespace FixedInteger

theorem divide_ten_facts_fix (l : List Nat) (hg : Good l) :
    ∀ qr : List Nat × List Nat, divide l (ofInt l.length 10) = some qr →
      Good qr.1 ∧ qr.1.length = l.length ∧ val qr.1 = val l / 10
      ∧ Good qr.2 ∧ qr.2.length = l.length ∧ val qr.2 = val l % 10 := by
  intro qr hdiv
  by_cases htb : toBool (ofInt l.length 10) = false
  · rw [divide, if_pos htb] at hdiv
    exact absurd hdiv (by simp)
  · have htb2 : toBool (ofInt l.length 10) = true := by
      revert htb
      cases toBool (ofInt l.length 10) <;> simp
    have hn : 1 ≤ l.length := by
      by_contra hc
      have h0 : l.length = 0 := by omega
      rw [h0] at htb2
      have he0 : ofInt 0 10 = [] := rfl
      rw [he0] at htb2
      simp [toBool] at htb2
    have hv10 : val (ofInt l.length 10) = 10 := by
      rw [ofInt_val_nonneg _ _ hn (by norm_num) (by norm_num)]
      rfl
    obtain ⟨q, r, heq, hqv, hrv, hql, hrl, hqg, hrg⟩ :=
      divide_spec l (ofInt l.length 10) hg (ofInt_good _ _)
        (ofInt_length _ _) htb2
    rw [heq] at hdiv
    have hqr : qr = (q, r) := by
      injection hdiv with h
      exact h.symm
    subst hqr
    rw [hv10] at hqv hrv
    exact ⟨hqg, hql, hqv, hrg, hrl, hrv⟩

/-- The `to_string` digit loop for the Fixed representation, with `ten`
the same-width constant `T(10)`. -/
def toStringAux (l : List Nat) (hg : Good l) : List Nat :=
  if hz : toBool l = false then []
  else
    match hdiv : divide l (ofInt l.length 10) with
    | none => []
    | some qr =>
      (48 + qr.2.headD 0)
        :: toStringAux qr.1 (divide_ten_facts_fix l hg qr hdiv).1
termination_by val l
decreasing_by
  rw [(divide_ten_facts_fix l hg qr hdiv).2.2.1]
  refine Nat.div_lt_self ?_ (by norm_num)
  have h2 : toBool l = true := by
    revert hz
    cases toBool l <;> simp
  have := (toBool_iff l).1 h2
  omega

/-- Fixed `to_string`: a falsy value prints as "0" (code 48), otherwise
the digit loop output reversed. -/
def to_string (l : List Nat) (hg : Good l) : List Nat :=
  if toBool l = false then [48]
  else (toStringAux l hg).reverse

/-- The `from_string` accumulation loop for the Fixed representation at
width `n` segments: `result = result * ten + T(c - 48)` through the
Fixed (modular) multiply and add. -/
def fromLoop (n : Nat) (s acc : List Nat) : Option (List Nat) :=
  match s with
  | [] => some acc
  | c :: cs =>
    if c < 48 ∨ 57 < c then none
    else fromLoop n cs
      (add (mul acc (ofInt n 10)) (ofInt n ((c - 48 : Nat) : Int)))

/-- Fixed `from_string` at width `n` segments: the empty string is
rejected; the accumulator starts as `T(0)`. -/
def from_string (n : Nat) (s : List Nat) : Option (List Nat) :=
  if s = [] then none else fromLoop n s (ofInt n 0)

theorem toStringAux_spec_fix (N : Nat) : ∀ (l : List Nat) (hg : Good l),
    val l = N → toStringAux l hg = decChars N := by
  induction N using Nat.strong_induction_on with
  | _ N ih =>
    intro l hg hN
    subst hN
    by_cases hz : toBool l = false
    · have hv0 : val l = 0 := (toBool_false_iff l).1 hz
      rw [toStringAux, dif_pos hz, decChars, if_pos hv0]
    · rw [toStringAux, dif_neg hz]
      have hvne : val l ≠ 0 := by
        have h2 : toBool l = true := by
          revert hz
          cases toBool l <;> simp
        exact (toBool_iff l).1 h2
      split
      · rename_i hdiv
        by_cases htb : toBool (ofInt l.length 10) = false
        · have hn : 1 ≤ l.length := by
            by_contra hc
            have h0 : l.length = 0 := by omega
            have hl0 : l = [] := List.length_eq_zero.1 h0
            rw [hl0] at hvne
            exact hvne rfl
          have hv10 : val (ofInt l.length 10) = 10 := by
            rw [ofInt_val_nonneg _ _ hn (by norm_num) (by norm_num)]
            rfl
          have := (toBool_false_iff (ofInt l.length 10)).1 htb
          rw [hv10] at this
          omega
        · have htb2 : toBool (ofInt l.length 10) = true := by
            revert htb
            cases toBool (ofInt l.length 10) <;> simp
          rw [divide, if_neg (by rw [htb2]; simp)] at hdiv
          exact absurd hdiv (by simp)
      · rename_i qr hdiv
        obtain ⟨hgq, hlq, hvq, hgr, hlr, hvr⟩ :=
          divide_ten_facts_fix l hg qr hdiv
        have hhead : qr.2.headD 0 = val l % 10 := by
          have h1 : qr.2.headD 0 = qr.2.getD 0 0 := by
            cases hq2 : qr.2 <;> simp
          rw [h1, val_getD qr.2 hgr 0]
          simp only [pow_zero, Nat.div_one]
          rw [hvr, show W = 2 ^ 64 from by norm_num [W]]
          omega
        rw [hhead,
          ih (val l / 10) (Nat.div_lt_self (by omega) (by norm_num)) qr.1
            ((divide_ten_facts_fix l hg qr hdiv).1) hvq]
        conv_rhs => rw [decChars]
        rw [if_neg hvne]

theorem fromLoop_spec_fix (n : Nat) (hn : 1 ≤ n) (s : List Nat) :
    ∀ acc : List Nat,
    (∀ c ∈ s, 48 ≤ c ∧ c ≤ 57) → Good acc → acc.length = n →
    List.foldl (fun x c => x * 10 + (c - 48)) (val acc) s < W ^ n →
    ∃ res, fromLoop n s acc = some res
      ∧ val res = List.foldl (fun x c => x * 10 + (c - 48)) (val acc) s
      ∧ Good res ∧ res.length = n := by
  induction s with
  | nil =>
    intro acc _ hg hl _
    exact ⟨acc, rfl, by simp, hg, hl⟩
  | cons c cs ih =>
    intro acc hds hg hl hbound
    have hc := hds c (by simp)
    rw [fromLoop]
    rw [if_neg (by omega)]
    rw [List.foldl_cons] at hbound ⊢
    have hmono := foldl_digits_le cs (val acc * 10 + (c - 48))
    have hvlt : val acc * 10 + (c - 48) < W ^ n := lt_of_le_of_lt hmono hbound
    obtain ⟨hmv, hml, hmg⟩ := mul_spec acc (ofInt n 10) hg (ofInt_good _ _)
      (by rw [ofInt_length, hl])
    have hv10 : val (ofInt n 10) = 10 := by
      rw [ofInt_val_nonneg _ _ hn (by norm_num) (by norm_num)]
      rfl
    rw [hv10, hl] at hmv
    have hmv2 : val (mul acc (ofInt n 10)) = val acc * 10 := by
      rw [hmv, Nat.mod_eq_of_lt (by omega)]
    have hvc : val (ofInt n ((c - 48 : Nat) : Int)) = c - 48 := by
      have h9 : (c - 48 : Nat) < 2 ^ 64 := by omega
      rw [ofInt_val_nonneg _ _ hn (by positivity) (by exact_mod_cast h9)]
      simp
    obtain ⟨hav, hal, hag⟩ := add_spec (mul acc (ofInt n 10))
      (ofInt n ((c - 48 : Nat) : Int)) hmg (ofInt_good _ _)
      (by rw [ofInt_length, hml, hl])
    have hav2 : val (add (mul acc (ofInt n 10)) (ofInt n ((c - 48 : Nat) : Int)))
        = val acc * 10 + (c - 48) := by
      rw [hav, hmv2, hvc, hml, hl, Nat.mod_eq_of_lt hvlt]
    obtain ⟨res, he, hv, hgr, hlr⟩ :=
      ih (add (mul acc (ofInt n 10)) (ofInt n ((c - 48 : Nat) : Int)))
        (fun d hd => hds d (by simp [hd])) hag (by rw [hal, hml, hl])
        (by rw [hav2]; exact hbound)
    refine ⟨res, he, ?_, hgr, hlr⟩
    rw [hv, hav2]

/-- Fixed decimal round trip: parsing the serialization of any value at
width `n` segments returns exactly that value. -/
theorem roundtrip_fix (l : List Nat) (hg : Good l) (hn : 1 ≤ l.length) :
    from_string l.length (to_string l hg) = some l := by
  have hga0 : Good (ofInt l.length 0) := ofInt_good _ _
  have hl0 : (ofInt l.length 0).length = l.length := ofInt_length _ _
  have hv0 : val (ofInt l.length 0) = 0 := by
    rw [ofInt_val_nonneg _ _ hn (le_refl 0) (by norm_num)]
    rfl
  by_cases hz : toBool l = false
  · have hval0 : val l = 0 := (toBool_false_iff l).1 hz
    rw [to_string, if_pos hz, from_string, if_neg (by simp)]
    obtain ⟨res, he, hv, hgr, hlr⟩ := fromLoop_spec_fix l.length hn [48]
      (ofInt l.length 0)
      (by
        intro c hc
        rcases List.mem_singleton.1 hc with rfl
        omega)
      hga0 hl0
      (by
        rw [hv0]
        simp only [List.foldl_cons, List.foldl_nil]
        have : (0 : Nat) * 10 + (48 - 48) = 0 := by omega
        rw [this]
        exact Nat.pos_pow_of_pos _ W_pos)
    rw [he]
    congr 1
    apply val_inj hgr hg (by rw [hlr])
    rw [hv, hval0, hv0]
    simp only [List.foldl_cons, List.foldl_nil]
  · have hvne : val l ≠ 0 := by
      have h2 : toBool l = true := by
        revert hz
        cases toBool l <;> simp
      exact (toBool_iff l).1 h2
    rw [to_string, if_neg hz, toStringAux_spec_fix (val l) l hg rfl,
      from_string,
      if_neg (by simpa using decChars_ne_nil (val l) hvne)]
    obtain ⟨res, he, hv, hgr, hlr⟩ := fromLoop_spec_fix l.length hn
      (decChars (val l)).reverse (ofInt l.length 0)
      (by
        intro c hc
        exact decChars_mem (val l) c (List.mem_reverse.1 hc))
      hga0 hl0
      (by
        rw [hv0, foldl_rev_decChars (val l) 0]
        simpa using val_lt l hg)
    rw [he]
    congr 1
    apply val_inj hgr hg (by rw [hlr])
    rw [hv, hv0, foldl_rev_decChars (val l) 0]
    simp

end FixedInteger

instance (l : List Nat) : Decidable (Good l) := by
  unfold Good
  infer_instance

instance (l : List Nat) : Decidable (Trimmed l) := by
  unfold Trimmed
  infer_instance

theorem incSegs_allones (k : Nat) :
    incSegs (List.replicate k (W - 1)) = (List.replicate k 0, true) := by
  induction k with
  | zero => rfl
  | succ k ih =>
    rw [List.replicate_succ, List.replicate_succ, incSegs]
    have hW : W - 1 + 1 = W := by
      have := W_pos
      omega
    rw [if_neg (by rw [hW, Nat.mod_self]; simp), ih]

/-- C1: for both representations, with a truthy divisor the quotient and
remainder of the shared division routine satisfy `(a/b)*b + (a%b) == a`,
with the product and sum computed by the representation's own
multiplication and addition. -/
theorem claim_C1 (a d : List Nat) (hga : Good a) (hgd : Good d)
    (hlen : d.length = a.length) (htb : toBool d = true)
    (a2 d2 : List Nat) (hga2 : Good a2) (hta2 : Trimmed a2) (hgd2 : Good d2)
    (htd2 : Trimmed d2) (htb2 : toBool d2 = true) :
    (∃ q r, FixedInteger.divide a d = some (q, r)
      ∧ FixedInteger.add (FixedInteger.mul q d) r = a)
    ∧ (∃ q r, DynamicInteger.divide a2 d2 = some (q, r)
      ∧ DynamicInteger.add (DynamicInteger.mul q d2) r = a2) := by
  have hvd : 0 < val d := by
    have := (toBool_iff d).1 htb
    omega
  constructor
  · obtain ⟨q, r, heq, hqv, hrv, hql, hrl, hqg, hrg⟩ :=
      FixedInteger.divide_spec a d hga hgd hlen htb
    refine ⟨q, r, heq, ?_⟩
    obtain ⟨hmv, hml, hmg⟩ := FixedInteger.mul_spec q d hqg hgd
      (by rw [hql]; exact hlen)
    have hprod : val q * val d ≤ val a := by
      rw [hqv]
      exact Nat.div_mul_le_self _ _
    have halt : val a < W ^ a.length := val_lt a hga
    have hmv2 : val (FixedInteger.mul q d) = val q * val d := by
      rw [hmv, hql, Nat.mod_eq_of_lt (by omega)]
    obtain ⟨hav, hal, hag⟩ := FixedInteger.add_spec (FixedInteger.mul q d) r
      hmg hrg (by rw [hrl, hml, hql])
    apply val_inj hag hga (by rw [hal, hml, hql])
    rw [hav, hmv2, hqv, hrv, hml, hql]
    have h2 : val a / val d * val d + val a % val d = val a := by
      rw [Nat.mul_comm]
      exact Nat.div_add_mod (val a) (val d)
    rw [h2, Nat.mod_eq_of_lt halt]
  · have hvd2 : 0 < val d2 := by
      have := (toBool_iff d2).1 htb2
      omega
    obtain ⟨q, r, heq, hqv, hrv, hgq, hgr, htq, htr⟩ :=
      DynamicInteger.divide_spec_dyn a2 d2 hga2 hgd2 htd2 htb2
    refine ⟨q, r, heq, ?_⟩
    obtain ⟨hmv, hmlen, hmg, hmt⟩ :=
      DynamicInteger.mul_spec_dyn q d2 hgq hgd2 htq.1
    obtain ⟨hav, hag, hat⟩ :=
      DynamicInteger.add_spec_dyn (DynamicInteger.mul q d2) r hmg hgr hmt.1
    apply trimmed_inj hag hga2 hat hta2
    rw [hav, hmv, hqv, hrv]
    rw [Nat.mul_comm]
    exact Nat.div_add_mod (val a2) (val d2)

theorem claim_C1_witness :
    Good [7] ∧ Good [3] ∧ ([3] : List Nat).length = ([7] : List Nat).length
    ∧ toBool [3] = true ∧ Good [9] ∧ Trimmed [9] ∧ Good [4] ∧ Trimmed [4]
    ∧ toBool [4] = true
    ∧ ((∃ q r, FixedInteger.divide [7] [3] = some (q, r)
        ∧ FixedInteger.add (FixedInteger.mul q [3]) r = [7])
      ∧ (∃ q r, DynamicInteger.divide [9] [4] = some (q, r)
        ∧ DynamicInteger.add (DynamicInteger.mul q [4]) r = [9])) :=
  ⟨by decide, by decide, rfl, by decide, by decide, by decide, by decide,
    by decide, by decide,
    claim_C1 [7] [3] (by decide) (by decide) rfl (by decide)
      [9] [4] (by decide) (by decide) (by decide) (by decide) (by decide)⟩

/-- C2: in both representations division and remainder signal the domain
error exactly when the divisor's boolean truthiness is false; on error the
receiver of `/=` and `%=` is returned unchanged (all-or-nothing), and with
a truthy divisor no error is signalled. All other operations are embedded
as total functions, matching the absence of any other `throw` in the
source. -/
theorem claim_C2 (a d a2 d2 : List Nat) :
    (FixedInteger.divide a d = none ↔ toBool d = false)
    ∧ (toBool d = false →
        FixedInteger.divAssign a d = (a, true)
        ∧ FixedInteger.modAssign a d = (a, true))
    ∧ (toBool d = true →
        (FixedInteger.divAssign a d).2 = false
        ∧ (FixedInteger.modAssign a d).2 = false)
    ∧ (DynamicInteger.divide a2 d2 = none ↔ toBool d2 = false)
    ∧ (toBool d2 = false →
        DynamicInteger.divAssign a2 d2 = (a2, true)
        ∧ DynamicInteger.modAssign a2 d2 = (a2, true))
    ∧ (toBool d2 = true →
        (DynamicInteger.divAssign a2 d2).2 = false
        ∧ (DynamicInteger.modAssign a2 d2).2 = false) := by
  have hfix : FixedInteger.divide a d = none ↔ toBool d = false := by
    by_cases h : toBool d = false
    · rw [FixedInteger.divide, if_pos h]
      simp [h]
    · rw [FixedInteger.divide, if_neg h]
      simp [h]
  have hdyn : DynamicInteger.divide a2 d2 = none ↔ toBool d2 = false := by
    by_cases h : toBool d2 = false
    · rw [DynamicInteger.divide, if_pos h]
      simp [h]
    · rw [DynamicInteger.divide, if_neg h]
      simp [h]
  refine ⟨hfix, ?_, ?_, hdyn, ?_, ?_⟩
  · intro h
    have hn : FixedInteger.divide a d = none := hfix.2 h
    constructor
    · simp [FixedInteger.divAssign, hn]
    · simp [FixedInteger.modAssign, hn]
  · intro h
    rcases hd : FixedInteger.divide a d with _ | qr
    · exact absurd (hfix.1 hd) (by simp [h])
    · constructor
      · simp [FixedInteger.divAssign, hd]
      · simp [FixedInteger.modAssign, hd]
  · intro h
    have hn : DynamicInteger.divide a2 d2 = none := hdyn.2 h
    constructor
    · simp [DynamicInteger.divAssign, hn]
    · simp [DynamicInteger.modAssign, hn]
  · intro h
    rcases hd : DynamicInteger.divide a2 d2 with _ | qr
    · exact absurd (hdyn.1 hd) (by simp [h])
    · constructor
      · simp [DynamicInteger.divAssign, hd]
      · simp [DynamicInteger.modAssign, hd]

/-- C3 (counterexample): `operator~` on the Dynamic value `[1, W-1]`
(which satisfies the store invariant) yields `[W-2, 0]`, whose
most-significant segment is zero at segment-count 2: the source's
`operator~` does not `trim`, so the stated invariant fails for `~`. -/
theorem claim_C3_cex :
    Good [1, W - 1] ∧ Trimmed [1, W - 1]
      ∧ ¬ Trimmed (DynamicInteger.not [1, W - 1]) := by
  have hW2 : (2 : Nat) ≤ W := by norm_num [W]
  refine ⟨?_, ⟨by simp, Or.inr ?_⟩, ?_⟩
  · intro x hx
    rcases List.mem_cons.1 hx with rfl | hx
    · omega
    · rcases List.mem_singleton.1 hx with rfl
      omega
  · simp only [List.getLastD_cons, List.getLastD_nil]
    omega
  · have he : DynamicInteger.not [1, W - 1] = [W - 2, 0] := by
      rw [DynamicInteger.not]
      simp only [List.map_cons, List.map_nil, Nat.sub_self]
      have h1 : W - 1 - 1 = W - 2 := by omega
      rw [h1]
    rw [he]
    rintro ⟨h1, h2 | h3⟩
    · simp at h2
    · simp only [List.getLastD_cons, List.getLastD_nil] at h3
      exact h3 rfl

/-- C3 (amended): every public Dynamic operation listed in the claim
except `operator~` preserves the store invariant (nonempty, and the
most-significant segment nonzero unless the count is 1): construction,
`+`, `-`, `*`, `/`, `%`, `&`, `|`, `^`, `<<`, `>>`, `++`, `--` and their
compound forms all produce trimmed stores. `operator~` is excluded: it
does not trim (see the counterexample). -/
theorem claim_C3 (v : Int) (a b : List Nat) (hga : Good a) (hta : Trimmed a)
    (hgb : Good b) (htb : Trimmed b) (s : Nat) :
    Trimmed (DynamicInteger.ofInt v)
    ∧ Trimmed (DynamicInteger.add a b)
    ∧ Trimmed (DynamicInteger.sub a b)
    ∧ Trimmed (DynamicInteger.mul a b)
    ∧ (∀ q r, DynamicInteger.divide a b = some (q, r) → Trimmed q ∧ Trimmed r)
    ∧ Trimmed (DynamicInteger.and a b)
    ∧ Trimmed (DynamicInteger.or a b)
    ∧ Trimmed (DynamicInteger.xor a b)
    ∧ Trimmed (DynamicInteger.shl a s)
    ∧ Trimmed (DynamicInteger.shr a s)
    ∧ Trimmed (DynamicInteger.inc a)
    ∧ Trimmed (DynamicInteger.dec a) := by
  refine ⟨(DynamicInteger.ofInt_spec v).2.2,
    (DynamicInteger.add_spec_dyn a b hga hgb hta.1).2.2,
    (DynamicInteger.sub_spec a b hga hgb hta.1).2.2.2.1,
    (DynamicInteger.mul_spec_dyn a b hga hgb hta.1).2.2.2,
    ?_,
    (DynamicInteger.and_spec a b hga hgb hta.1 htb.1).2.1,
    (DynamicInteger.or_spec a b hga hgb hta.1).2,
    (DynamicInteger.xor_spec a b hga hgb hta.1).2,
    (DynamicInteger.shl_spec_dyn a s hga hta.1).2.2 hta,
    (DynamicInteger.shr_spec_dyn a s hga hta.1).2.2 hta,
    (DynamicInteger.inc_spec_dyn a hga hta.1).2.2 hta,
    (DynamicInteger.dec_spec a hga hta.1).2⟩
  intro q r heq
  have hdb : toBool b = true := by
    by_cases h : toBool b = false
    · rw [DynamicInteger.divide, if_pos h] at heq
      exact absurd heq (by simp)
    · revert h
      cases toBool b <;> simp
  obtain ⟨q', r', heq', _, _, _, _, htq, htr⟩ :=
    DynamicInteger.divide_spec_dyn a b hga hgb htb hdb
  rw [heq'] at heq
  injection heq with h
  injection h with h1 h2
  exact ⟨h1 ▸ htq, h2 ▸ htr⟩

theorem claim_C3_witness :
    Good [3] ∧ Trimmed [3] ∧ Good [2] ∧ Trimmed [2]
    ∧ (Trimmed (DynamicInteger.ofInt (-5))
      ∧ Trimmed (DynamicInteger.add [3] [2])
      ∧ Trimmed (DynamicInteger.sub [3] [2])
      ∧ Trimmed (DynamicInteger.mul [3] [2])
      ∧ (∀ q r, DynamicInteger.divide [3] [2] = some (q, r) →
          Trimmed q ∧ Trimmed r)
      ∧ Trimmed (DynamicInteger.and [3] [2])
      ∧ Trimmed (DynamicInteger.or [3] [2])
      ∧ Trimmed (DynamicInteger.xor [3] [2])
      ∧ Trimmed (DynamicInteger.shl [3] 1)
      ∧ Trimmed (DynamicInteger.shr [3] 1)
      ∧ Trimmed (DynamicInteger.inc [3])
      ∧ Trimmed (DynamicInteger.dec [3])) :=
  ⟨by decide, by decide, by decide, by decide,
    claim_C3 (-5) [3] [2] (by decide) (by decide) (by decide) (by decide) 1⟩

/-- C4: the Fixed product is the exact integer product reduced modulo
`2^Bits`, where `Bits = 64 * segment-count`. -/
theorem claim_C4 (a b : List Nat) (hga : Good a) (hgb : Good b)
    (hlen : b.length = a.length) :
    val (FixedInteger.mul a b) = (val a * val b) % 2 ^ (64 * a.length) := by
  obtain ⟨hv, _, _⟩ := FixedInteger.mul_spec a b hga hgb hlen
  rw [hv, FixedInteger.W_pow_eq]

theorem claim_C4_witness :
    Good [6] ∧ Good [7] ∧ ([7] : List Nat).length = ([6] : List Nat).length
    ∧ val (FixedInteger.mul [6] [7])
      = (val [6] * val [7]) % 2 ^ (64 * ([6] : List Nat).length) :=
  ⟨by decide, by decide, rfl, claim_C4 [6] [7] (by decide) (by decide) rfl⟩

/-- C5: for both representations, parsing the decimal serialization of a
value returns exactly that value, and the zero value serializes to the
literal string "0" (the single character code 48). -/
theorem claim_C5 (l : List Nat) (hgl : Good l) (hn : 1 ≤ l.length)
    (m : List Nat) (hgm : Good m) (htm : Trimmed m) :
    FixedInteger.from_string l.length (FixedInteger.to_string l hgl) = some l
    ∧ DynamicInteger.from_string (DynamicInteger.to_string m hgm) = some m
    ∧ (val l = 0 → FixedInteger.to_string l hgl = [48])
    ∧ (val m = 0 → DynamicInteger.to_string m hgm = [48]) := by
  refine ⟨FixedInteger.roundtrip_fix l hgl hn,
    DynamicInteger.roundtrip_dyn m hgm htm, ?_, ?_⟩
  · intro h0
    rw [FixedInteger.to_string, if_pos ((toBool_false_iff l).2 h0)]
  · intro h0
    rw [DynamicInteger.to_string, if_pos ((toBool_false_iff m).2 h0)]

theorem claim_C5_witness :
    Good [5] ∧ 1 ≤ ([5] : List Nat).length ∧ Good [12] ∧ Trimmed [12]
    ∧ (FixedInteger.from_string ([5] : List Nat).length
        (FixedInteger.to_string [5] (by decide)) = some [5]
      ∧ DynamicInteger.from_string
        (DynamicInteger.to_string [12] (by decide)) = some [12]
      ∧ (val [5] = 0 → FixedInteger.to_string [5] (by decide) = [48])
      ∧ (val [12] = 0 → DynamicInteger.to_string [12] (by decide) = [48])) :=
  ⟨by decide, by decide, by decide, by decide,
    claim_C5 [5] (by decide) (by decide) [12] (by decide) (by decide)⟩

/-- C6: `(a << s) >> s == a` always holds in the Dynamic representation;
in the Fixed representation it holds whenever the shift pushes no set bit
of `a` beyond the fixed width, i.e. `val a * 2^s < 2^Bits`. -/
theorem claim_C6 (a : List Nat) (hga : Good a) (s : Nat)
    (hnl : val a * 2 ^ s < 2 ^ (64 * a.length))
    (b : List Nat) (hgb : Good b) (htb : Trimmed b) :
    FixedInteger.shr (FixedInteger.shl a s) s = a
    ∧ DynamicInteger.shr (DynamicInteger.shl b s) s = b := by
  constructor
  · obtain ⟨hsv, hsl, hsg⟩ := FixedInteger.shl_spec a s hga
    rw [FixedInteger.W_pow_eq] at hsv
    have hsv2 : val (FixedInteger.shl a s) = val a * 2 ^ s := by
      rw [hsv, Nat.mod_eq_of_lt hnl]
    obtain ⟨hrv, hrl, hrg⟩ := FixedInteger.shr_spec (FixedInteger.shl a s) s hsg
    apply val_inj hrg hga (by rw [hrl, hsl])
    rw [hrv, hsv2, Nat.mul_div_cancel _ (Nat.pos_pow_of_pos s (by norm_num))]
  · obtain ⟨hsv, hsg, hst⟩ := DynamicInteger.shl_spec_dyn b s hgb htb.1
    have hstt := hst htb
    obtain ⟨hrv, hrg, hrt⟩ :=
      DynamicInteger.shr_spec_dyn (DynamicInteger.shl b s) s hsg hstt.1
    apply trimmed_inj hrg hgb (hrt hstt) htb
    rw [hrv, hsv, Nat.mul_div_cancel _ (Nat.pos_pow_of_pos s (by norm_num))]

theorem claim_C6_witness :
    Good [3] ∧ val [3] * 2 ^ 2 < 2 ^ (64 * ([3] : List Nat).length)
    ∧ Good [6] ∧ Trimmed [6]
    ∧ (FixedInteger.shr (FixedInteger.shl [3] 2) 2 = [3]
      ∧ DynamicInteger.shr (DynamicInteger.shl [6] 2) 2 = [6]) :=
  ⟨by decide, by decide, by decide, by decide,
    claim_C6 [3] (by decide) 2 (by decide) [6] (by decide) (by decide)⟩

/-- C7: incrementing a Dynamic value made of `k` all-ones segments
appends a new segment `1` — the count grows to `k + 1` and the value is
the old value plus one — while decrementing the length-1 zero value wraps
modularly to the single all-ones segment with no growth. -/
theorem claim_C7 (k : Nat) (hk : 1 ≤ k) :
    DynamicInteger.inc (List.replicate k (W - 1))
      = List.replicate k 0 ++ [1]
    ∧ val (DynamicInteger.inc (List.replicate k (W - 1)))
      = val (List.replicate k (W - 1)) + 1
    ∧ (DynamicInteger.inc (List.replicate k (W - 1))).length = k + 1
    ∧ DynamicInteger.dec [0] = [W - 1]
    ∧ (DynamicInteger.dec [0]).length = 1 := by
  have he : DynamicInteger.inc (List.replicate k (W - 1))
      = List.replicate k 0 ++ [1] := by
    rw [DynamicInteger.inc]
    simp [incSegs_allones]
  have hgk : Good (List.replicate k (W - 1)) :=
    Good_replicate _ _ (by have := W_pos; omega)
  have hnek : List.replicate k (W - 1) ≠ [] := by
    intro hc
    have : (List.replicate k (W - 1)).length = 0 := by rw [hc]; rfl
    simp at this
    omega
  have hdec : DynamicInteger.dec [0] = [W - 1] := by
    rw [DynamicInteger.dec]
    have h1 : decSegs [0] = [W - 1] := by
      rw [decSegs, if_neg (by simp), decSegs]
    rw [h1]
    exact trim_eq_self ⟨by simp, Or.inl rfl⟩
  refine ⟨he, ?_, ?_, hdec, ?_⟩
  · exact (DynamicInteger.inc_spec_dyn (List.replicate k (W - 1)) hgk hnek).1
  · rw [he]
    simp
  · rw [hdec]
    simp

theorem claim_C7_witness :
    1 ≤ 2
    ∧ (DynamicInteger.inc (List.replicate 2 (W - 1))
        = List.replicate 2 0 ++ [1]
      ∧ val (DynamicInteger.inc (List.replicate 2 (W - 1)))
        = val (List.replicate 2 (W - 1)) + 1
      ∧ (DynamicInteger.inc (List.replicate 2 (W - 1))).length = 2 + 1
      ∧ DynamicInteger.dec [0] = [W - 1]
      ∧ (DynamicInteger.dec [0]).length = 1) :=
  ⟨by decide, claim_C7 2 (by decide)⟩

/-- C8: a negative native integer is stored as its two's-complement cast
`(v % 2^64).toNat` in segment 0; the Fixed constructor fills every higher
segment with all-ones (sign extension across the width), while the Dynamic
constructor produces exactly one segment (no sign extension). -/
theorem claim_C8 (n : Nat) (hn : 1 ≤ n) (v : Int) (hv : v < 0) :
    FixedInteger.ofInt n v
      = (v % (2 ^ 64 : Int)).toNat :: List.replicate (n - 1) (W - 1)
    ∧ DynamicInteger.ofInt v = [(v % (2 ^ 64 : Int)).toNat]
    ∧ (DynamicInteger.ofInt v).length = 1 :=
  ⟨FixedInteger.ofInt_eq_neg n v hn hv, rfl, rfl⟩

theorem claim_C8_witness :
    1 ≤ 2 ∧ (-7 : Int) < 0
    ∧ (FixedInteger.ofInt 2 (-7)
        = ((-7 : Int) % (2 ^ 64 : Int)).toNat :: List.replicate (2 - 1) (W - 1)
      ∧ DynamicInteger.ofInt (-7) = [((-7 : Int) % (2 ^ 64 : Int)).toNat]
      ∧ (DynamicInteger.ofInt (-7)).length = 1) :=
  ⟨by decide, by decide, claim_C8 2 (by decide) (-7) (by decide)⟩

/-- C9: with a truthy divisor, in both representations the remainder
produced by the division routine — the value `%` and `%=` return — is
strictly less than the divisor. -/
theorem claim_C9 (a d : List Nat) (hga : Good a) (hgd : Good d)
    (hlen : d.length = a.length) (htb : toBool d = true)
    (a2 d2 : List Nat) (hga2 : Good a2) (hgd2 : Good d2)
    (htd2 : Trimmed d2) (htb2 : toBool d2 = true) :
    (∀ q r, FixedInteger.divide a d = some (q, r) → val r < val d)
    ∧ val (FixedInteger.modAssign a d).1 < val d
    ∧ (∀ q r, DynamicInteger.divide a2 d2 = some (q, r) → val r < val d2)
    ∧ val (DynamicInteger.modAssign a2 d2).1 < val d2 := by
  have hvd : 0 < val d := by
    have := (toBool_iff d).1 htb
    omega
  have hvd2 : 0 < val d2 := by
    have := (toBool_iff d2).1 htb2
    omega
  obtain ⟨q', r', heq', hqv, hrv, _, _, _, _⟩ :=
    FixedInteger.divide_spec a d hga hgd hlen htb
  have hrlt : val r' < val d := by
    rw [hrv]
    exact Nat.mod_lt _ hvd
  obtain ⟨q2, r2, heq2, hqv2, hrv2, _, _, _, _⟩ :=
    DynamicInteger.divide_spec_dyn a2 d2 hga2 hgd2 htd2 htb2
  have hrlt2 : val r2 < val d2 := by
    rw [hrv2]
    exact Nat.mod_lt _ hvd2
  refine ⟨?_, ?_, ?_, ?_⟩
  · intro q r heq
    rw [heq'] at heq
    injection heq with h
    injection h with h1 h2
    rw [← h2]
    exact hrlt
  · have hm : FixedInteger.modAssign a d = (r', false) := by
      rw [FixedInteger.modAssign, heq']
    rw [hm]
    exact hrlt
  · intro q r heq
    rw [heq2] at heq
    injection heq with h
    injection h with h1 h2
    rw [← h2]
    exact hrlt2
  · have hm : DynamicInteger.modAssign a2 d2 = (r2, false) := by
      rw [DynamicInteger.modAssign, heq2]
    rw [hm]
    exact hrlt2

theorem claim_C9_witness :
    Good [7] ∧ Good [3] ∧ ([3] : List Nat).length = ([7] : List Nat).length
    ∧ toBool [3] = true ∧ Good [9] ∧ Good [4] ∧ Trimmed [4]
    ∧ toBool [4] = true
    ∧ ((∀ q r, FixedInteger.divide [7] [3] = some (q, r) → val r < val [3])
      ∧ val (FixedInteger.modAssign [7] [3]).1 < val [3]
      ∧ (∀ q r, DynamicInteger.divide [9] [4] = some (q, r) → val r < val [4])
      ∧ val (DynamicInteger.modAssign [9] [4]).1 < val [4]) :=
  ⟨by decide, by decide, rfl, by decide, by decide, by decide, by decide,
    by decide,
    claim_C9 [7] [3] (by decide) (by decide) rfl (by decide)
      [9] [4] (by decide) (by decide) (by decide) (by decide)⟩

/-- C10: Dynamic subtraction with a larger subtrahend does not fail (the
embedding is total, as the source has no error path) and stays within
`max` segments: the result is the representative of
`val a - val b` modulo `2^(64*max(len a, len b))`, trimmed. -/
theorem claim_C10 (a b : List Nat) (hga : Good a) (hgb : Good b)
    (hne : a ≠ []) (hlt : val a < val b) :
    val (DynamicInteger.sub a b)
      = 2 ^ (64 * max a.length b.length) + val a - val b
    ∧ (DynamicInteger.sub a b).length ≤ max a.length b.length
    ∧ Trimmed (DynamicInteger.sub a b) := by
  obtain ⟨hge, hlt2, hg, ht, hlen⟩ := DynamicInteger.sub_spec a b hga hgb hne
  refine ⟨?_, hlen, ht⟩
  rw [← FixedInteger.W_pow_eq]
  exact hlt2 hlt

theorem claim_C10_witness :
    Good [1] ∧ Good [5] ∧ ([1] : List Nat) ≠ [] ∧ val [1] < val [5]
    ∧ (val (DynamicInteger.sub [1] [5])
        = 2 ^ (64 * max ([1] : List Nat).length ([5] : List Nat).length)
          + val [1] - val [5]
      ∧ (DynamicInteger.sub [1] [5]).length
        ≤ max ([1] : List Nat).length ([5] : List Nat).length
      ∧ Trimmed (DynamicInteger.sub [1] [5])) :=
  ⟨by decide, by decide, by decide, by decide,
    claim_C10 [1] [5] (by decide) (by decide) (by decide) (by decide)⟩

end ArbitraryPrecision
